import Mathlib

/-!
# sorthero: classification, renaming and relocation of video files

A shallow embedding of `main.go` (package `main`).

Modelling conventions.

* A Go `string` is modelled as a `List Char`: the sequence of its Unicode
  code points.  This covers every Go string that is valid UTF-8.  Byte
  lengths (needed for the slice expression `s[:4]`) are computed from the
  UTF-8 width of each code point.
* Paths follow the Unix rules of `path/filepath` (separator `/`, no volume
  names).
* The parts of the Unicode tables that lie above ASCII (`unicode.ToLower`,
  `unicode.ToTitle`, `unicode.IsLetter`, `unicode.IsDigit`) are a parameter
  `UnicodeTables`; the ASCII fast paths of the Go library are written out.
* The metadata providers (`searchTMDB`, `searchTVDB` perform HTTP requests)
  and the operating system calls of `processFile` are parameters: functions
  that give the result of each call.
* `debugLog` only writes to standard output.  It is modelled in
  `processFile` and `copyFile`, whose emitted output is observed, and is
  left out of the pure functions, whose returned values it cannot change.
* A run-time panic is an outcome of its own (`Outcome.fault`).  Where the
  slice `date[:4]` cuts a multi-byte character the Go string is no longer
  valid UTF-8; the model reports this as `Outcome.invalidUTF8` and says
  nothing more about that call.
-/

namespace SortHero

/-- A Go string, as the list of its code points. -/
abbrev GoString := List Char

/-- The Unicode tables above ASCII used by `strings.ToLower` and
`strings.Title`. -/
structure UnicodeTables where
  toLower : Char → Char
  toTitle : Char → Char
  isLetter : Char → Bool
  isDigit : Char → Bool

/-- Tables that leave every non-ASCII character unchanged and class-less. -/
def asciiTables : UnicodeTables :=
  ⟨fun c => c, fun c => c, fun _ => false, fun _ => false⟩

/-! ## Package `unicode` -/

/-- The ASCII branch of `unicode.ToLower`. -/
def asciiToLower (r : Char) : Char :=
  if 'A'.toNat ≤ r.toNat ∧ r.toNat ≤ 'Z'.toNat then Char.ofNat (r.toNat + 32) else r

/-- Function `unicode.ToLower`: ASCII fast path, else the case table. -/
def unicodeToLower (U : UnicodeTables) (r : Char) : Char :=
  if r.toNat ≤ 0x7F then asciiToLower r else U.toLower r

/-- The ASCII branch of `unicode.ToTitle`. -/
def asciiToTitle (r : Char) : Char :=
  if 'a'.toNat ≤ r.toNat ∧ r.toNat ≤ 'z'.toNat then Char.ofNat (r.toNat - 32) else r

/-- Function `unicode.ToTitle`: ASCII fast path, else the case table. -/
def unicodeToTitle (U : UnicodeTables) (r : Char) : Char :=
  if r.toNat ≤ 0x7F then asciiToTitle r else U.toTitle r

/-- Function `unicode.IsSpace`: the Latin-1 switch, then the `White_Space` table. -/
def unicodeIsSpace (r : Char) : Bool :=
  let n := r.toNat
  if n ≤ 0xFF then
    n = 0x09 ∨ n = 0x0A ∨ n = 0x0B ∨ n = 0x0C ∨ n = 0x0D ∨ n = 0x20 ∨ n = 0x85 ∨ n = 0xA0
  else
    n = 0x1680 ∨ (0x2000 ≤ n ∧ n ≤ 0x200A) ∨ n = 0x2028 ∨ n = 0x2029 ∨ n = 0x202F ∨
      n = 0x205F ∨ n = 0x3000

/-! ## Package `strings` -/

/-- Function `strings.ReplaceAll(s, old, new)` for one-character `old` and `new`. -/
def replaceAllChar (old new : Char) (s : GoString) : GoString :=
  s.map (fun c => if c = old then new else c)

/-- Function `strings.ToLower`: every rune mapped by `unicode.ToLower` (the
ASCII-only loop of the library computes the same string). -/
def stringsToLower (U : UnicodeTables) (s : GoString) : GoString :=
  s.map (unicodeToLower U)

/-- The ASCII branch of `isSeparator`: alphanumerics and underscore are
not separators. -/
def asciiIsSeparator (r : Char) : Bool :=
  let n := r.toNat
  if '0'.toNat ≤ n ∧ n ≤ '9'.toNat then false
  else if 'a'.toNat ≤ n ∧ n ≤ 'z'.toNat then false
  else if 'A'.toNat ≤ n ∧ n ≤ 'Z'.toNat then false
  else if n = '_'.toNat then false
  else true

/-- Function `isSeparator` of package `strings`. -/
def isSeparator (U : UnicodeTables) (r : Char) : Bool :=
  if r.toNat ≤ 0x7F then asciiIsSeparator r
  else if U.isLetter r || U.isDigit r then false
  else unicodeIsSpace r

/-- The mapping closure of `strings.Title`, with its captured variable
`prev` made an argument: called once per rune, in order. -/
def titleFrom (U : UnicodeTables) : Char → GoString → GoString
  | _, [] => []
  | prev, r :: rs =>
    (if isSeparator U prev then unicodeToTitle U r else r) :: titleFrom U r rs

/-- Function `strings.Title`: `prev` starts as a space. -/
def stringsTitle (U : UnicodeTables) (s : GoString) : GoString :=
  titleFrom U ' ' s

/-- Function `strings.TrimSpace`: leading and trailing white space removed. -/
def stringsTrimSpace (s : GoString) : GoString :=
  ((s.dropWhile unicodeIsSpace).reverse.dropWhile unicodeIsSpace).reverse

/-- Function `strings.TrimSuffix`. -/
def stringsTrimSuffix (s suffix : GoString) : GoString :=
  if suffix.isSuffixOf s then s.take (s.length - suffix.length) else s

/-! ## Package `fmt` -/

/-- Padding of `%02s`: zeros on the left up to a width of two runes. -/
def padZero2 (s : GoString) : GoString :=
  List.replicate (2 - s.length) '0' ++ s

/-- Function `fmt.Sprintf` for string operands and the verbs this program uses:
`%s`, `%v` (an error prints as its message) and `%02s`.  Every call of the
program passes one operand for each verb of its constant format. -/
def sprintf : GoString → List GoString → GoString
  | [], _ => []
  | '%' :: 's' :: rest, a :: args => a ++ sprintf rest args
  | '%' :: 'v' :: rest, a :: args => a ++ sprintf rest args
  | '%' :: '0' :: '2' :: 's' :: rest, a :: args => padZero2 a ++ sprintf rest args
  | c :: rest, args => c :: sprintf rest args

/-! ## Package `regexp` -/

/-- The fragment of regular expressions the two patterns are written in.
Repetition is only ever applied to a single character class. -/
inductive Re where
  | cls (p : Char → Bool)
  | rep (p : Char → Bool) (min : Nat) (max : Option Nat) (greedy : Bool)
  | seq (a b : Re)
  | alt (a b : Re)
  | opt (r : Re)
  | group (i : Nat) (r : Re)

/-- The inputs left after a run of 0, 1, 2, ... characters of class `p`. -/
def classRuns (p : Char → Bool) : GoString → List GoString
  | [] => [[]]
  | c :: cs => (c :: cs) :: (if p c then classRuns p cs else [])

/-- The ways a bounded repetition of a class can match, in the order a
backtracking search tries them. -/
def repRuns (p : Char → Bool) (min : Nat) (max : Option Nat) (greedy : Bool)
    (s : GoString) : List GoString :=
  let all := (classRuns p s).drop min
  let kept := match max with
    | none => all
    | some m => all.take (m + 1 - min)
  if greedy then kept.reverse else kept

/-- Every way `r` matches at the start of the input, as (remaining input,
captures), in backtracking priority order (leftmost-first semantics). -/
def Re.run : Re → GoString → List GoString → List (GoString × List GoString)
  | .cls _, [], _ => []
  | .cls p, c :: cs, caps => if p c then [(cs, caps)] else []
  | .rep p min max greedy, s, caps => (repRuns p min max greedy s).map (fun t => (t, caps))
  | .seq a b, s, caps => (a.run s caps).flatMap (fun x => b.run x.1 x.2)
  | .alt a b, s, caps => a.run s caps ++ b.run s caps
  | .opt r, s, caps => r.run s caps ++ [(s, caps)]
  | .group i r, s, caps =>
    (r.run s caps).map (fun x => (x.1, x.2.set i (s.take (s.length - x.1.length))))

/-- The numbers of the groups of a pattern. -/
def Re.groups : Re → List Nat
  | .cls _ => []
  | .rep _ _ _ _ => []
  | .seq a b => a.groups ++ b.groups
  | .alt a b => a.groups ++ b.groups
  | .opt r => r.groups
  | .group i r => i :: r.groups

/-- Method `FindStringSubmatch` for a pattern anchored with `^` having `n`
groups: the first match in priority order; index 0 is the whole match and
a group that took no part is the empty string. -/
def findStringSubmatch (re : Re) (n : Nat) (s : GoString) : Option (List GoString) :=
  match re.run s (List.replicate (n + 1) []) with
  | [] => none
  | x :: _ => some (x.2.set 0 (s.take (s.length - x.1.length)))

/-- A literal character under the flag `(?i)`: the character, its other
case, and the further members of its simple-folding orbit (`ſ` for `s`,
the Kelvin sign for `k`). -/
def foldLit (l c : Char) : Bool :=
  c = l ||
  ('a'.toNat ≤ l.toNat && l.toNat ≤ 'z'.toNat && c.toNat = l.toNat - 32) ||
  ('A'.toNat ≤ l.toNat && l.toNat ≤ 'Z'.toNat && c.toNat = l.toNat + 32) ||
  ((l = 's' || l = 'S') && c.toNat = 0x17F) ||
  ((l = 'k' || l = 'K') && c.toNat = 0x212A)

/-- A literal string under `(?i)`. -/
def Re.lit : Char → GoString → Re
  | c, [] => .cls (foldLit c)
  | c, d :: ds => .seq (.cls (foldLit c)) (Re.lit d ds)

/-- The class `.`: any character but a newline. -/
def reDot (c : Char) : Bool := c ≠ '\n'

/-- The class `[\.\s]`, where `\s` is `[\t\n\f\r ]`. -/
def reDelim (c : Char) : Bool :=
  c = '.' || c = '\t' || c = '\n' || c.toNat = 0x0C || c = '\r' || c = ' '

/-- The class `\d`. -/
def reDigit (c : Char) : Bool := '0'.toNat ≤ c.toNat && c.toNat ≤ '9'.toNat

/-- The group `(720p|1080p|2160p|BRRip|BluRay|WEBRip|HDRip)` numbered `i`. -/
def reQuality (i : Nat) : Re :=
  .group i
    (.alt (Re.lit '7' "20p".toList)
    (.alt (Re.lit '1' "080p".toList)
    (.alt (Re.lit '2' "160p".toList)
    (.alt (Re.lit 'B' "RRip".toList)
    (.alt (Re.lit 'B' "luRay".toList)
    (.alt (Re.lit 'W' "EBRip".toList)
          (Re.lit 'H' "DRip".toList)))))))

/-- The class `[Ss]` under `(?i)`. -/
def reClassS (c : Char) : Bool := foldLit 'S' c || foldLit 's' c

/-- The class `[Ee]` under `(?i)`. -/
def reClassE (c : Char) : Bool := foldLit 'E' c || foldLit 'e' c

/-- The alternation `19\d{2}|20\d{2}`. -/
def reYear : Re :=
  .alt (.seq (Re.lit '1' ['9']) (.rep reDigit 2 (some 2) true))
       (.seq (Re.lit '2' ['0']) (.rep reDigit 2 (some 2) true))

/-- The pattern
`(?i)^(.+?)[\.\s]+(19\d{2}|20\d{2})[\.\s]+(720p|1080p|2160p|BRRip|BluRay|WEBRip|HDRip)?`. -/
def movieRegex : Re :=
  .seq (.group 1 (.rep reDot 1 none false))
  (.seq (.rep reDelim 1 none true)
  (.seq (.group 2 reYear)
  (.seq (.rep reDelim 1 none true)
        (.opt (reQuality 3)))))

/-- The pattern
`(?i)^(.+?)[\.\s]+[Ss](\d{1,2})[Ee](\d{1,2})[\.\s]*(720p|1080p|2160p|BRRip|BluRay|WEBRip|HDRip)?`. -/
def tvRegex : Re :=
  .seq (.group 1 (.rep reDot 1 none false))
  (.seq (.rep reDelim 1 none true)
  (.seq (.cls reClassS)
  (.seq (.group 2 (.rep reDigit 1 (some 2) true))
  (.seq (.cls reClassE)
  (.seq (.group 3 (.rep reDigit 1 (some 2) true))
  (.seq (.rep reDelim 0 none true)
        (.opt (reQuality 4))))))))

/-! ## Package `path/filepath` (Unix) -/

/-- Function `filepath.Base`. -/
def filepathBase (path : GoString) : GoString :=
  if path = [] then ['.']
  else
    let stripped := path.reverse.dropWhile (fun c => c = '/')
    let last := (stripped.takeWhile (fun c => c ≠ '/')).reverse
    if last = [] then ['/'] else last

/-- The loop of `filepath.Ext`, reading the path from its end; `acc` is
the part already passed. -/
def extScan : GoString → GoString → GoString
  | [], _ => []
  | c :: cs, acc =>
    if c = '/' then []
    else if c = '.' then '.' :: acc
    else extScan cs (c :: acc)

/-- Function `filepath.Ext`. -/
def filepathExt (path : GoString) : GoString :=
  extScan path.reverse []

/-- The inner loop of the `..` case of `Clean`: `w` moves down while it
is above `dotdot` and `out[w]` is not a separator; the buffer is cut at
`w`. -/
def backtrackTo (out : GoString) (dotdot : Nat) : Nat → GoString
  | 0 => []
  | w + 1 =>
    if w + 1 > dotdot ∧ out.getD (w + 1) '/' ≠ '/' then backtrackTo out dotdot w
    else out.take (w + 1)

/-- The main loop of `filepath.Clean`.  `path` is what is left to read,
`out` the buffer written so far and `dotdot` the index where `..` must
stop; the result is the final state of both.  Every iteration consumes
input, so `fuel` above the length of the input is never used up. -/
def cleanLoop (rooted : Bool) : Nat → GoString → GoString → Nat → GoString × Nat
  | 0, _, out, dotdot => (out, dotdot)
  | _ + 1, [], out, dotdot => (out, dotdot)
  | fuel + 1, c :: rest, out, dotdot =>
    if c = '/' then
      cleanLoop rooted fuel rest out dotdot
    else if c = '.' ∧ (rest = [] ∨ rest.head? = some '/') then
      cleanLoop rooted fuel rest out dotdot
    else if c = '.' ∧ rest.head? = some '.' ∧
        (rest.tail = [] ∨ rest.tail.head? = some '/') then
      if out.length > dotdot then
        cleanLoop rooted fuel rest.tail (backtrackTo out dotdot (out.length - 1)) dotdot
      else if !rooted then
        let out1 := if out.length > 0 then out ++ ['/'] else out
        let out2 := out1 ++ ['.', '.']
        cleanLoop rooted fuel rest.tail out2 out2.length
      else
        cleanLoop rooted fuel rest.tail out dotdot
    else
      let out1 :=
        if (rooted && out.length != 1) || (!rooted && out.length != 0) then out ++ ['/']
        else out
      cleanLoop rooted fuel ((c :: rest).dropWhile (fun x => x ≠ '/'))
        (out1 ++ (c :: rest).takeWhile (fun x => x ≠ '/')) dotdot

/-- Function `filepath.Clean`. -/
def filepathClean (path : GoString) : GoString :=
  if path = [] then ['.']
  else
    let rooted : Bool := path.head? = some '/'
    let out :=
      if rooted then (cleanLoop true (path.length + 1) path.tail ['/'] 1).1
      else (cleanLoop false (path.length + 1) path [] 0).1
    if out = [] then ['.'] else out

/-- Function `filepath.Join`: the elements from the first non-empty one on, joined
with the separator and cleaned; the empty string if there is none. -/
def filepathJoin : List GoString → GoString
  | [] => []
  | e :: es =>
    if e = [] then filepathJoin es
    else filepathClean (List.intercalate ['/'] (e :: es))

/-- Function `filepath.Dir`: the path up to its last separator, cleaned. -/
def filepathDir (path : GoString) : GoString :=
  filepathClean (path.reverse.dropWhile (fun c => c ≠ '/')).reverse

/-! ## The program -/

/-- The struct `MediaFile` (its field `Type` is named `Typ`). -/
structure MediaFile where
  Path : GoString
  Typ : GoString
  Title : GoString
  Year : GoString
  Season : GoString
  Episode : GoString
  Quality : GoString
  Ext : GoString
  TargetPath : GoString
deriving DecidableEq, Repr

/-- An element of `TMDBSearchResult.Results`. -/
structure TMDBResult where
  ID : Int
  Title : GoString
  ReleaseDate : GoString
deriving DecidableEq, Repr

/-- An element of `TVDBSearchResult.Data`. -/
structure TVDBResult where
  ID : Int
  SeriesName : GoString
  FirstAired : GoString
  Status : GoString
  Network : GoString
deriving DecidableEq, Repr

/-- What a call of `searchTMDB` or `searchTVDB` returns: an error, or the
decoded result sequence. -/
abbrev Lookup (α : Type) := Except GoString (List α)

/-- Width in bytes of the UTF-8 encoding of a code point. -/
def utf8Width (c : Char) : Nat :=
  if c.toNat < 0x80 then 1 else if c.toNat < 0x800 then 2
  else if c.toNat < 0x10000 then 3 else 4

/-- Builtin `len(s)`: the length of a string in bytes. -/
def goLen (s : GoString) : Nat := (s.map utf8Width).sum

/-- Result of the slice expression `s[:n]`. -/
inductive Slice where
  /-- Run-time panic: slice bounds out of range. -/
  | outOfRange
  /-- Byte `n` falls inside a multi-byte character: the Go result is not
  valid UTF-8 and is not a string of this model. -/
  | splitsRune
  | ok (s : GoString)
deriving DecidableEq, Repr

/-- The slice expression `s[:n]`, which counts bytes. -/
def sliceTo : GoString → Nat → Slice
  | _, 0 => .ok []
  | [], _ + 1 => .outOfRange
  | c :: cs, n + 1 =>
    if utf8Width c ≤ n + 1 then
      match sliceTo cs (n + 1 - utf8Width c) with
      | .ok s => .ok (c :: s)
      | r => r
    else .splitsRune

/-- How a call of `parseFile` ends. -/
inductive Outcome where
  /-- Returns `(mf, nil)`. -/
  | ok (mf : MediaFile)
  /-- Returns `(nil, err)`; `msg` is the text of the error. -/
  | error (msg : GoString)
  /-- Run-time panic (slice bounds out of range). -/
  | fault
  /-- Returns a descriptor whose year was cut inside a multi-byte
  character of the provider date, outside the strings modelled here. -/
  | invalidUTF8
deriving DecidableEq, Repr

/-- Function `cleanTitle`. -/
def cleanTitle (U : UnicodeTables) (title : GoString) : GoString :=
  let title := replaceAllChar '.' ' ' title
  let title := stringsTitle U (stringsToLower U title)
  stringsTrimSpace title

/-- Method `(*MediaFile).NewName`. -/
def MediaFile.NewName (mf : MediaFile) : GoString :=
  if mf.Typ = "movie".toList then
    if mf.Quality ≠ [] then
      sprintf "%s (%s) [%s]%s".toList [mf.Title, mf.Year, mf.Quality, mf.Ext]
    else
      sprintf "%s (%s)%s".toList [mf.Title, mf.Year, mf.Ext]
  else
    let season := sprintf "S%02s".toList [mf.Season]
    let episode := sprintf "E%02s".toList [mf.Episode]
    if mf.Quality ≠ [] then
      sprintf "%s %s%s [%s]%s".toList [mf.Title, season, episode, mf.Quality, mf.Ext]
    else
      sprintf "%s %s%s%s".toList [mf.Title, season, episode, mf.Ext]

/-- The last three statements of the series branch of `parseFile`: the
target path is computed and stored. -/
def targetTV (destDir : GoString) (mf : MediaFile) : MediaFile :=
  let showDir := filepathJoin [destDir, "TV Shows".toList, mf.Title]
  let seasonDir := filepathJoin [showDir, sprintf "Season %s".toList [mf.Season]]
  { mf with TargetPath := filepathJoin [seasonDir, mf.NewName] }

/-- The last statements of the movie branch of `parseFile`. -/
def targetMovie (destDir : GoString) (mf : MediaFile) : MediaFile :=
  let movieDir := filepathJoin [destDir, "Movies".toList]
  { mf with TargetPath := filepathJoin [movieDir, mf.NewName] }

/-- The series branch of `parseFile` from the metadata lookup on: `mf` is
the descriptor built from the captures, `r` what `searchTVDB(mf.Title)`
returned. -/
def finishTV (destDir : GoString) (mf : MediaFile) (r : Lookup TVDBResult) : Outcome :=
  match r with
  | .ok (d :: _) =>
    let mf := { mf with Title := d.SeriesName }
    if d.FirstAired ≠ [] then
      match sliceTo d.FirstAired 4 with
      | .ok y => .ok (targetTV destDir { mf with Year := y })
      | .outOfRange => .fault
      | .splitsRune => .invalidUTF8
    else .ok (targetTV destDir mf)
  | _ => .ok (targetTV destDir mf)

/-- The movie branch of `parseFile` from the metadata lookup on. -/
def finishMovie (destDir : GoString) (mf : MediaFile) (r : Lookup TMDBResult) : Outcome :=
  match r with
  | .ok (d :: _) =>
    let mf := { mf with Title := d.Title }
    if d.ReleaseDate ≠ [] then
      match sliceTo d.ReleaseDate 4 with
      | .ok y => .ok (targetMovie destDir { mf with Year := y })
      | .outOfRange => .fault
      | .splitsRune => .invalidUTF8
    else .ok (targetMovie destDir mf)
  | _ => .ok (targetMovie destDir mf)

/-- The base name of `path` with its extension removed (`name` in
`parseFile`). -/
def baseName (path : GoString) : GoString :=
  let base := filepathBase path
  stringsTrimSuffix base (filepathExt base)

/-- The composite literal of the series branch of `parseFile`; `m` is
the result of `FindStringSubmatch`. -/
def tvFile (U : UnicodeTables) (path ext : GoString) (m : List GoString) : MediaFile :=
  { Path := path, Typ := "tv".toList, Title := cleanTitle U (m.getD 1 []),
    Year := [], Season := m.getD 2 [], Episode := m.getD 3 [],
    Quality := m.getD 4 [], Ext := ext, TargetPath := [] }

/-- The composite literal of the movie branch of `parseFile`. -/
def movieFile (U : UnicodeTables) (path ext : GoString) (m : List GoString) : MediaFile :=
  { Path := path, Typ := "movie".toList, Title := cleanTitle U (m.getD 1 []),
    Year := m.getD 2 [], Season := [], Episode := [],
    Quality := m.getD 3 [], Ext := ext, TargetPath := [] }

/-- Function `parseFile`.  `searchTVDB` and `searchTMDB` give the result of the
metadata lookup for a title. -/
def parseFile (U : UnicodeTables) (searchTVDB : GoString → Lookup TVDBResult)
    (searchTMDB : GoString → Lookup TMDBResult) (path destDir : GoString) : Outcome :=
  let base := filepathBase path
  let ext := filepathExt base
  let name := stringsTrimSuffix base ext
  match findStringSubmatch tvRegex 4 name with
  | some m =>
    let mf := tvFile U path ext m
    finishTV destDir mf (searchTVDB mf.Title)
  | none =>
    match findStringSubmatch movieRegex 3 name with
    | some m =>
      let mf := movieFile U path ext m
      finishMovie destDir mf (searchTMDB mf.Title)
    | none => .error (sprintf "unable to parse filename: %s".toList [name])

/-! ## `processFile` and the operating system -/

/-- What the program does to the outside world, call by call. -/
inductive Effect where
  /-- Text written to standard output (`fmt.Printf`). -/
  | stdout (text : GoString)
  | mkdirAll (dir : GoString) (perm : Nat)
  | rename (src dst : GoString)
  | symlink (src dst : GoString)
  /-- Call `os.Open(name)`: opens for reading. -/
  | openFile (name : GoString)
  /-- Call `os.Create(name)`: creates or truncates. -/
  | createFile (name : GoString)
  /-- Call `io.Copy(destination, source)`. -/
  | copyData (dst src : GoString)
  | closeFile (name : GoString)
deriving DecidableEq, Repr

/-- The calls that change the file system. -/
def Effect.mutates : Effect → Bool
  | .stdout _ => false
  | .mkdirAll _ _ => true
  | .rename _ _ => true
  | .symlink _ _ => true
  | .openFile _ => false
  | .createFile _ => true
  | .copyData _ _ => true
  | .closeFile _ => false

/-- The result of each system call: `none` is a nil error, `some msg` an
error with that text. -/
structure OS where
  mkdirAll : GoString → Option GoString
  rename : GoString → GoString → Option GoString
  symlink : GoString → GoString → Option GoString
  openFile : GoString → Option GoString
  createFile : GoString → Option GoString
  copyData : GoString → GoString → Option GoString

/-- Function `debugLog`: a line on standard output when the flag `debug` is set. -/
def debugLog (debug : Bool) (format : GoString) (args : List GoString) : List Effect :=
  if debug then [.stdout (sprintf ("[DEBUG] ".toList ++ format ++ "\n".toList) args)] else []

/-- Function `copyFile`: the calls made, in order, and the error returned. -/
def copyFile (os : OS) (debug : Bool) (src dst : GoString) : List Effect × Option GoString :=
  let log := debugLog debug "Copying from %s to %s".toList [src, dst]
  match os.openFile src with
  | some err => (log ++ [.openFile src], some err)
  | none =>
    match os.createFile dst with
    | some err => (log ++ [.openFile src, .createFile dst, .closeFile src], some err)
    | none =>
      (log ++ [.openFile src, .createFile dst, .copyData dst src, .closeFile dst,
        .closeFile src], os.copyData dst src)

/-- Function `processFile`: the calls made, in order, and the error returned. -/
def processFile (os : OS) (debug : Bool) (mf : MediaFile) (operation : GoString)
    (dryRun : Bool) : List Effect × Option GoString :=
  let log := debugLog debug "Processing file with operation: %s".toList [operation]
  let targetDir := filepathDir mf.TargetPath
  let mk : List Effect := if !dryRun then [.mkdirAll targetDir 0o755] else []
  match (if !dryRun then os.mkdirAll targetDir else none) with
  | some err =>
    (log ++ mk, some (sprintf "error creating directory %s: %v".toList [targetDir, err]))
  | none =>
    if operation = "copy".toList then
      if dryRun then
        (log ++ mk ++ [.stdout (sprintf "Would copy: %s -> %s\n".toList
          [mf.Path, mf.TargetPath])], none)
      else
        let r := copyFile os debug mf.Path mf.TargetPath
        (log ++ mk ++ debugLog debug "Copying file".toList [] ++ r.1, r.2)
    else if operation = "move".toList then
      if dryRun then
        (log ++ mk ++ [.stdout (sprintf "Would move: %s -> %s\n".toList
          [mf.Path, mf.TargetPath])], none)
      else
        (log ++ mk ++ debugLog debug "Moving file".toList [] ++
          [.rename mf.Path mf.TargetPath], os.rename mf.Path mf.TargetPath)
    else if operation = "symlink".toList then
      if dryRun then
        (log ++ mk ++ [.stdout (sprintf "Would symlink: %s -> %s\n".toList
          [mf.Path, mf.TargetPath])], none)
      else
        (log ++ mk ++ debugLog debug "Creating symlink".toList [] ++
          [.symlink mf.Path mf.TargetPath], os.symlink mf.Path mf.TargetPath)
    else
      (log ++ mk, some (sprintf "unknown operation: %s".toList [operation]))

/-! ## The title normalisation in the words of the specification -/

/-- Word capitalisation as the specification words it: the first letter of
each whitespace-delimited token uppercased, the remainder lowercased.
`start` tells whether the next character begins a token. -/
def capitalizeTokens (U : UnicodeTables) : Bool → GoString → GoString
  | _, [] => []
  | start, c :: cs =>
    if unicodeIsSpace c then c :: capitalizeTokens U true cs
    else (if start then unicodeToTitle U c else unicodeToLower U c) ::
      capitalizeTokens U false cs

/-- Title normalisation as the specification words it: dots replaced by
spaces, word capitalisation over whitespace-delimited tokens, then leading
and trailing white space trimmed. -/
def cleanTitleSpec (U : UnicodeTables) (title : GoString) : GoString :=
  stringsTrimSpace (capitalizeTokens U true (replaceAllChar '.' ' ' title))

/-! ## Auxiliary definitions: paths and the loop of `Clean` -/

/-- The elements of a path: the pieces between its separators. -/
def splitSlash : GoString → List GoString
  | [] => [[]]
  | c :: cs =>
    if c = '/' then [] :: splitSlash cs
    else
      match splitSlash cs with
      | [] => [[c]]
      | e :: es => (c :: e) :: es

/-- A path element that names something: not empty, without separator, and
neither `.` nor `..`. -/
def normalElem (e : GoString) : Bool :=
  e ≠ [] && !e.contains '/' && e ≠ ['.'] && e ≠ ['.', '.']

/-- The clean path `dir/e` for a clean `dir`: `.` is the empty relative
path and `/` already ends in the separator. -/
def joinElem (dir e : GoString) : GoString :=
  if dir = ['.'] then e
  else if dir = ['/'] then '/' :: e
  else dir ++ '/' :: e

/-- The path `p` lies under `root`: it is `root` followed by one or more
naming elements. -/
def Under (root p : GoString) : Prop :=
  ∃ es : List GoString, es ≠ [] ∧ (∀ e ∈ es, normalElem e = true) ∧ p = es.foldl joinElem root

/-- What one path element does to the state (`out`, `dotdot`) of the loop
of `Clean`. -/
def stepElem (rooted : Bool) (st : GoString × Nat) (e : GoString) : GoString × Nat :=
  if e = [] ∨ e = ['.'] then st
  else if e = ['.', '.'] then
    if st.1.length > st.2 then (backtrackTo st.1 st.2 (st.1.length - 1), st.2)
    else if !rooted then
      ((if st.1.length > 0 then st.1 ++ ['/'] else st.1) ++ ['.', '.'],
        ((if st.1.length > 0 then st.1 ++ ['/'] else st.1) ++ ['.', '.']).length)
    else st
  else
    ((if (rooted && st.1.length != 1) || (!rooted && st.1.length != 0) then st.1 ++ ['/']
      else st.1) ++ e, st.2)

/-- Elements written one after the other with separators in between. -/
def renderElems (es : List GoString) : GoString :=
  es.foldl (fun acc e => if acc = [] then e else acc ++ '/' :: e) []

/-- The state in which the loop of `Clean` starts. -/
def initState (rooted : Bool) : GoString × Nat := if rooted then (['/'], 1) else ([], 0)

/-- The state in which the loop of `Clean` ends on `path`, element by
element. -/
def cleanRun (path : GoString) : GoString × Nat :=
  (splitSlash path).foldl (stepElem (path.head? = some '/')) (initState (path.head? = some '/'))

/-- The leading separator of a rooted path. -/
def rootPart (rooted : Bool) : GoString := if rooted then ['/'] else []

/-- A run of `k` elements `..`. -/
def dotdots (k : Nat) : List GoString := List.replicate k ['.', '.']

/-- The state of the loop of `Clean` after `k` leading `..` elements (none
when rooted) and the naming elements `cs`. -/
def CleanState (rooted : Bool) (k : Nat) (cs : List GoString) (st : GoString × Nat) : Prop :=
  (∀ c ∈ cs, normalElem c = true) ∧ (rooted = true → k = 0) ∧
  st.1 = rootPart rooted ++ renderElems (dotdots k ++ cs) ∧
  st.2 = (rootPart rooted ++ renderElems (dotdots k)).length

/-- The value of `filepath.Clean` read off the final state. -/
def dotIfEmpty (out : GoString) : GoString := if out = [] then ['.'] else out

/-- Whether the path elements `es`, read from left to right at `depth`
levels below a directory, never go above that directory: an empty element or
`.` stays, `..` goes one level up and must find a level to leave, any other
element goes one level down. -/
def staysInside : Nat → List GoString → Bool
  | _, [] => true
  | d, e :: es =>
    if e = [] ∨ e = ['.'] then staysInside d es
    else if e = ['.', '.'] then
      match d with
      | 0 => false
      | d + 1 => staysInside d es
    else staysInside (d + 1) es

/-- The level reached below the directory after the elements `es`. -/
def depthAfter : Nat → List GoString → Nat
  | d, [] => d
  | d, e :: es =>
    if e = [] ∨ e = ['.'] then depthAfter d es
    else if e = ['.', '.'] then depthAfter (d - 1) es
    else depthAfter (d + 1) es

/-- A title that does not climb above the destination: its path elements,
read one level below the destination (inside `Movies` or `TV Shows`), never
go above the destination.  The last element of a movie title does not count:
it is written together with the year into the last element of the file
name. -/
def titleInside (typ title : GoString) : Bool :=
  staysInside 1
    (if typ = "movie".toList then (splitSlash title).dropLast else splitSlash title)

/-- The path `p` is clean and is what `Clean` makes of the destination
followed by the path elements `es`. -/
def Resolved (dest : GoString) (es : List GoString) (p : GoString) : Prop :=
  filepathClean p = p ∧
  decide (p.head? = some '/') = decide (dest.head? = some '/') ∧
  cleanRun p = es.foldl (stepElem (dest.head? = some '/')) (cleanRun dest)

/-! ## Auxiliary definitions: names, tables and provider results -/

/-- The bracketed quality segment of a file name, absent for an empty
quality. -/
def qualityTag (q : GoString) : GoString :=
  if q = [] then [] else " [".toList ++ q ++ "]".toList

/-- The movie file name `<title> (<year>) [<quality>]<ext>`. -/
def movieName (mf : MediaFile) : GoString :=
  mf.Title ++ " (".toList ++ mf.Year ++ ")".toList ++ qualityTag mf.Quality ++ mf.Ext

/-- A numeral of one digit with a zero in front, others unchanged. -/
def zeroPad2 (s : GoString) : GoString := if s.length = 1 then '0' :: s else s

/-- The episode file name `<title> S<ss>E<ee> [<quality>]<ext>`. -/
def episodeName (mf : MediaFile) : GoString :=
  mf.Title ++ " S".toList ++ zeroPad2 mf.Season ++ "E".toList ++ zeroPad2 mf.Episode ++
    qualityTag mf.Quality ++ mf.Ext

/-- The case tables never give the path separator. -/
def TablesNoSlash (U : UnicodeTables) : Prop :=
  ∀ c : Char, 0x7F < c.toNat → U.toLower c ≠ '/' ∧ U.toTitle c ≠ '/'

/-- An ASCII letter, digit, underscore, dot or white-space character. -/
def plainChar (c : Char) : Bool :=
  c.toNat ≤ 0x7F && (!asciiIsSeparator c || c = '.' || unicodeIsSpace c)

/-- The case tables keep white space apart: a character and its lower-case
and title-case forms are white space together. -/
def TablesKeepSpace (U : UnicodeTables) : Prop :=
  ∀ c : Char, 0x7F < c.toNat →
    unicodeIsSpace (U.toLower c) = unicodeIsSpace c ∧
    unicodeIsSpace (U.toTitle c) = unicodeIsSpace c

/-- A provider date on which the year update of `parseFile` goes through:
empty (the update is skipped) or with four leading bytes that end on a
character boundary. -/
def dateOK (date : GoString) : Bool :=
  match date, sliceTo date 4 with
  | [], _ => true
  | _, .ok _ => true
  | _, _ => false

/-- A lookup result that leaves the descriptor as parsed: an error or an
empty result sequence. -/
def noMatch {α : Type} (r : Lookup α) : Bool :=
  match r with
  | .ok (_ :: _) => false
  | _ => true

/-! ## What the patterns capture -/

theorem classRuns_mem (p : Char → Bool) (s t : GoString) (k : Nat)
    (h : (classRuns p s)[k]? = some t) :
    ∃ pre, s = pre ++ t ∧ pre.length = k ∧ ∀ c ∈ pre, p c = true := by
  induction s generalizing k with
  | nil =>
    cases k with
    | zero => simp [classRuns] at h; exact ⟨[], by simp [h]⟩
    | succ k => simp [classRuns] at h
  | cons a as ih =>
    cases k with
    | zero => simp [classRuns] at h; exact ⟨[], by simp [h]⟩
    | succ k =>
      simp only [classRuns, List.getElem?_cons_succ] at h
      by_cases hp : p a = true
      · simp only [hp, if_true] at h
        obtain ⟨pre, h1, h2, h3⟩ := ih k h
        refine ⟨a :: pre, by simp [h1], by simp [h2], ?_⟩
        intro c hc
        rcases List.mem_cons.1 hc with rfl | hc
        · exact hp
        · exact h3 c hc
      · simp [hp] at h

theorem repRuns_mem (p : Char → Bool) (min : Nat) (max : Option Nat) (greedy : Bool)
    (s t : GoString) (h : t ∈ repRuns p min max greedy s) :
    ∃ pre, s = pre ++ t ∧ min ≤ pre.length ∧ (∀ M, max = some M → pre.length ≤ M) ∧
      ∀ c ∈ pre, p c = true := by
  unfold repRuns at h
  cases max with
  | none =>
    have hk : t ∈ (classRuns p s).drop min := by cases greedy <;> simpa using h
    obtain ⟨i, hi, hget⟩ := List.getElem_of_mem hk
    have hget2 : ((classRuns p s).drop min)[i]? = some t := by
      rw [List.getElem?_eq_getElem hi, hget]
    rw [List.getElem?_drop] at hget2
    obtain ⟨pre, h1, h2, h3⟩ := classRuns_mem p s t _ hget2
    exact ⟨pre, h1, by omega, by simp, h3⟩
  | some M =>
    have hk : t ∈ ((classRuns p s).drop min).take (M + 1 - min) := by
      cases greedy <;> simpa using h
    obtain ⟨i, hi, hget⟩ := List.getElem_of_mem hk
    have hget2 : (((classRuns p s).drop min).take (M + 1 - min))[i]? = some t := by
      rw [List.getElem?_eq_getElem hi, hget]
    have hlt : i < M + 1 - min := by
      have := hi
      simp only [List.length_take] at this
      omega
    rw [List.getElem?_take_of_lt hlt, List.getElem?_drop] at hget2
    obtain ⟨pre, h1, h2, h3⟩ := classRuns_mem p s t _ hget2
    refine ⟨pre, h1, by omega, ?_, h3⟩
    intro M2 hM2
    cases hM2
    omega

theorem take_consumed (pre t : GoString) :
    (pre ++ t).take ((pre ++ t).length - t.length) = pre := by
  simp

theorem run_seq_mem (a b : Re) (s : GoString) (caps : List GoString)
    (x : GoString × List GoString) :
    x ∈ (Re.seq a b).run s caps ↔ ∃ y ∈ a.run s caps, x ∈ b.run y.1 y.2 := by
  simp [Re.run, List.mem_flatMap]

theorem run_cls_mem (p : Char → Bool) (s : GoString) (caps : List GoString)
    (x : GoString × List GoString) (h : x ∈ (Re.cls p).run s caps) :
    x.2 = caps ∧ ∃ c, s = c :: x.1 ∧ p c = true := by
  cases s with
  | nil => simp [Re.run] at h
  | cons c cs =>
    simp only [Re.run] at h
    split at h
    · simp only [List.mem_singleton] at h
      subst h
      exact ⟨rfl, c, rfl, by assumption⟩
    · simp at h

theorem run_rep_mem (p : Char → Bool) (mn : Nat) (mx : Option Nat) (g : Bool)
    (s : GoString) (caps : List GoString) (x : GoString × List GoString)
    (h : x ∈ (Re.rep p mn mx g).run s caps) :
    x.2 = caps ∧ ∃ pre, s = pre ++ x.1 ∧ mn ≤ pre.length ∧
      (∀ M, mx = some M → pre.length ≤ M) ∧ ∀ c ∈ pre, p c = true := by
  simp only [Re.run, List.mem_map] at h
  obtain ⟨t, ht, rfl⟩ := h
  exact ⟨rfl, repRuns_mem p mn mx g s t ht⟩

theorem run_group_rep_mem (i : Nat) (p : Char → Bool) (mn : Nat) (mx : Option Nat) (g : Bool)
    (s : GoString) (caps : List GoString) (x : GoString × List GoString)
    (h : x ∈ (Re.group i (Re.rep p mn mx g)).run s caps) :
    ∃ pre, s = pre ++ x.1 ∧ x.2 = caps.set i pre ∧ mn ≤ pre.length ∧
      (∀ M, mx = some M → pre.length ≤ M) ∧ ∀ c ∈ pre, p c = true := by
  simp only [Re.run, List.mem_map] at h
  obtain ⟨y, ⟨t, ht, rfl⟩, rfl⟩ := h
  obtain ⟨pre, h1, h2, h3, h4⟩ := repRuns_mem p mn mx g s t ht
  refine ⟨pre, h1, ?_, h2, h3, h4⟩
  simp only
  rw [h1, take_consumed]

theorem foldLit_digit (l c : Char) (hl : reDigit l = true) (h : foldLit l c = true) : c = l := by
  unfold reDigit at hl
  unfold foldLit at h
  simp only [Bool.and_eq_true, decide_eq_true_eq, Bool.or_eq_true] at hl h
  have e1 : 'a'.toNat = 97 := rfl
  have e2 : 'A'.toNat = 65 := rfl
  have e3 : '0'.toNat = 48 := rfl
  have e4 : '9'.toNat = 57 := rfl
  have e5 : 's'.toNat = 115 := rfl
  have e6 : 'S'.toNat = 83 := rfl
  have e7 : 'k'.toNat = 107 := rfl
  have e8 : 'K'.toNat = 75 := rfl
  rw [e3, e4] at hl
  rw [e1, e2] at h
  rcases h with (((h | h) | h) | h) | h
  · exact h
  · omega
  · omega
  · rcases h.1 with h' | h' <;> subst h' <;> omega
  · rcases h.1 with h' | h' <;> subst h' <;> omega

theorem run_group_mem (i : Nat) (r : Re) (s : GoString) (caps : List GoString)
    (x : GoString × List GoString) :
    x ∈ (Re.group i r).run s caps ↔
      ∃ y ∈ r.run s caps, x = (y.1, y.2.set i (s.take (s.length - y.1.length))) := by
  simp only [Re.run, List.mem_map]
  constructor
  · rintro ⟨y, hy, rfl⟩
    exact ⟨y, hy, rfl⟩
  · rintro ⟨y, hy, rfl⟩
    exact ⟨y, hy, rfl⟩

theorem run_alt_mem (a b : Re) (s : GoString) (caps : List GoString)
    (x : GoString × List GoString) :
    x ∈ (Re.alt a b).run s caps ↔ x ∈ a.run s caps ∨ x ∈ b.run s caps := by
  simp [Re.run]

theorem run_lit2_rep2 (l1 l2 : Char) (h1 : reDigit l1 = true) (h2 : reDigit l2 = true)
    (s : GoString) (caps : List GoString) (x : GoString × List GoString)
    (h : x ∈ (Re.seq (Re.lit l1 [l2]) (Re.rep reDigit 2 (some 2) true)).run s caps) :
    x.2 = caps ∧ ∃ d1 d2, s = l1 :: l2 :: d1 :: d2 :: x.1 ∧
      reDigit d1 = true ∧ reDigit d2 = true := by
  have two : ∀ (pre : GoString), 2 ≤ pre.length → pre.length ≤ 2 → ∃ d1 d2, pre = [d1, d2] := by
    intro pre h1 h2
    match pre, h1, h2 with
    | [d1, d2], _, _ => exact ⟨d1, d2, rfl⟩
  rw [run_seq_mem] at h
  obtain ⟨y, hy, hx⟩ := h
  simp only [Re.lit] at hy
  rw [run_seq_mem] at hy
  obtain ⟨z, hz, hy⟩ := hy
  obtain ⟨hz2, c1, hs1, hc1⟩ := run_cls_mem _ _ _ _ hz
  obtain ⟨hy2, c2, hs2, hc2⟩ := run_cls_mem _ _ _ _ hy
  obtain ⟨hx2, pre, hs3, hmin, hmax, hall⟩ := run_rep_mem _ _ _ _ _ _ _ hx
  obtain ⟨d1, d2, rfl⟩ := two pre hmin (hmax 2 rfl)
  have e1 := foldLit_digit l1 c1 h1 hc1
  have e2 := foldLit_digit l2 c2 h2 hc2
  subst e1 e2
  refine ⟨by rw [hx2, hy2, hz2], d1, d2, ?_, hall d1 (by simp), hall d2 (by simp)⟩
  rw [hs1, hs2, hs3]
  rfl

theorem run_reYear_mem (s : GoString) (caps : List GoString) (x : GoString × List GoString)
    (h : x ∈ reYear.run s caps) :
    x.2 = caps ∧ ∃ a b d1 d2, s = a :: b :: d1 :: d2 :: x.1 ∧
      ((a = '1' ∧ b = '9') ∨ (a = '2' ∧ b = '0')) ∧ reDigit d1 = true ∧ reDigit d2 = true := by
  unfold reYear at h
  rw [run_alt_mem] at h
  rcases h with h | h
  · obtain ⟨h1, d1, d2, h2, h3, h4⟩ := run_lit2_rep2 '1' '9' (by decide) (by decide) _ _ _ h
    exact ⟨h1, _, _, d1, d2, h2, Or.inl ⟨rfl, rfl⟩, h3, h4⟩
  · obtain ⟨h1, d1, d2, h2, h3, h4⟩ := run_lit2_rep2 '2' '0' (by decide) (by decide) _ _ _ h
    exact ⟨h1, _, _, d1, d2, h2, Or.inr ⟨rfl, rfl⟩, h3, h4⟩

theorem run_frame (r : Re) : ∀ (s : GoString) (caps : List GoString)
    (x : GoString × List GoString), x ∈ r.run s caps →
    ∀ i, i ∉ r.groups → x.2.getD i [] = caps.getD i [] := by
  induction r with
  | cls p =>
    intro s caps x hx i _
    rw [(run_cls_mem p s caps x hx).1]
  | rep p mn mx g =>
    intro s caps x hx i _
    rw [(run_rep_mem p mn mx g s caps x hx).1]
  | seq a b iha ihb =>
    intro s caps x hx i hi
    rw [run_seq_mem] at hx
    obtain ⟨y, hy, hx⟩ := hx
    simp only [Re.groups, List.mem_append, not_or] at hi
    rw [ihb _ _ _ hx i hi.2, iha _ _ _ hy i hi.1]
  | alt a b iha ihb =>
    intro s caps x hx i hi
    rw [run_alt_mem] at hx
    simp only [Re.groups, List.mem_append, not_or] at hi
    rcases hx with hx | hx
    · exact iha _ _ _ hx i hi.1
    · exact ihb _ _ _ hx i hi.2
  | opt r ih =>
    intro s caps x hx i hi
    simp only [Re.run, List.mem_append, List.mem_singleton] at hx
    rcases hx with hx | hx
    · exact ih _ _ _ hx i hi
    · subst hx; rfl
  | group j r ih =>
    intro s caps x hx i hi
    simp only [Re.run, List.mem_map] at hx
    obtain ⟨y, hy, rfl⟩ := hx
    simp only [Re.groups, List.mem_cons, not_or] at hi
    simp only [List.getD_eq_getElem?_getD, List.getElem?_set_ne (Ne.symm hi.1)]
    simpa only [List.getD_eq_getElem?_getD] using ih _ _ _ hy i hi.2

theorem reQuality_groups (i : Nat) : (reQuality i).groups = [i] := by
  simp [reQuality, Re.groups, Re.lit]

theorem findStringSubmatch_mem (re : Re) (n : Nat) (s : GoString) (m : List GoString)
    (h : findStringSubmatch re n s = some m) :
    ∃ x ∈ re.run s (List.replicate (n + 1) []),
      m = x.2.set 0 (s.take (s.length - x.1.length)) := by
  unfold findStringSubmatch at h
  split at h
  · simp at h
  · next x xs hx =>
    refine ⟨x, by rw [hx]; simp, ?_⟩
    simpa using h.symm

/-- What `tvRegex` captures. -/
theorem tvRegex_captures (s : GoString) (m : List GoString)
    (h : findStringSubmatch tvRegex 4 s = some m) :
    m.getD 1 [] ≠ [] ∧ m.getD 1 [] <+: s ∧
    (1 ≤ (m.getD 2 []).length ∧ (m.getD 2 []).length ≤ 2 ∧
      ∀ c ∈ m.getD 2 [], reDigit c = true) ∧
    (1 ≤ (m.getD 3 []).length ∧ (m.getD 3 []).length ≤ 2 ∧
      ∀ c ∈ m.getD 3 [], reDigit c = true) := by
  obtain ⟨x, hx, rfl⟩ := findStringSubmatch_mem _ _ _ _ h
  unfold tvRegex at hx
  rw [run_seq_mem] at hx
  obtain ⟨y1, hy1, hx⟩ := hx
  rw [run_seq_mem] at hx
  obtain ⟨y2, hy2, hx⟩ := hx
  rw [run_seq_mem] at hx
  obtain ⟨y3, hy3, hx⟩ := hx
  rw [run_seq_mem] at hx
  obtain ⟨y4, hy4, hx⟩ := hx
  rw [run_seq_mem] at hx
  obtain ⟨y5, hy5, hx⟩ := hx
  rw [run_seq_mem] at hx
  obtain ⟨y6, hy6, hx⟩ := hx
  obtain ⟨title, ht1, ht2, ht3, _, _⟩ := run_group_rep_mem _ _ _ _ _ _ _ _ hy1
  have h2 := (run_rep_mem _ _ _ _ _ _ _ hy2).1
  have h3 := (run_cls_mem _ _ _ _ hy3).1
  obtain ⟨season, hs1, hs2, hs3, hs4, hs5⟩ := run_group_rep_mem _ _ _ _ _ _ _ _ hy4
  have h5 := (run_cls_mem _ _ _ _ hy5).1
  obtain ⟨episode, he1, he2, he3, he4, he5⟩ := run_group_rep_mem _ _ _ _ _ _ _ _ hy6
  have hfr := run_frame _ _ _ _ hx
  simp only [Re.groups, reQuality_groups, List.nil_append, List.mem_singleton] at hfr
  have hy6caps : y6.2 = [[], title, season, episode, []] := by
    rw [he2, h5, hs2, h3, h2, ht2]
    rfl
  have g1 : x.2.getD 1 [] = title := by rw [hfr 1 (by decide), hy6caps]; rfl
  have g2 : x.2.getD 2 [] = season := by rw [hfr 2 (by decide), hy6caps]; rfl
  have g3 : x.2.getD 3 [] = episode := by rw [hfr 3 (by decide), hy6caps]; rfl
  have s1 : (x.2.set 0 (s.take (s.length - x.1.length))).getD 1 [] = title := by
    rw [← g1]; simp only [List.getD_eq_getElem?_getD]; rw [List.getElem?_set_ne (by decide)]
  have s2 : (x.2.set 0 (s.take (s.length - x.1.length))).getD 2 [] = season := by
    rw [← g2]; simp only [List.getD_eq_getElem?_getD]; rw [List.getElem?_set_ne (by decide)]
  have s3 : (x.2.set 0 (s.take (s.length - x.1.length))).getD 3 [] = episode := by
    rw [← g3]; simp only [List.getD_eq_getElem?_getD]; rw [List.getElem?_set_ne (by decide)]
  rw [s1, s2, s3]
  refine ⟨?_, ⟨y1.1, ht1.symm⟩, ⟨hs3, hs4 2 rfl, hs5⟩, ⟨he3, he4 2 rfl, he5⟩⟩
  intro hnil
  rw [hnil] at ht3
  simp at ht3

/-- Every result of a run leaves a suffix of the input, and every capture is
either untouched or a piece of the input. -/
theorem run_sound (r : Re) : ∀ (s : GoString) (caps : List GoString)
    (x : GoString × List GoString), x ∈ r.run s caps →
    (∃ pre, s = pre ++ x.1) ∧ x.2.length = caps.length ∧
      ∀ i, x.2.getD i [] = caps.getD i [] ∨ x.2.getD i [] <:+: s := by
  induction r with
  | cls p =>
    intro s caps x hx
    cases s with
    | nil => simp [Re.run] at hx
    | cons c cs =>
      simp only [Re.run] at hx
      split at hx
      · simp only [List.mem_singleton] at hx
        subst hx
        exact ⟨⟨[c], rfl⟩, rfl, fun i => Or.inl rfl⟩
      · simp at hx
  | rep p min max greedy =>
    intro s caps x hx
    simp only [Re.run, List.mem_map] at hx
    obtain ⟨t, ht, rfl⟩ := hx
    obtain ⟨pre, h1, _⟩ := repRuns_mem p min max greedy s t ht
    exact ⟨⟨pre, h1⟩, rfl, fun i => Or.inl rfl⟩
  | seq a b iha ihb =>
    intro s caps x hx
    simp only [Re.run, List.mem_flatMap] at hx
    obtain ⟨y, hy, hx⟩ := hx
    obtain ⟨⟨p1, h1⟩, hl1, hc1⟩ := iha s caps y hy
    obtain ⟨⟨p2, h2⟩, hl2, hc2⟩ := ihb y.1 y.2 x hx
    refine ⟨⟨p1 ++ p2, by rw [h1, h2]; simp⟩, by rw [hl2, hl1], fun i => ?_⟩
    rcases hc2 i with h | h
    · rw [h]; exact hc1 i
    · right
      rw [h1]
      exact h.trans ⟨p1, [], by simp⟩
  | alt a b iha ihb =>
    intro s caps x hx
    simp only [Re.run, List.mem_append] at hx
    rcases hx with hx | hx
    · exact iha s caps x hx
    · exact ihb s caps x hx
  | opt r ih =>
    intro s caps x hx
    simp only [Re.run, List.mem_append, List.mem_singleton] at hx
    rcases hx with hx | hx
    · exact ih s caps x hx
    · subst hx
      exact ⟨⟨[], rfl⟩, rfl, fun i => Or.inl rfl⟩
  | group j r ih =>
    intro s caps x hx
    simp only [Re.run, List.mem_map] at hx
    obtain ⟨y, hy, rfl⟩ := hx
    obtain ⟨⟨p1, h1⟩, hl1, hc1⟩ := ih s caps y hy
    refine ⟨⟨p1, h1⟩, by simp [hl1], fun i => ?_⟩
    by_cases hij : j = i
    · subst hij
      by_cases hlt : j < y.2.length
      · right
        simp only [List.getD_eq_getElem?_getD, List.getElem?_set_self hlt, Option.getD_some]
        exact (List.take_prefix _ _).isInfix
      · left
        have hge : y.2.length ≤ j := by omega
        rw [List.set_eq_of_length_le hge, List.getD_eq_default _ _ hge,
          List.getD_eq_default _ _ (by omega)]
    · simp only [List.getD_eq_getElem?_getD, List.getElem?_set_ne hij]
      simpa only [List.getD_eq_getElem?_getD] using hc1 i


theorem captures_inside (re : Re) (n : Nat) (s : GoString) (m : List GoString)
    (h : findStringSubmatch re n s = some m) (i : Nat) : m.getD i [] <:+: s := by
  obtain ⟨x, hx, rfl⟩ := findStringSubmatch_mem _ _ _ _ h
  obtain ⟨_, hlen, hc⟩ := run_sound re s _ x hx
  by_cases hi : i = 0
  · subst hi
    by_cases hl : 0 < x.2.length
    · simp only [List.getD_eq_getElem?_getD, List.getElem?_set_self hl, Option.getD_some]
      exact (List.take_prefix _ _).isInfix
    · rw [List.getD_eq_default _ _ (by rw [List.length_set]; omega)]
      exact ⟨[], s, by simp⟩
  · simp only [List.getD_eq_getElem?_getD, List.getElem?_set_ne (Ne.symm hi)]
    rcases hc i with h1 | h1
    · simp only [List.getD_eq_getElem?_getD] at h1
      rw [h1]
      have : (List.replicate (n + 1) ([] : GoString))[i]?.getD [] = [] := by
        rw [List.getElem?_replicate]
        split <;> rfl
      rw [this]
      exact ⟨[], s, by simp⟩
    · simpa only [List.getD_eq_getElem?_getD] using h1

/-- What `movieRegex` captures. -/
theorem movieRegex_captures (s : GoString) (m : List GoString)
    (h : findStringSubmatch movieRegex 3 s = some m) :
    m.getD 1 [] ≠ [] ∧ m.getD 1 [] <+: s ∧
    ∃ a b d1 d2, m.getD 2 [] = [a, b, d1, d2] ∧
      ((a = '1' ∧ b = '9') ∨ (a = '2' ∧ b = '0')) ∧ reDigit d1 = true ∧ reDigit d2 = true := by
  obtain ⟨x, hx, rfl⟩ := findStringSubmatch_mem _ _ _ _ h
  unfold movieRegex at hx
  rw [run_seq_mem] at hx
  obtain ⟨y1, hy1, hx⟩ := hx
  rw [run_seq_mem] at hx
  obtain ⟨y2, hy2, hx⟩ := hx
  rw [run_seq_mem] at hx
  obtain ⟨y3, hy3, hx⟩ := hx
  obtain ⟨title, ht1, ht2, ht3, _, _⟩ := run_group_rep_mem _ _ _ _ _ _ _ _ hy1
  have h2 := (run_rep_mem _ _ _ _ _ _ _ hy2).1
  obtain ⟨z, hz, rfl⟩ := (run_group_mem _ _ _ _ _).1 hy3
  obtain ⟨hz2, a, b, d1, d2, hz3, hab, hd1, hd2⟩ := run_reYear_mem _ _ _ hz
  have hfr := run_frame _ _ _ _ hx
  simp only [Re.groups, reQuality_groups, List.nil_append, List.mem_singleton] at hfr
  have hy3caps : (z.2.set 2 (y2.1.take (y2.1.length - z.1.length)))
      = [[], title, [a, b, d1, d2], []] := by
    rw [hz2, h2, ht2, hz3]
    have e : (a :: b :: d1 :: d2 :: z.1).length - z.1.length = 4 := by
      simp only [List.length_cons]; omega
    rw [e]
    rfl
  simp only at hfr hx
  have g1 : x.2.getD 1 [] = title := by rw [hfr 1 (by decide), hy3caps]; rfl
  have g2 : x.2.getD 2 [] = [a, b, d1, d2] := by rw [hfr 2 (by decide), hy3caps]; rfl
  have s1 : (x.2.set 0 (s.take (s.length - x.1.length))).getD 1 [] = title := by
    rw [← g1]; simp only [List.getD_eq_getElem?_getD]; rw [List.getElem?_set_ne (by decide)]
  have s2 : (x.2.set 0 (s.take (s.length - x.1.length))).getD 2 [] = [a, b, d1, d2] := by
    rw [← g2]; simp only [List.getD_eq_getElem?_getD]; rw [List.getElem?_set_ne (by decide)]
  rw [s1, s2]
  refine ⟨?_, ⟨y1.1, ht1.symm⟩, a, b, d1, d2, rfl, hab, hd1, hd2⟩
  intro hnil
  rw [hnil] at ht3
  simp at ht3

/-- A match of `movieRegex` has a delimiter right after the captured year. -/
theorem movieRegex_year_then_delimiter (s : GoString) (m : List GoString)
    (h : findStringSubmatch movieRegex 3 s = some m) :
    ∃ pre d rest, s = pre ++ m.getD 2 [] ++ d :: rest ∧ reDelim d = true := by
  obtain ⟨x, hx, rfl⟩ := findStringSubmatch_mem _ _ _ _ h
  unfold movieRegex at hx
  rw [run_seq_mem] at hx
  obtain ⟨y1, hy1, hx⟩ := hx
  rw [run_seq_mem] at hx
  obtain ⟨y2, hy2, hx⟩ := hx
  rw [run_seq_mem] at hx
  obtain ⟨y3, hy3, hx⟩ := hx
  obtain ⟨title, ht1, ht2, ht3, _, _⟩ := run_group_rep_mem _ _ _ _ _ _ _ _ hy1
  obtain ⟨h2, dl, hdl, _, _, _⟩ := run_rep_mem _ _ _ _ _ _ _ hy2
  obtain ⟨z, hz, rfl⟩ := (run_group_mem _ _ _ _ _).1 hy3
  obtain ⟨hz2, a, b, d1, d2, hz3, hab, hd1, hd2⟩ := run_reYear_mem _ _ _ hz
  have hfr := run_frame _ _ _ _ hx
  simp only [Re.groups, reQuality_groups, List.nil_append, List.mem_singleton] at hfr
  have hy3caps : (z.2.set 2 (y2.1.take (y2.1.length - z.1.length)))
      = [[], title, [a, b, d1, d2], []] := by
    rw [hz2, h2, ht2, hz3]
    have e : (a :: b :: d1 :: d2 :: z.1).length - z.1.length = 4 := by
      simp only [List.length_cons]; omega
    rw [e]
    rfl
  simp only at hfr hx
  have g2 : x.2.getD 2 [] = [a, b, d1, d2] := by rw [hfr 2 (by decide), hy3caps]; rfl
  have s2 : (x.2.set 0 (s.take (s.length - x.1.length))).getD 2 [] = [a, b, d1, d2] := by
    rw [← g2]; simp only [List.getD_eq_getElem?_getD]; rw [List.getElem?_set_ne (by decide)]
  rw [run_seq_mem] at hx
  obtain ⟨y4, hy4, _⟩ := hx
  obtain ⟨_, dl2, hdl2, hlen, _, hall⟩ := run_rep_mem _ _ _ _ _ _ _ hy4
  cases dl2 with
  | nil => simp at hlen
  | cons d rest2 =>
    refine ⟨title ++ dl, d, rest2 ++ y4.1, ?_, hall d (by simp)⟩
    rw [s2, ht1, hdl, hz3, hdl2]
    simp

/-! ## Lemmas on `cleanTitle` -/

theorem ascii_forall (P : Char → Prop) (h : ∀ n, n < 128 → P (Char.ofNat n)) (c : Char)
    (hc : c.toNat ≤ 0x7F) : P c := by
  have := h c.toNat (by omega)
  rwa [Char.ofNat_toNat] at this

set_option maxRecDepth 100000 in
theorem asciiToLower_space (c : Char) (hc : c.toNat ≤ 0x7F) :
    unicodeIsSpace (asciiToLower c) = unicodeIsSpace c :=
  ascii_forall (fun c => unicodeIsSpace (asciiToLower c) = unicodeIsSpace c) (by decide) c hc

set_option maxRecDepth 100000 in
theorem asciiToTitle_space (c : Char) (hc : c.toNat ≤ 0x7F) :
    unicodeIsSpace (asciiToTitle c) = unicodeIsSpace c :=
  ascii_forall (fun c => unicodeIsSpace (asciiToTitle c) = unicodeIsSpace c) (by decide) c hc

theorem unicodeToLower_space (U : UnicodeTables) (hU : TablesKeepSpace U) (c : Char) :
    unicodeIsSpace (unicodeToLower U c) = unicodeIsSpace c := by
  unfold unicodeToLower
  split
  · next h => exact asciiToLower_space c h
  · next h => exact (hU c (by omega)).1

theorem unicodeToTitle_space (U : UnicodeTables) (hU : TablesKeepSpace U) (c : Char) :
    unicodeIsSpace (unicodeToTitle U c) = unicodeIsSpace c := by
  unfold unicodeToTitle
  split
  · next h => exact asciiToTitle_space c h
  · next h => exact (hU c (by omega)).2

theorem titleFrom_space (U : UnicodeTables) (hU : TablesKeepSpace U) (l : GoString) :
    ∀ p, (titleFrom U p l).map unicodeIsSpace = l.map unicodeIsSpace := by
  induction l with
  | nil => intro p; rfl
  | cons r rs ih =>
    intro p
    simp only [titleFrom, List.map_cons, ih r]
    split
    · rw [unicodeToTitle_space U hU]
    · rfl

theorem dropWhile_eq_nil (p : Char → Bool) (l : GoString) :
    l.dropWhile p = [] ↔ ∀ c ∈ l, p c = true := by
  simp [List.dropWhile_eq_nil_iff]

theorem mem_dropWhile_of_false (p : Char → Bool) (l : GoString) (c : Char) (hc : c ∈ l)
    (hp : p c = false) : c ∈ l.dropWhile p := by
  induction l with
  | nil => simp at hc
  | cons a as ih =>
    simp only [List.dropWhile_cons]
    split
    · next ha =>
      rcases List.mem_cons.1 hc with rfl | h
      · rw [hp] at ha; cases ha
      · exact ih h
    · exact hc

theorem stringsTrimSpace_eq_nil (t : GoString) :
    stringsTrimSpace t = [] ↔ ∀ c ∈ t, unicodeIsSpace c = true := by
  unfold stringsTrimSpace
  constructor
  · intro h c hc
    by_contra hsp
    have hsp : unicodeIsSpace c = false := by simpa using hsp
    have h1 := mem_dropWhile_of_false unicodeIsSpace t c hc hsp
    have h2 := mem_dropWhile_of_false unicodeIsSpace _ c (List.mem_reverse.2 h1) hsp
    rw [List.reverse_eq_nil_iff] at h
    rw [h] at h2
    simp at h2
  · intro h
    have : t.dropWhile unicodeIsSpace = [] := (dropWhile_eq_nil _ _).2 h
    rw [this]
    rfl

/-- Function `cleanTitle` gives the empty string exactly on inputs made of dots and
white space. -/
theorem cleanTitle_eq_nil (U : UnicodeTables) (hU : TablesKeepSpace U) (s : GoString) :
    cleanTitle U s = [] ↔ ∀ c ∈ s, c = '.' ∨ unicodeIsSpace c = true := by
  unfold cleanTitle
  simp only
  rw [stringsTrimSpace_eq_nil]
  have key : ∀ t : GoString, (∀ c ∈ t, unicodeIsSpace c = true) ↔
      ∀ b ∈ t.map unicodeIsSpace, b = true := by
    intro t; simp
  rw [key, stringsTitle, titleFrom_space U hU, stringsToLower, List.map_map, replaceAllChar,
    List.map_map]
  simp only [List.mem_map, Function.comp_apply, forall_exists_index, and_imp,
    forall_apply_eq_imp_iff₂, unicodeToLower_space U hU]
  constructor
  · intro h c hc
    have := h c hc
    by_cases hd : c = '.'
    · exact Or.inl hd
    · right; simpa [hd] using this
  · intro h c hc
    rcases h c hc with hd | hsp
    · subst hd; decide
    · by_cases hd : c = '.'
      · subst hd; decide
      · simpa [hd] using hsp

theorem titleFrom_length (U : UnicodeTables) (l : GoString) :
    ∀ p, (titleFrom U p l).length = l.length := by
  induction l with
  | nil => intro p; rfl
  | cons r rs ih => intro p; simp [titleFrom, ih r]

theorem titleFrom_getD (U : UnicodeTables) (l : GoString) :
    ∀ p i, i < l.length →
      (titleFrom U p l).getD i ' ' =
        if isSeparator U ((p :: l).getD i ' ') then unicodeToTitle U (l.getD i ' ')
        else l.getD i ' ' := by
  induction l with
  | nil => intro p i hi; simp at hi
  | cons r rs ih =>
    intro p i hi
    cases i with
    | zero => simp [titleFrom]
    | succ i =>
      have := ih r i (by simpa using hi)
      simpa [titleFrom] using this

set_option maxRecDepth 100000 in
theorem plain_space_facts (c : Char) (hc : c.toNat ≤ 0x7F) :
    unicodeIsSpace c = true →
      asciiToLower c = c ∧ asciiToTitle c = c ∧ asciiIsSeparator c = true :=
  ascii_forall (fun c => unicodeIsSpace c = true →
      asciiToLower c = c ∧ asciiToTitle c = c ∧ asciiIsSeparator c = true) (by decide) c hc

set_option maxRecDepth 100000 in
theorem plain_word_facts (c : Char) (hc : c.toNat ≤ 0x7F) :
    asciiIsSeparator c = false →
      (asciiToLower c).toNat ≤ 0x7F ∧ asciiIsSeparator (asciiToLower c) = false ∧
      asciiToTitle (asciiToLower c) = asciiToTitle c ∧ unicodeIsSpace c = false :=
  ascii_forall (fun c => asciiIsSeparator c = false →
      (asciiToLower c).toNat ≤ 0x7F ∧ asciiIsSeparator (asciiToLower c) = false ∧
      asciiToTitle (asciiToLower c) = asciiToTitle c ∧ unicodeIsSpace c = false)
    (by decide) c hc

/-- On plain characters without dots, `strings.Title` after `strings.ToLower`
is the capitalisation of whitespace-delimited tokens. -/
theorem titleFrom_eq_capitalizeTokens (U : UnicodeTables) (l : GoString)
    (hl : ∀ c ∈ l, plainChar c = true ∧ c ≠ '.') :
    ∀ p, titleFrom U p (stringsToLower U l) = capitalizeTokens U (isSeparator U p) l := by
  induction l with
  | nil => intro p; rfl
  | cons c cs ih =>
    intro p
    obtain ⟨hpl, hdot⟩ := hl c (by simp)
    have ih2 := ih (fun d hd => hl d (List.mem_cons_of_mem _ hd))
    unfold plainChar at hpl
    simp only [Bool.and_eq_true, decide_eq_true_eq, Bool.or_eq_true, Bool.not_eq_true',
      hdot, or_false] at hpl
    obtain ⟨hascii, hkind⟩ := hpl
    have hlow : unicodeToLower U c = asciiToLower c := by simp [unicodeToLower, hascii]
    simp only [stringsToLower, List.map_cons, titleFrom, capitalizeTokens] at ih2 ⊢
    rw [hlow]
    by_cases hsp : unicodeIsSpace c = true
    · obtain ⟨h1, h2, h3⟩ := plain_space_facts c hascii hsp
      have hsep : isSeparator U c = true := by simp [isSeparator, hascii, h3]
      have htitle : unicodeToTitle U c = c := by simp [unicodeToTitle, hascii, h2]
      rw [h1, ih2 c, hsep]
      simp [hsp, htitle]
    · have hword : asciiIsSeparator c = false := by
        rcases hkind with h | h
        · exact h
        · exact absurd h hsp
      obtain ⟨h1, h2, h3, h4⟩ := plain_word_facts c hascii hword
      have hsep : isSeparator U (asciiToLower c) = false := by simp [isSeparator, h1, h2]
      have htitle : unicodeToTitle U (asciiToLower c) = unicodeToTitle U c := by
        simp [unicodeToTitle, hascii, h1, h3]
      rw [ih2 (asciiToLower c), hsep, htitle]
      simp [hsp, hlow]

theorem replaceAllChar_plain (s : GoString) (hs : ∀ c ∈ s, plainChar c = true) :
    ∀ c ∈ replaceAllChar '.' ' ' s, plainChar c = true ∧ c ≠ '.' := by
  intro c hc
  simp only [replaceAllChar, List.mem_map] at hc
  obtain ⟨d, hd, rfl⟩ := hc
  by_cases h : d = '.'
  · subst h; decide
  · simp only [h, if_false]
    exact ⟨hs d hd, h⟩

/-! ## Lemmas on `filepath.Clean` and `filepath.Join` -/

theorem splitSlash_noSlash (e : GoString) (h : '/' ∉ e) : splitSlash e = [e] := by
  induction e with
  | nil => rfl
  | cons c cs ih =>
    have hc : c ≠ '/' := fun hc => h (by simp [hc])
    have hcs : '/' ∉ cs := fun hcs => h (List.mem_cons_of_mem _ hcs)
    simp [splitSlash, hc, ih hcs]

theorem splitSlash_ne_nil (s : GoString) : splitSlash s ≠ [] := by
  cases s with
  | nil => simp [splitSlash]
  | cons c cs =>
    simp only [splitSlash]
    split
    · simp
    · split <;> simp

theorem splitSlash_append (x y : GoString) :
    splitSlash (x ++ '/' :: y) = splitSlash x ++ splitSlash y := by
  induction x with
  | nil => simp [splitSlash]
  | cons c cs ih =>
    by_cases hc : c = '/'
    · simp [splitSlash, hc, ih]
    · simp only [List.cons_append, splitSlash, hc, if_false]
      have ih2 : splitSlash (cs.append ('/' :: y)) = splitSlash cs ++ splitSlash y := ih
      rw [ih2]
      cases h : splitSlash cs with
      | nil => exact absurd h (splitSlash_ne_nil cs)
      | cons e es => simp

theorem splitSlash_elem (e y : GoString) (h : '/' ∉ e) :
    splitSlash (e ++ '/' :: y) = e :: splitSlash y := by
  rw [splitSlash_append, splitSlash_noSlash e h]; rfl

theorem stepElem_nil (rooted : Bool) (st : GoString × Nat) : stepElem rooted st [] = st := by
  simp [stepElem]

/-- Reading one element and then the rest. -/
theorem fold_elem (rooted : Bool) (e rem : GoString) (st : GoString × Nat) (h : '/' ∉ e)
    (hrem : rem = [] ∨ rem.head? = some '/') :
    (splitSlash (e ++ rem)).foldl (stepElem rooted) st =
      (splitSlash rem).foldl (stepElem rooted) (stepElem rooted st e) := by
  rcases hrem with rfl | hrem
  · simp [splitSlash_noSlash e h, splitSlash, stepElem_nil]
  · cases rem with
    | nil => simp at hrem
    | cons c r =>
      simp only [List.head?_cons, Option.some.injEq] at hrem
      subst hrem
      rw [splitSlash_elem e r h]
      simp [splitSlash, stepElem_nil]

theorem dropWhile_head (l : GoString) :
    l.dropWhile (fun x => decide (x ≠ '/')) = [] ∨
      (l.dropWhile (fun x => decide (x ≠ '/'))).head? = some '/' := by
  induction l with
  | nil => simp
  | cons c cs ih =>
    simp only [List.dropWhile_cons]
    split
    · exact ih
    · next h => right; simpa using h

theorem takeWhile_noSlash (l : GoString) : '/' ∉ l.takeWhile (fun x => decide (x ≠ '/')) := by
  intro h
  have := List.mem_takeWhile_imp h
  simp at this

theorem takeWhile_nil_head (l : GoString)
    (h : l.takeWhile (fun x => decide (x ≠ '/')) = []) : l = [] ∨ l.head? = some '/' := by
  cases l with
  | nil => exact Or.inl rfl
  | cons c cs =>
    right
    rw [List.takeWhile_cons] at h
    split at h
    · simp at h
    · next hc => simpa using hc

theorem cleanLoop_eq_fold (rooted : Bool) : ∀ (fuel : Nat) (p out : GoString) (dd : Nat),
    p.length ≤ fuel →
    cleanLoop rooted fuel p out dd = (splitSlash p).foldl (stepElem rooted) (out, dd) := by
  intro fuel
  induction fuel with
  | zero =>
    intro p out dd hp
    have : p = [] := List.length_eq_zero.1 (by omega)
    subst this
    simp [cleanLoop, splitSlash, stepElem_nil]
  | succ fuel ih =>
    intro p out dd hp
    cases p with
    | nil => simp [cleanLoop, splitSlash, stepElem_nil]
    | cons c rest =>
      have hrest : rest.length ≤ fuel := by simpa using hp
      unfold cleanLoop
      by_cases h1 : c = '/'
      · subst h1
        simp only [if_true]
        rw [ih rest out dd hrest]
        simp [splitSlash, stepElem_nil]
      · simp only [h1, if_false]
        by_cases h2 : c = '.' ∧ (rest = [] ∨ rest.head? = some '/')
        · simp only [h2, if_true]
          obtain ⟨rfl, hr⟩ := h2
          rw [ih rest out dd hrest]
          have := fold_elem rooted ['.'] rest (out, dd) (by simp) hr
          rw [show ['.'] ++ rest = '.' :: rest from rfl] at this
          rw [this]
          simp [stepElem]
        · rw [if_neg h2]
          by_cases h3 : c = '.' ∧ rest.head? = some '.' ∧
              (rest.tail = [] ∨ rest.tail.head? = some '/')
          · rw [if_pos h3]
            obtain ⟨rfl, hr1, hr2⟩ := h3
            cases rest with
            | nil => simp at hr1
            | cons d rest2 =>
              simp only [List.head?_cons, Option.some.injEq] at hr1
              subst hr1
              simp only [List.tail_cons] at hr2 ⊢
              have hrest2 : rest2.length ≤ fuel := by simp at hrest; omega
              have := fold_elem rooted ['.', '.'] rest2 (out, dd) (by simp) hr2
              rw [show ['.', '.'] ++ rest2 = '.' :: '.' :: rest2 from rfl] at this
              rw [this]
              by_cases hgt : out.length > dd
              · simp only [hgt, if_true]
                rw [ih _ _ _ hrest2]
                simp [stepElem, hgt]
              · simp only [hgt, if_false]
                cases rooted with
                | false =>
                  simp only [Bool.not_false, if_true]
                  rw [ih _ _ _ hrest2]
                  simp [stepElem, hgt]
                | true =>
                  simp only [Bool.not_true, Bool.false_eq_true, if_false]
                  rw [ih _ _ _ hrest2]
                  simp [stepElem, hgt]
          · rw [if_neg h3]
            have hsplit : c :: rest = (c :: rest).takeWhile (fun x => decide (x ≠ '/')) ++
                (c :: rest).dropWhile (fun x => decide (x ≠ '/')) :=
              (List.takeWhile_append_dropWhile _ _).symm
            have hlen : ((c :: rest).dropWhile (fun x => decide (x ≠ '/'))).length ≤ fuel := by
              have hd : (c :: rest).dropWhile (fun x => decide (x ≠ '/')) =
                  rest.dropWhile (fun x => decide (x ≠ '/')) := by
                rw [List.dropWhile_cons]; simp [h1]
              rw [hd]
              exact le_trans (List.dropWhile_sublist _).length_le hrest
            rw [ih _ _ _ hlen]
            conv_rhs => rw [hsplit]
            rw [fold_elem rooted _ _ (out, dd) (takeWhile_noSlash _) (dropWhile_head _)]
            congr 1
            have htw : (c :: rest).takeWhile (fun x => decide (x ≠ '/')) =
                c :: rest.takeWhile (fun x => decide (x ≠ '/')) := by
              simp [List.takeWhile_cons, h1]
            have hne1 : (c :: rest).takeWhile (fun x => decide (x ≠ '/')) ≠ ['.'] := by
              rw [htw]
              intro h
              simp only [List.cons.injEq] at h
              exact h2 ⟨h.1, takeWhile_nil_head rest h.2⟩
            have hne2 : (c :: rest).takeWhile (fun x => decide (x ≠ '/')) ≠ ['.', '.'] := by
              rw [htw]
              intro h
              simp only [List.cons.injEq] at h
              obtain ⟨hc, hr⟩ := h
              cases rest with
              | nil => simp at hr
              | cons d rest2 =>
                rw [List.takeWhile_cons] at hr
                split at hr
                · simp only [List.cons.injEq] at hr
                  exact h3 ⟨hc, by simp [hr.1], by
                    simpa using takeWhile_nil_head rest2 hr.2⟩
                · simp at hr
            have hne0 : (c :: rest).takeWhile (fun x => decide (x ≠ '/')) ≠ [] := by
              rw [htw]; simp
            generalize (c :: rest).takeWhile (fun x => decide (x ≠ '/')) = e at hne0 hne1 hne2
            simp [stepElem, hne0, hne1, hne2]


theorem renderElems_snoc (l : List GoString) (e : GoString) :
    renderElems (l ++ [e]) =
      if renderElems l = [] then e else renderElems l ++ '/' :: e := by
  simp [renderElems, List.foldl_append]

theorem normalElem_iff (e : GoString) :
    normalElem e = true ↔ e ≠ [] ∧ '/' ∉ e ∧ e ≠ ['.'] ∧ e ≠ ['.', '.'] := by
  simp [normalElem, and_assoc]

theorem renderElems_eq_nil (l : List GoString) (hl : ∀ e ∈ l, e ≠ []) :
    renderElems l = [] ↔ l = [] := by
  induction l using List.reverseRecOn with
  | nil => simp [renderElems]
  | append_singleton l e ih =>
    rw [renderElems_snoc]
    have he : e ≠ [] := hl e (by simp)
    split <;> simp [he]

theorem renderElems_length_le (a b : List GoString) :
    (renderElems a).length ≤ (renderElems (a ++ b)).length := by
  induction b using List.reverseRecOn with
  | nil => simp
  | append_singleton b e ih =>
    rw [← List.append_assoc, renderElems_snoc]
    split
    · next h => rw [h] at ih; simp at ih; simp [ih]
    · simp; omega

theorem backtrackTo_spec (out base : GoString) (dd : Nat) (hbase : base <+: out)
    (hdd : dd ≤ base.length)
    (hafter : ∀ i, base.length < i → i < out.length → out.getD i '/' ≠ '/')
    (hat : dd = base.length ∨ out.getD base.length '/' = '/') :
    ∀ w, base.length ≤ w → w < out.length → backtrackTo out dd w = base := by
  intro w
  induction w with
  | zero =>
    intro h1 _
    have : base = [] := List.length_eq_zero.1 (by omega)
    subst this
    rfl
  | succ w ih =>
    intro h1 h2
    unfold backtrackTo
    by_cases hw : w + 1 = base.length
    · have hcond : ¬(w + 1 > dd ∧ out.getD (w + 1) '/' ≠ '/') := by
        rintro ⟨ha, hb⟩
        rcases hat with h | h
        · omega
        · rw [hw] at hb; exact hb h
      rw [if_neg hcond, hw]
      obtain ⟨t, rfl⟩ := hbase
      simp
    · have hcond : w + 1 > dd ∧ out.getD (w + 1) '/' ≠ '/' :=
        ⟨by omega, hafter (w + 1) (by omega) h2⟩
      rw [if_pos hcond]
      exact ih (by omega) (by omega)

theorem dotdots_ne_nil (k : Nat) : ∀ e ∈ dotdots k, e ≠ [] := by
  intro e he
  rw [dotdots, List.mem_replicate] at he
  rw [he.2]; simp

theorem elems_ne_nil (k : Nat) (cs : List GoString) (hcs : ∀ c ∈ cs, normalElem c = true) :
    ∀ e ∈ dotdots k ++ cs, e ≠ [] := by
  intro e he
  rcases List.mem_append.1 he with h | h
  · exact dotdots_ne_nil k e h
  · exact ((normalElem_iff e).1 (hcs e h)).1

theorem step_normal (r : Bool) (k : Nat) (cs : List GoString) (st : GoString × Nat)
    (e : GoString) (h : CleanState r k cs st) (he : normalElem e = true) :
    CleanState r k (cs ++ [e]) (stepElem r st e) := by
  obtain ⟨hcs, hk, hout, hdd⟩ := h
  obtain ⟨he0, _, he1, he2⟩ := (normalElem_iff e).1 he
  refine ⟨?_, hk, ?_, ?_⟩
  · intro c hc
    rcases List.mem_append.1 hc with hc | hc
    · exact hcs c hc
    · simp only [List.mem_singleton] at hc; rw [hc]; exact he
  · simp only [stepElem, he0, he1, he2, or_self, if_false]
    rw [← List.append_assoc, renderElems_snoc, hout]
    cases r with
    | true =>
      by_cases hR : renderElems (dotdots k ++ cs) = []
      · simp [rootPart, hR]
      · have : (renderElems (dotdots k ++ cs)).length ≠ 0 := by
          simpa [List.length_eq_zero] using hR
        simp [rootPart, hR, this]
    | false =>
      by_cases hR : renderElems (dotdots k ++ cs) = []
      · simp [rootPart, hR]
      · simp [rootPart, hR]
  · simp only [stepElem, he0, he1, he2, or_self, if_false]
    exact hdd

theorem step_skip (r : Bool) (st : GoString × Nat) (e : GoString)
    (he : e = [] ∨ e = ['.']) : stepElem r st e = st := by
  simp [stepElem, he]

theorem getD_noSlash (l : GoString) (i : Nat) (hi : i < l.length) (hl : '/' ∉ l) :
    l.getD i '/' ≠ '/' := by
  rw [List.getD_eq_getElem _ _ hi]
  intro h
  exact hl (h ▸ List.getElem_mem hi)

theorem backtrackTo_elem (base c : GoString) (dd : Nat) (hc : c ≠ []) (hcs : '/' ∉ c)
    (hdd : dd ≤ base.length) :
    backtrackTo (base ++ '/' :: c) dd ((base ++ '/' :: c).length - 1) = base ∧
    (dd = base.length → backtrackTo (base ++ c) dd ((base ++ c).length - 1) = base) := by
  have hclen : 0 < c.length := List.length_pos.2 hc
  constructor
  · apply backtrackTo_spec _ base dd (List.prefix_append _ _) hdd
    · intro i h1 h2
      rw [List.getD_append_right _ _ _ _ (by omega)]
      simp only [List.length_append, List.length_cons] at h2
      obtain ⟨j, hj⟩ : ∃ j, i - base.length = j + 1 := ⟨i - base.length - 1, by omega⟩
      rw [hj, List.getD_cons_succ]
      exact getD_noSlash c j (by omega) hcs
    · right
      rw [List.getD_append_right _ _ _ _ (le_refl _)]
      simp
    · simp
    · simp
  · intro hdd2
    apply backtrackTo_spec _ base dd (List.prefix_append _ _) hdd
    · intro i h1 h2
      rw [List.getD_append_right _ _ _ _ (by omega)]
      simp only [List.length_append] at h2
      exact getD_noSlash c _ (by omega) hcs
    · exact Or.inl hdd2
    · simp; omega
    · simp; omega

theorem step_dotdot_pop (r : Bool) (k : Nat) (cs : List GoString) (c : GoString)
    (st : GoString × Nat) (h : CleanState r k (cs ++ [c]) st) :
    CleanState r k cs (stepElem r st ['.', '.']) := by
  obtain ⟨out, dd⟩ := st
  obtain ⟨hcs, hk, hout, hdd⟩ := h
  simp only at hout hdd
  have hcs2 : ∀ d ∈ cs, normalElem d = true := fun d hd => hcs d (by simp [hd])
  obtain ⟨hc0, hcsl, _, _⟩ := (normalElem_iff c).1 (hcs c (by simp))
  have hclen : 0 < c.length := List.length_pos.2 hc0
  have hlen := renderElems_length_le (dotdots k) cs
  rw [← List.append_assoc, renderElems_snoc] at hout
  have hddle : dd ≤ (rootPart r ++ renderElems (dotdots k ++ cs)).length := by
    rw [hdd]; simp only [List.length_append]; omega
  obtain ⟨hb1, hb2⟩ := backtrackTo_elem (rootPart r ++ renderElems (dotdots k ++ cs)) c dd
    hc0 hcsl hddle
  by_cases hR : renderElems (dotdots k ++ cs) = []
  · rw [if_pos hR] at hout
    have hR0 : renderElems (dotdots k) = [] := by
      rw [hR] at hlen; exact List.length_eq_zero.1 (by simpa using hlen)
    have hddeq : dd = (rootPart r ++ renderElems (dotdots k ++ cs)).length := by
      rw [hdd, hR, hR0]
    have hb := hb2 hddeq
    rw [hR, List.append_nil] at hb hddeq
    have hgt : out.length > dd := by rw [hout, hddeq]; simp; omega
    have hstep : stepElem r (out, dd) ['.', '.'] =
        (backtrackTo out dd (out.length - 1), dd) := by
      simp [stepElem, hgt]
    rw [hstep]
    refine ⟨hcs2, hk, ?_, hdd⟩
    simp only
    rw [hR, List.append_nil, hout]
    exact hb
  · rw [if_neg hR] at hout
    have hgt : out.length > dd := by
      rw [hout, hdd]; simp only [List.length_append, List.length_cons]; omega
    have hstep : stepElem r (out, dd) ['.', '.'] =
        (backtrackTo out dd (out.length - 1), dd) := by
      simp [stepElem, hgt]
    rw [hstep]
    refine ⟨hcs2, hk, ?_, hdd⟩
    simp only
    rw [hout, ← List.append_assoc]
    exact hb1

theorem step_dotdot_rooted (cs : List GoString) (st : GoString × Nat)
    (h : CleanState true 0 cs st) (hcs : cs = []) : stepElem true st ['.', '.'] = st := by
  obtain ⟨out, dd⟩ := st
  obtain ⟨_, _, hout, hdd⟩ := h
  subst hcs
  simp only at hout hdd
  have : ¬ out.length > dd := by rw [hout, hdd]; simp
  simp [stepElem, this]

theorem dotdots_succ (k : Nat) : dotdots (k + 1) = dotdots k ++ [['.', '.']] := by
  simp [dotdots, List.replicate_succ']

theorem step_dotdot_relative (k : Nat) (st : GoString × Nat)
    (h : CleanState false k [] st) :
    CleanState false (k + 1) [] (stepElem false st ['.', '.']) := by
  obtain ⟨out, dd⟩ := st
  obtain ⟨_, _, hout, hdd⟩ := h
  simp only [List.append_nil, rootPart, Bool.false_eq_true, if_false, List.nil_append]
    at hout hdd
  have hngt : ¬ out.length > dd := by rw [hout, hdd]; simp
  have hstep : stepElem false (out, dd) ['.', '.'] =
      (renderElems (dotdots (k + 1)), (renderElems (dotdots (k + 1))).length) := by
    simp only [stepElem, hngt, if_false]
    simp only [List.cons_ne_self, reduceCtorEq, or_self, if_false, Bool.not_false, if_true]
    rw [dotdots_succ, renderElems_snoc, ← hout]
    by_cases ho : out = []
    · simp [ho]
    · have : out.length > 0 := List.length_pos.2 ho
      simp [ho, this]
  rw [hstep]
  exact ⟨by simp, by simp, by simp [rootPart], by simp [rootPart]⟩

theorem cleanState_unique (r : Bool) (k : Nat) (cs : List GoString) (s t : GoString × Nat)
    (hs : CleanState r k cs s) (ht : CleanState r k cs t) : s = t := by
  obtain ⟨_, _, h1, h2⟩ := hs
  obtain ⟨_, _, h3, h4⟩ := ht
  exact Prod.ext (h1.trans h3.symm) (h2.trans h4.symm)

theorem cleanState_init (r : Bool) : CleanState r 0 [] (initState r) := by
  cases r <;> exact ⟨by simp, by simp, by simp [initState, rootPart, dotdots, renderElems],
    by simp [initState, rootPart, dotdots, renderElems]⟩

/-- Each path element takes a state of the loop to a state of the loop. -/
theorem step_cleanState (r : Bool) (k : Nat) (cs : List GoString) (st : GoString × Nat)
    (e : GoString) (h : CleanState r k cs st) (he : '/' ∉ e) :
    ∃ k2 cs2, CleanState r k2 cs2 (stepElem r st e) := by
  by_cases h0 : e = [] ∨ e = ['.']
  · rw [step_skip r st e h0]; exact ⟨k, cs, h⟩
  · by_cases h2 : e = ['.', '.']
    · subst h2
      rcases List.eq_nil_or_concat cs with hcs | ⟨cs1, c, hcs⟩
      · subst hcs
        cases r with
        | true =>
          have hk : k = 0 := h.2.1 rfl
          subst hk
          rw [step_dotdot_rooted [] st h rfl]; exact ⟨0, [], h⟩
        | false => exact ⟨k + 1, [], step_dotdot_relative k st h⟩
      · subst hcs
        rw [List.concat_eq_append] at h
        exact ⟨k, cs1, step_dotdot_pop r k cs1 c st h⟩
    · have hn : normalElem e = true := by
        rw [normalElem_iff]
        simp only [not_or] at h0
        exact ⟨h0.1, he, h0.2, h2⟩
      exact ⟨k, cs ++ [e], step_normal r k cs st e h hn⟩

theorem fold_cleanState (r : Bool) (es : List GoString) (hes : ∀ e ∈ es, '/' ∉ e) :
    ∀ (k : Nat) (cs : List GoString) (st : GoString × Nat), CleanState r k cs st →
      ∃ k2 cs2, CleanState r k2 cs2 (es.foldl (stepElem r) st) := by
  induction es with
  | nil => intro k cs st h; exact ⟨k, cs, h⟩
  | cons e es ih =>
    intro k cs st h
    obtain ⟨k2, cs2, h2⟩ := step_cleanState r k cs st e h (hes e (by simp))
    exact ih (fun d hd => hes d (List.mem_cons_of_mem _ hd)) k2 cs2 _ h2

theorem splitSlash_mem_noSlash (s : GoString) : ∀ e ∈ splitSlash s, '/' ∉ e := by
  induction s with
  | nil => simp [splitSlash]
  | cons c cs ih =>
    intro e he
    simp only [splitSlash] at he
    split at he
    · rcases List.mem_cons.1 he with rfl | h
      · simp
      · exact ih e h
    · next hc =>
      split at he
      · simp only [List.mem_singleton] at he; subst he
        simpa using fun h : '/' = c => hc h.symm
      · next a as hsp =>
        rcases List.mem_cons.1 he with rfl | h
        · have := ih a (by rw [hsp]; simp)
          simp only [List.mem_cons, not_or]
          exact ⟨fun h => hc h.symm, this⟩
        · exact ih e (by rw [hsp]; simp [h])

theorem cleanRun_state (path : GoString) :
    ∃ k cs, CleanState (path.head? = some '/') k cs (cleanRun path) :=
  fold_cleanState _ _ (splitSlash_mem_noSlash path) 0 [] _ (cleanState_init _)

theorem filepathClean_eq (path : GoString) :
    filepathClean path = dotIfEmpty (cleanRun path).1 := by
  unfold filepathClean cleanRun dotIfEmpty
  cases path with
  | nil => simp [splitSlash, initState, stepElem]
  | cons c rest =>
    by_cases hc : c = '/'
    · subst hc
      simp only [List.head?_cons, decide_True, if_true, reduceCtorEq, if_false, List.tail_cons]
      rw [cleanLoop_eq_fold true _ _ _ _ (by simp only [List.length_cons]; omega)]
      simp [splitSlash, initState, stepElem_nil]
    · have hh : ¬ (some c = some '/') := by simpa using hc
      simp only [List.head?_cons, hh, decide_False, reduceCtorEq, if_false,
        Bool.false_eq_true]
      rw [cleanLoop_eq_fold false _ _ _ _ (by simp only [List.length_cons]; omega)]
      simp [initState]

theorem cleanRun_snoc (x e : GoString) (hx : x ≠ []) (he : '/' ∉ e) :
    cleanRun (x ++ '/' :: e) = stepElem (x.head? = some '/') (cleanRun x) e := by
  unfold cleanRun
  have hh : (x ++ '/' :: e).head? = x.head? := by
    cases x with
    | nil => exact absurd rfl hx
    | cons c cs => rfl
  rw [hh, splitSlash_append, splitSlash_noSlash e he, List.foldl_append]
  rfl

theorem renderElems_shape (l : List GoString)
    (hl : ∀ a ∈ l, a ≠ [] ∧ '/' ∉ a ∧ a ≠ ['.']) :
    renderElems l ≠ ['.'] ∧ (renderElems l).head? ≠ some '/' := by
  induction l using List.reverseRecOn with
  | nil => simp [renderElems]
  | append_singleton l a ih =>
    obtain ⟨ha0, has, had⟩ := hl a (by simp)
    have ih2 := ih (fun b hb => hl b (by simp [hb]))
    rw [renderElems_snoc]
    split
    · refine ⟨had, ?_⟩
      cases a with
      | nil => exact absurd rfl ha0
      | cons c cs =>
        simp only [List.head?_cons, ne_eq, Option.some.injEq]
        intro hc
        exact has (by simp [hc])
    · next hR =>
      constructor
      · intro h
        have := congrArg List.length h
        simp only [List.length_append, List.length_cons, List.length_nil] at this
        have : (renderElems l).length = 0 := by omega
        exact hR (List.length_eq_zero.1 this)
      · rw [List.head?_append_of_ne_nil _ hR]
        exact ih2.2

theorem elems_shape (k : Nat) (cs : List GoString) (hcs : ∀ c ∈ cs, normalElem c = true) :
    ∀ a ∈ dotdots k ++ cs, a ≠ [] ∧ '/' ∉ a ∧ a ≠ ['.'] := by
  intro a ha
  rcases List.mem_append.1 ha with h | h
  · rw [dotdots, List.mem_replicate] at h
    rw [h.2]; simp
  · obtain ⟨h0, h1, h2, _⟩ := (normalElem_iff a).1 (hcs a h)
    exact ⟨h0, h1, h2⟩

/-- Appending a naming element to a path: `Clean` appends it to the cleaned
path. -/
theorem filepathClean_snoc (x e : GoString) (hx : x ≠ []) (he : normalElem e = true) :
    filepathClean (x ++ '/' :: e) = joinElem (filepathClean x) e := by
  obtain ⟨he0, hes, _, _⟩ := (normalElem_iff e).1 he
  obtain ⟨k, cs, h⟩ := cleanRun_state x
  have h2 := step_normal _ k cs _ e h he
  rw [← cleanRun_snoc x e hx hes] at h2
  rw [filepathClean_eq, filepathClean_eq, h2.2.2.1, h.2.2.1, ← List.append_assoc,
    renderElems_snoc]
  obtain ⟨hs1, hs2⟩ := renderElems_shape _ (elems_shape k cs h.1)
  generalize renderElems (dotdots k ++ cs) = R at hs1 hs2
  unfold dotIfEmpty joinElem rootPart
  by_cases hr : x.head? = some '/'
  · by_cases hR : R = []
    · simp [hr, hR]
    · simp [hr, hR]
  · by_cases hR : R = []
    · simp [hr, hR, he0]
    · have hR2 : R ≠ ['/'] := by
        intro h; rw [h] at hs2; simp at hs2
      simp [hr, hR, hs1, hR2]

/-- A naming element is its own cleaned path. -/
theorem filepathClean_normal (e : GoString) (he : normalElem e = true) :
    filepathClean e = e := by
  obtain ⟨he0, hes, _, _⟩ := (normalElem_iff e).1 he
  have hh : ¬ (e.head? = some '/') := by
    cases e with
    | nil => simp
    | cons c cs =>
      simp only [List.head?_cons, Option.some.injEq]
      intro hc; exact hes (by simp [hc])
  have h2 := step_normal (e.head? = some '/') 0 [] _ e (cleanState_init _) he
  have hrun : cleanRun e = stepElem (e.head? = some '/') (initState (e.head? = some '/')) e := by
    simp [cleanRun, splitSlash_noSlash e hes]
  rw [filepathClean_eq, hrun, h2.2.2.1]
  simp [rootPart, hh, dotdots, renderElems, dotIfEmpty, he0]

theorem splitSlash_render (l : List GoString) (hl : l ≠ [])
    (hs : ∀ a ∈ l, a ≠ [] ∧ '/' ∉ a) : splitSlash (renderElems l) = l := by
  induction l using List.reverseRecOn with
  | nil => exact absurd rfl hl
  | append_singleton l a ih =>
    obtain ⟨_, has⟩ := hs a (by simp)
    have hs2 : ∀ b ∈ l, b ≠ [] ∧ '/' ∉ b := fun b hb => hs b (by simp [hb])
    rw [renderElems_snoc]
    by_cases hl2 : l = []
    · subst hl2
      simp [renderElems, splitSlash_noSlash a has]
    · have hR : renderElems l ≠ [] := by
        rw [Ne, renderElems_eq_nil l (fun b hb => (hs2 b hb).1)]
        exact hl2
      rw [if_neg hR, splitSlash_append, ih hl2 hs2, splitSlash_noSlash a has]

theorem fold_dotdots (k : Nat) :
    CleanState false k [] ((dotdots k).foldl (stepElem false) (initState false)) := by
  induction k with
  | zero => exact cleanState_init false
  | succ k ih =>
    rw [dotdots_succ, List.foldl_append]
    exact step_dotdot_relative k _ ih

theorem fold_normals (r : Bool) (k : Nat) (cs : List GoString)
    (hcs : ∀ c ∈ cs, normalElem c = true) (st : GoString × Nat) (h : CleanState r k [] st) :
    CleanState r k cs (cs.foldl (stepElem r) st) := by
  induction cs using List.reverseRecOn with
  | nil => exact h
  | append_singleton cs c ih =>
    rw [List.foldl_append]
    exact step_normal r k cs _ c (ih (fun d hd => hcs d (by simp [hd]))) (hcs c (by simp))

theorem fold_elems (r : Bool) (k : Nat) (cs : List GoString)
    (hcs : ∀ c ∈ cs, normalElem c = true) (hk : r = true → k = 0) :
    CleanState r k cs ((dotdots k ++ cs).foldl (stepElem r) (initState r)) := by
  rw [List.foldl_append]
  apply fold_normals r k cs hcs
  cases r with
  | true =>
    have : k = 0 := hk rfl
    subst this
    exact cleanState_init true
  | false => exact fold_dotdots k

/-- A second cleaning changes nothing. -/
theorem filepathClean_idem (x : GoString) :
    filepathClean (filepathClean x) = filepathClean x := by
  obtain ⟨k, cs, h⟩ := cleanRun_state x
  obtain ⟨hcs, hk, hout, hdd⟩ := h
  have hshape := elems_shape k cs hcs
  rw [filepathClean_eq x, hout]
  generalize hr : decide (x.head? = some '/') = r at hk hout hdd ⊢
  unfold dotIfEmpty
  by_cases hE : rootPart r ++ renderElems (dotdots k ++ cs) = []
  · rw [if_pos hE]; decide
  · rw [if_neg hE]
    have hnil : (dotdots k ++ cs = [] → renderElems (dotdots k ++ cs) = []) := by
      intro h; rw [h]; rfl
    have hR : dotdots k ++ cs ≠ [] → renderElems (dotdots k ++ cs) ≠ [] := by
      intro h
      rw [Ne, renderElems_eq_nil _ (fun a ha => (hshape a ha).1)]
      exact h
    have key : CleanState r k cs (cleanRun (rootPart r ++ renderElems (dotdots k ++ cs))) := by
      cases r with
      | true =>
        have hh : (rootPart true ++ renderElems (dotdots k ++ cs)).head? = some '/' := rfl
        unfold cleanRun
        rw [hh]
        simp only [decide_True]
        by_cases hL : dotdots k ++ cs = []
        · rw [hnil hL]
          have hk0 : k = 0 := hk rfl
          have hcs0 : cs = [] := (List.append_eq_nil.1 hL).2
          subst hk0 hcs0
          simpa [rootPart, splitSlash, stepElem_nil] using cleanState_init true
        · have : rootPart true ++ renderElems (dotdots k ++ cs)
              = [] ++ '/' :: renderElems (dotdots k ++ cs) := rfl
          rw [this, splitSlash_append,
            splitSlash_render _ hL (fun a ha => ⟨(hshape a ha).1, (hshape a ha).2.1⟩)]
          simpa [splitSlash, stepElem_nil] using fold_elems true k cs hcs hk
      | false =>
        have hL : dotdots k ++ cs ≠ [] := by
          intro hL
          apply hE
          rw [hnil hL]; rfl
        have hh : ¬ ((rootPart false ++ renderElems (dotdots k ++ cs)).head? = some '/') :=
          (renderElems_shape _ hshape).2
        unfold cleanRun
        simp only [hh, decide_False]
        have : rootPart false ++ renderElems (dotdots k ++ cs)
            = renderElems (dotdots k ++ cs) := rfl
        rw [this,
          splitSlash_render _ hL (fun a ha => ⟨(hshape a ha).1, (hshape a ha).2.1⟩)]
        exact fold_elems false k cs hcs hk
    rw [filepathClean_eq, key.2.2.1, dotIfEmpty, if_neg hE]

theorem filepathClean_skip (x e : GoString) (hx : x ≠ []) (he : e = [] ∨ e = ['.']) :
    filepathClean (x ++ '/' :: e) = filepathClean x := by
  have hes : '/' ∉ e := by rcases he with h | h <;> subst h <;> simp
  rw [filepathClean_eq, filepathClean_eq, cleanRun_snoc x e hx hes, step_skip _ _ e he]

theorem filepathClean_nil : filepathClean [] = ['.'] := rfl

/-- An element `..` after a naming element takes the naming element away. -/
theorem filepathClean_pop (x a : GoString) (hx : x ≠ []) (ha : normalElem a = true) :
    filepathClean (x ++ '/' :: a ++ ['/', '.', '.']) = filepathClean x := by
  obtain ⟨_, has, _, _⟩ := (normalElem_iff a).1 ha
  obtain ⟨k, cs, h⟩ := cleanRun_state x
  have h2 := step_dotdot_pop _ k cs a _ (step_normal _ k cs _ a h ha)
  have hh : (x ++ '/' :: a).head? = x.head? := by
    cases x with
    | nil => exact absurd rfl hx
    | cons c cs => rfl
  have hrun : cleanRun (x ++ '/' :: a ++ ['/', '.', '.']) =
      stepElem (x.head? = some '/') (stepElem (x.head? = some '/') (cleanRun x) a)
        ['.', '.'] := by
    rw [show x ++ '/' :: a ++ ['/', '.', '.'] = (x ++ '/' :: a) ++ '/' :: ['.', '.'] by simp,
      cleanRun_snoc _ _ (by simp) (by simp), hh, cleanRun_snoc x a hx has]
  rw [filepathClean_eq, filepathClean_eq, hrun, cleanState_unique _ _ _ _ _ h2 h]

theorem filepathClean_pop_single (a : GoString) (ha : normalElem a = true) :
    filepathClean (a ++ ['/', '.', '.']) = ['.'] := by
  obtain ⟨ha0, has, _, _⟩ := (normalElem_iff a).1 ha
  have hh : ¬ (a.head? = some '/') := by
    cases a with
    | nil => simp
    | cons c cs =>
      simp only [List.head?_cons, Option.some.injEq]
      intro hc; exact has (by simp [hc])
  have h1 := step_normal (a.head? = some '/') 0 [] _ a (cleanState_init _) ha
  have h2 := step_dotdot_pop _ 0 [] a _ h1
  have hrun : cleanRun (a ++ ['/', '.', '.']) =
      stepElem (a.head? = some '/') (stepElem (a.head? = some '/')
        (initState (a.head? = some '/')) a) ['.', '.'] := by
    rw [show a ++ ['/', '.', '.'] = a ++ '/' :: ['.', '.'] by simp,
      cleanRun_snoc _ _ ha0 (by simp)]
    simp [cleanRun, splitSlash_noSlash a has]
  rw [filepathClean_eq, hrun, h2.2.2.1]
  simp [rootPart, hh, dotdots, renderElems, dotIfEmpty]

theorem filepathClean_ne_nil (x : GoString) : filepathClean x ≠ [] := by
  rw [filepathClean_eq]
  unfold dotIfEmpty
  split
  · simp
  · assumption

/-- Function `filepath.Join` of a directory and a naming element. -/
theorem filepathJoin_two (d e : GoString) (he : normalElem e = true) :
    filepathJoin [d, e] = joinElem (filepathClean d) e := by
  obtain ⟨he0, _, _, _⟩ := (normalElem_iff e).1 he
  by_cases hd : d = []
  · subst hd
    simp only [filepathJoin, if_true, he0, if_false]
    rw [show List.intercalate ['/'] [e] = e by simp [List.intercalate],
      filepathClean_normal e he]
    rfl
  · simp only [filepathJoin, hd, if_false]
    rw [show List.intercalate ['/'] [d, e] = d ++ '/' :: e by simp [List.intercalate],
      filepathClean_snoc d e hd he]

/-- Function `filepath.Join` of a cleaned directory and a naming element. -/
theorem filepathJoin_clean (d e : GoString) (hd : filepathClean d = d)
    (he : normalElem e = true) : filepathJoin [d, e] = joinElem d e := by
  rw [filepathJoin_two d e he, hd]

theorem joinElem_clean (d e : GoString) (hd : filepathClean d = d)
    (he : normalElem e = true) : filepathClean (joinElem d e) = joinElem d e := by
  have hne : d ≠ [] := by rw [← hd]; exact filepathClean_ne_nil d
  have := filepathClean_snoc d e hne he
  rw [hd] at this
  rw [← this, filepathClean_idem]

/-- Function `filepath.Join` of a directory, a naming element and one more element
without separator. -/
theorem filepathJoin_three (d a t : GoString) (ha : normalElem a = true) (ht : '/' ∉ t) :
    filepathJoin [d, a, t] =
      if t = [] ∨ t = ['.'] then joinElem (filepathClean d) a
      else if t = ['.', '.'] then filepathClean d
      else joinElem (joinElem (filepathClean d) a) t := by
  obtain ⟨ha0, _, _, _⟩ := (normalElem_iff a).1 ha
  by_cases hd : d = []
  · subst hd
    simp only [filepathJoin, if_true, ha0, if_false]
    rw [show List.intercalate ['/'] [a, t] = a ++ '/' :: t by simp [List.intercalate]]
    have hA : filepathClean a = joinElem (filepathClean []) a := by
      rw [filepathClean_normal a ha]; rfl
    by_cases h0 : t = [] ∨ t = ['.']
    · rw [if_pos h0, filepathClean_skip a t ha0 h0, hA]
    · rw [if_neg h0]
      by_cases h2 : t = ['.', '.']
      · rw [if_pos h2, h2, show a ++ ['/', '.', '.'] = a ++ ['/', '.', '.'] from rfl,
          filepathClean_pop_single a ha]
        rfl
      · rw [if_neg h2]
        have hn : normalElem t = true := by
          rw [normalElem_iff]; simp only [not_or] at h0; exact ⟨h0.1, ht, h0.2, h2⟩
        rw [filepathClean_snoc a t ha0 hn, hA]
  · simp only [filepathJoin, hd, if_false]
    rw [show List.intercalate ['/'] [d, a, t] = (d ++ '/' :: a) ++ '/' :: t by
      simp [List.intercalate]]
    have hA : filepathClean (d ++ '/' :: a) = joinElem (filepathClean d) a :=
      filepathClean_snoc d a hd ha
    by_cases h0 : t = [] ∨ t = ['.']
    · rw [if_pos h0, filepathClean_skip _ t (by simp) h0, hA]
    · rw [if_neg h0]
      by_cases h2 : t = ['.', '.']
      · rw [if_pos h2, h2]
        exact filepathClean_pop d a hd ha
      · rw [if_neg h2]
        have hn : normalElem t = true := by
          rw [normalElem_iff]; simp only [not_or] at h0; exact ⟨h0.1, ht, h0.2, h2⟩
        rw [filepathClean_snoc _ t (by simp) hn, hA]

theorem under_one (root e : GoString) (he : normalElem e = true) :
    Under root (joinElem root e) :=
  ⟨[e], by simp, by simpa using he, rfl⟩

theorem under_step (root p e : GoString) (hp : Under root p) (he : normalElem e = true) :
    Under root (joinElem p e) := by
  obtain ⟨es, h1, h2, h3⟩ := hp
  refine ⟨es ++ [e], by simp, ?_, by simp [List.foldl_append, h3]⟩
  intro d hd
  rcases List.mem_append.1 hd with h | h
  · exact h2 d h
  · simp only [List.mem_singleton] at h; rw [h]; exact he

/-! ## Formatting lemmas -/

theorem sprintf_unable (a : GoString) :
    sprintf "unable to parse filename: %s".toList [a]
      = "unable to parse filename: ".toList ++ a := by
  simp [sprintf]

/-! ## Names without separator -/

theorem extScan_noSlash (l acc : GoString) (h : '/' ∉ acc) : '/' ∉ extScan l acc := by
  induction l generalizing acc with
  | nil => simp [extScan]
  | cons c cs ih =>
    unfold extScan
    split
    · simp
    · next hc =>
      split
      · simpa using h
      · exact ih (c :: acc) (by simp only [List.mem_cons, not_or]; exact ⟨fun h => hc h.symm, h⟩)

theorem filepathExt_noSlash (p : GoString) : '/' ∉ filepathExt p :=
  extScan_noSlash _ _ (by simp)

theorem extScan_dot (l acc : GoString) :
    extScan l acc = [] ∨ (extScan l acc).head? = some '.' := by
  induction l generalizing acc with
  | nil => simp [extScan]
  | cons c cs ih =>
    unfold extScan
    split
    · simp
    · split
      · simp
      · exact ih _

theorem filepathBase_noSlash (p : GoString) :
    filepathBase p = ['/'] ∨ '/' ∉ filepathBase p := by
  unfold filepathBase
  split
  · right; simp
  · simp only
    split
    · exact Or.inl rfl
    · right
      rw [List.mem_reverse]
      intro h
      have := List.mem_takeWhile_imp h
      simp at this

theorem baseName_noSlash (p : GoString) : baseName p = ['/'] ∨ '/' ∉ baseName p := by
  unfold baseName
  simp only
  rcases filepathBase_noSlash p with h | h
  · left; rw [h]; rfl
  · right
    unfold stringsTrimSuffix
    split
    · intro hm; exact h (List.mem_of_mem_take hm)
    · exact h

set_option maxRecDepth 100000 in
theorem match_noSlash (p : GoString) (m : List GoString)
    (h : findStringSubmatch tvRegex 4 (baseName p) = some m ∨
      findStringSubmatch movieRegex 3 (baseName p) = some m) : '/' ∉ baseName p := by
  rcases baseName_noSlash p with hb | hb
  · rw [hb] at h
    have h1 : findStringSubmatch tvRegex 4 ['/'] = none := by decide
    have h2 : findStringSubmatch movieRegex 3 ['/'] = none := by decide
    rw [h1, h2] at h
    simp at h
  · exact hb

theorem inside_noSlash (a b : GoString) (h : a <:+: b) (hb : '/' ∉ b) : '/' ∉ a :=
  fun ha => hb (h.subset ha)

theorem sliceTo_initial (s : GoString) : ∀ (n : Nat) (y : GoString),
    sliceTo s n = .ok y → y <+: s := by
  induction s with
  | nil =>
    intro n y h
    cases n with
    | zero => simp [sliceTo] at h; subst h; exact List.nil_prefix
    | succ n => simp [sliceTo] at h
  | cons c cs ih =>
    intro n y h
    cases n with
    | zero => simp [sliceTo] at h; subst h; exact List.nil_prefix
    | succ n =>
      simp only [sliceTo] at h
      split at h
      · split at h
        · next s hs =>
          simp only [Slice.ok.injEq] at h
          subst h
          exact (List.prefix_cons_inj c).2 (ih _ _ hs)
        · next r hr =>
          cases hrr : sliceTo cs (n + 1 - utf8Width c) with
          | ok s => exact absurd hrr (hr s)
          | outOfRange => rw [hrr] at h; simp at h
          | splitsRune => rw [hrr] at h; simp at h
      · simp at h

set_option maxRecDepth 100000 in
theorem asciiToLower_ne_slash (c : Char) (hc : c.toNat ≤ 0x7F) :
    c ≠ '/' → asciiToLower c ≠ '/' :=
  ascii_forall (fun c => c ≠ '/' → asciiToLower c ≠ '/') (by decide) c hc

set_option maxRecDepth 100000 in
theorem asciiToTitle_ne_slash (c : Char) (hc : c.toNat ≤ 0x7F) :
    c ≠ '/' → asciiToTitle c ≠ '/' :=
  ascii_forall (fun c => c ≠ '/' → asciiToTitle c ≠ '/') (by decide) c hc

theorem unicodeToLower_ne_slash (U : UnicodeTables) (hU : TablesNoSlash U) (c : Char)
    (h : c ≠ '/') : unicodeToLower U c ≠ '/' := by
  unfold unicodeToLower
  split
  · next hc => exact asciiToLower_ne_slash c hc h
  · next hc => exact (hU c (by omega)).1

theorem unicodeToTitle_ne_slash (U : UnicodeTables) (hU : TablesNoSlash U) (c : Char)
    (h : c ≠ '/') : unicodeToTitle U c ≠ '/' := by
  unfold unicodeToTitle
  split
  · next hc => exact asciiToTitle_ne_slash c hc h
  · next hc => exact (hU c (by omega)).2

theorem titleFrom_noSlash (U : UnicodeTables) (hU : TablesNoSlash U) (l : GoString)
    (h : '/' ∉ l) : ∀ p, '/' ∉ titleFrom U p l := by
  induction l with
  | nil => intro p; simp [titleFrom]
  | cons r rs ih =>
    intro p
    have hr : r ≠ '/' := fun hr => h (by simp [hr])
    have hrs : '/' ∉ rs := fun hrs => h (List.mem_cons_of_mem _ hrs)
    simp only [titleFrom, List.mem_cons, not_or]
    refine ⟨?_, ih hrs r⟩
    split
    · exact fun h => unicodeToTitle_ne_slash U hU r hr h.symm
    · exact fun h => hr h.symm

theorem stringsTrimSpace_subset (t : GoString) (c : Char) (h : c ∈ stringsTrimSpace t) :
    c ∈ t := by
  unfold stringsTrimSpace at h
  rw [List.mem_reverse] at h
  have h1 := (List.dropWhile_sublist unicodeIsSpace).subset h
  rw [List.mem_reverse] at h1
  exact (List.dropWhile_sublist unicodeIsSpace).subset h1

/-- A title cleaned from a segment without separator has no separator. -/
theorem cleanTitle_noSlash (U : UnicodeTables) (hU : TablesNoSlash U) (s : GoString)
    (h : '/' ∉ s) : '/' ∉ cleanTitle U s := by
  intro hc
  have h1 := stringsTrimSpace_subset _ _ hc
  refine titleFrom_noSlash U hU _ ?_ ' ' h1
  simp only [stringsToLower, replaceAllChar, List.mem_map, not_exists, not_and]
  rintro x ⟨y, hy, hxy⟩ hx
  subst hxy
  have hy2 : y ≠ '/' := fun e => h (e ▸ hy)
  have : (if y = '.' then ' ' else y) ≠ '/' := by
    split
    · decide
    · exact hy2
  exact unicodeToLower_ne_slash U hU _ this hx

theorem sprintf_season (a : GoString) :
    sprintf "Season %s".toList [a] = "Season ".toList ++ a := by
  simp [sprintf]

theorem padZero2_eq (s : GoString) (h1 : 1 ≤ s.length) (h2 : s.length ≤ 2) :
    padZero2 s = zeroPad2 s := by
  unfold padZero2 zeroPad2
  by_cases h : s.length = 1
  · simp [h]
  · have : s.length = 2 := by omega
    simp [this]

theorem NewName_movie (mf : MediaFile) (h : mf.Typ = "movie".toList) :
    mf.NewName = movieName mf := by
  unfold MediaFile.NewName movieName qualityTag
  rw [if_pos h]
  by_cases hq : mf.Quality = []
  · simp [hq, sprintf]
  · simp [hq, sprintf]

theorem NewName_tv (mf : MediaFile) (h : mf.Typ = "tv".toList)
    (hs : 1 ≤ mf.Season.length ∧ mf.Season.length ≤ 2)
    (he : 1 ≤ mf.Episode.length ∧ mf.Episode.length ≤ 2) :
    mf.NewName = episodeName mf := by
  unfold MediaFile.NewName episodeName qualityTag
  have hne : ¬ (mf.Typ = "movie".toList) := by rw [h]; decide
  rw [if_neg hne, ← padZero2_eq _ hs.1 hs.2, ← padZero2_eq _ he.1 he.2]
  by_cases hq : mf.Quality = []
  · simp [hq, sprintf]
  · simp [hq, sprintf]

theorem normalElem_of_space (e : GoString) (hsp : ' ' ∈ e) (hs : '/' ∉ e) :
    normalElem e = true := by
  rw [normalElem_iff]
  refine ⟨?_, hs, ?_, ?_⟩ <;> intro h <;> rw [h] at hsp <;> simp at hsp

theorem qualityTag_noSlash (q : GoString) (h : '/' ∉ q) : '/' ∉ qualityTag q := by
  unfold qualityTag
  split
  · simp
  · simp only [List.mem_append, not_or]
    exact ⟨⟨by decide, h⟩, by decide⟩

theorem movieName_normal (mf : MediaFile) (h1 : '/' ∉ mf.Title) (h2 : '/' ∉ mf.Year)
    (h3 : '/' ∉ mf.Quality) (h4 : '/' ∉ mf.Ext) : normalElem (movieName mf) = true := by
  apply normalElem_of_space
  · simp [movieName]
  · simp only [movieName, List.mem_append, not_or]
    exact ⟨⟨⟨⟨⟨h1, by decide⟩, h2⟩, by decide⟩, qualityTag_noSlash _ h3⟩, h4⟩

theorem zeroPad2_noSlash (s : GoString) (h : '/' ∉ s) : '/' ∉ zeroPad2 s := by
  unfold zeroPad2
  split
  · simp only [List.mem_cons, not_or]; exact ⟨by decide, h⟩
  · exact h

theorem episodeName_normal (mf : MediaFile) (h1 : '/' ∉ mf.Title) (h2 : '/' ∉ mf.Season)
    (h5 : '/' ∉ mf.Episode) (h3 : '/' ∉ mf.Quality) (h4 : '/' ∉ mf.Ext) :
    normalElem (episodeName mf) = true := by
  apply normalElem_of_space
  · simp [episodeName]
  · simp only [episodeName, List.mem_append, not_or]
    exact ⟨⟨⟨⟨⟨⟨h1, by decide⟩, zeroPad2_noSlash _ h2⟩, by decide⟩, zeroPad2_noSlash _ h5⟩,
      qualityTag_noSlash _ h3⟩, h4⟩

theorem digits_noSlash (s : GoString) (h : ∀ c ∈ s, reDigit c = true) : '/' ∉ s := by
  intro hs
  have := h _ hs
  revert this
  decide

theorem finishTV_inv (destDir : GoString) (mf0 mf : MediaFile) (r : Lookup TVDBResult)
    (h : finishTV destDir mf0 r = .ok mf) :
    ∃ t y, mf = targetTV destDir { mf0 with Title := t, Year := y } ∧
      (t = mf0.Title ∨ ∃ d ds, r = .ok (d :: ds) ∧ t = d.SeriesName) := by
  unfold finishTV at h
  split at h
  · next d ds =>
    simp only at h
    split at h
    · split at h
      · next y hy =>
        simp only [Outcome.ok.injEq] at h
        exact ⟨d.SeriesName, y, h.symm, Or.inr ⟨d, ds, rfl, rfl⟩⟩
      · simp at h
      · simp at h
    · simp only [Outcome.ok.injEq] at h
      exact ⟨d.SeriesName, mf0.Year, h.symm, Or.inr ⟨d, ds, rfl, rfl⟩⟩
  · simp only [Outcome.ok.injEq] at h
    exact ⟨mf0.Title, mf0.Year, h.symm, Or.inl rfl⟩

theorem finishMovie_inv (destDir : GoString) (mf0 mf : MediaFile) (r : Lookup TMDBResult)
    (h : finishMovie destDir mf0 r = .ok mf) :
    ∃ t y, mf = targetMovie destDir { mf0 with Title := t, Year := y } ∧
      ((t = mf0.Title ∧ y = mf0.Year) ∨
        ∃ d ds, r = .ok (d :: ds) ∧ t = d.Title ∧
          (y = mf0.Year ∨ sliceTo d.ReleaseDate 4 = .ok y)) := by
  unfold finishMovie at h
  split at h
  · next d ds =>
    simp only at h
    split at h
    · split at h
      · next y hy =>
        simp only [Outcome.ok.injEq] at h
        exact ⟨d.Title, y, h.symm, Or.inr ⟨d, ds, rfl, rfl, Or.inr hy⟩⟩
      · simp at h
      · simp at h
    · simp only [Outcome.ok.injEq] at h
      exact ⟨d.Title, mf0.Year, h.symm, Or.inr ⟨d, ds, rfl, rfl, Or.inl rfl⟩⟩
  · simp only [Outcome.ok.injEq] at h
    exact ⟨mf0.Title, mf0.Year, h.symm, Or.inl ⟨rfl, rfl⟩⟩

/-! ## The branches of `parseFile` -/

theorem parseFile_tv (U : UnicodeTables)
    (searchTVDB : GoString → Lookup TVDBResult) (searchTMDB : GoString → Lookup TMDBResult)
    (path destDir : GoString) (m : List GoString)
    (h : findStringSubmatch tvRegex 4 (baseName path) = some m) :
    parseFile U searchTVDB searchTMDB path destDir =
      finishTV destDir (tvFile U path (filepathExt (filepathBase path)) m)
        (searchTVDB (cleanTitle U (m.getD 1 []))) := by
  unfold baseName at h
  simp only [parseFile, h, tvFile]

theorem parseFile_movie (U : UnicodeTables)
    (searchTVDB : GoString → Lookup TVDBResult) (searchTMDB : GoString → Lookup TMDBResult)
    (path destDir : GoString) (m : List GoString)
    (h1 : findStringSubmatch tvRegex 4 (baseName path) = none)
    (h : findStringSubmatch movieRegex 3 (baseName path) = some m) :
    parseFile U searchTVDB searchTMDB path destDir =
      finishMovie destDir (movieFile U path (filepathExt (filepathBase path)) m)
        (searchTMDB (cleanTitle U (m.getD 1 []))) := by
  unfold baseName at h h1
  simp only [parseFile, h, h1, movieFile]

theorem parseFile_neither (U : UnicodeTables)
    (searchTVDB : GoString → Lookup TVDBResult) (searchTMDB : GoString → Lookup TMDBResult)
    (path destDir : GoString)
    (h1 : findStringSubmatch tvRegex 4 (baseName path) = none)
    (h : findStringSubmatch movieRegex 3 (baseName path) = none) :
    parseFile U searchTVDB searchTMDB path destDir =
      .error ("unable to parse filename: ".toList ++ baseName path) := by
  rw [← sprintf_unable]
  unfold baseName at h h1 ⊢
  simp only [parseFile, h, h1]

theorem finishTV_noMatch (destDir : GoString) (mf : MediaFile) (r : Lookup TVDBResult)
    (h : noMatch r = true) : finishTV destDir mf r = .ok (targetTV destDir mf) := by
  unfold finishTV
  rcases r with e | l
  · rfl
  · rcases l with _ | ⟨d, ds⟩
    · rfl
    · simp [noMatch] at h

theorem finishMovie_noMatch (destDir : GoString) (mf : MediaFile) (r : Lookup TMDBResult)
    (h : noMatch r = true) : finishMovie destDir mf r = .ok (targetMovie destDir mf) := by
  unfold finishMovie
  rcases r with e | l
  · rfl
  · rcases l with _ | ⟨d, ds⟩
    · rfl
    · simp [noMatch] at h

theorem dateOK_cases (date : GoString) (h : dateOK date = true) :
    date = [] ∨ ∃ y, sliceTo date 4 = .ok y := by
  unfold dateOK at h
  split at h
  · exact Or.inl rfl
  · next hs => exact Or.inr ⟨_, hs⟩
  · simp at h

theorem finishTV_ok (destDir : GoString) (mf : MediaFile) (r : Lookup TVDBResult)
    (h : ∀ d ds, r = .ok (d :: ds) → dateOK d.FirstAired = true) :
    ∃ mf2, finishTV destDir mf r = .ok mf2 ∧ mf2.Typ = mf.Typ := by
  unfold finishTV
  rcases r with e | l
  · exact ⟨_, rfl, rfl⟩
  · rcases l with _ | ⟨d, ds⟩
    · exact ⟨_, rfl, rfl⟩
    · rcases dateOK_cases _ (h d ds rfl) with hd | ⟨y, hy⟩
      · simp [hd, targetTV]
      · by_cases hne : d.FirstAired = []
        · simp [hne, targetTV]
        · simp [hne, hy, targetTV]

theorem finishMovie_ok (destDir : GoString) (mf : MediaFile) (r : Lookup TMDBResult)
    (h : ∀ d ds, r = .ok (d :: ds) → dateOK d.ReleaseDate = true) :
    ∃ mf2, finishMovie destDir mf r = .ok mf2 ∧ mf2.Typ = mf.Typ := by
  unfold finishMovie
  rcases r with e | l
  · exact ⟨_, rfl, rfl⟩
  · rcases l with _ | ⟨d, ds⟩
    · exact ⟨_, rfl, rfl⟩
    · rcases dateOK_cases _ (h d ds rfl) with hd | ⟨y, hy⟩
      · simp [hd, targetMovie]
      · by_cases hne : d.ReleaseDate = []
        · simp [hne, targetMovie]
        · simp [hne, hy, targetMovie]

theorem finishTV_ne_error (destDir : GoString) (mf : MediaFile) (r : Lookup TVDBResult)
    (msg : GoString) : finishTV destDir mf r ≠ .error msg := by
  unfold finishTV
  intro h
  split at h
  · split at h
    · split at h <;> simp at h
    · simp at h
  · simp at h

theorem finishMovie_ne_error (destDir : GoString) (mf : MediaFile) (r : Lookup TMDBResult)
    (msg : GoString) : finishMovie destDir mf r ≠ .error msg := by
  unfold finishMovie
  intro h
  split at h
  · split at h
    · split at h <;> simp at h
    · simp at h
  · simp at h

/-! ## The slice out of range -/

theorem sliceTo_outOfRange (s : GoString) : ∀ n, goLen s < n → sliceTo s n = .outOfRange := by
  induction s with
  | nil =>
    intro n hn
    cases n with
    | zero => simp [goLen] at hn
    | succ n => rfl
  | cons c cs ih =>
    intro n hn
    cases n with
    | zero => simp at hn
    | succ n =>
      simp only [goLen, List.map_cons, List.sum_cons] at hn
      have hcs : goLen cs < n + 1 - utf8Width c := by
        unfold goLen; omega
      have hw : utf8Width c ≤ n + 1 := by omega
      simp only [sliceTo, hw, if_true, ih _ hcs]

/-- Every non-empty provider date shorter than four bytes makes the movie
branch panic. -/
theorem finishMovie_fault (destDir : GoString) (mf : MediaFile) (d : TMDBResult)
    (ds : List TMDBResult) (h1 : d.ReleaseDate ≠ []) (h2 : goLen d.ReleaseDate < 4) :
    finishMovie destDir mf (.ok (d :: ds)) = .fault := by
  simp [finishMovie, h1, sliceTo_outOfRange _ _ h2]

/-- Every non-empty provider date shorter than four bytes makes the series
branch panic. -/
theorem finishTV_fault (destDir : GoString) (mf : MediaFile) (d : TVDBResult)
    (ds : List TVDBResult) (h1 : d.FirstAired ≠ []) (h2 : goLen d.FirstAired < 4) :
    finishTV destDir mf (.ok (d :: ds)) = .fault := by
  simp [finishTV, h1, sliceTo_outOfRange _ _ h2]

/-- On every file that classifies, a first result with a non-empty date of
fewer than four bytes makes `parseFile` panic. -/
theorem parseFile_fault (U : UnicodeTables)
    (searchTVDB : GoString → Lookup TVDBResult) (searchTMDB : GoString → Lookup TMDBResult)
    (path destDir : GoString) :
    (∀ m d ds, findStringSubmatch tvRegex 4 (baseName path) = some m →
      searchTVDB (cleanTitle U (m.getD 1 [])) = .ok (d :: ds) →
      d.FirstAired ≠ [] → goLen d.FirstAired < 4 →
      parseFile U searchTVDB searchTMDB path destDir = .fault) ∧
    (∀ m d ds, findStringSubmatch tvRegex 4 (baseName path) = none →
      findStringSubmatch movieRegex 3 (baseName path) = some m →
      searchTMDB (cleanTitle U (m.getD 1 [])) = .ok (d :: ds) →
      d.ReleaseDate ≠ [] → goLen d.ReleaseDate < 4 →
      parseFile U searchTVDB searchTMDB path destDir = .fault) := by
  constructor
  · intro m d ds h hr h1 h2
    rw [parseFile_tv U searchTVDB searchTMDB path destDir m h, hr]
    exact finishTV_fault _ _ d ds h1 h2
  · intro m d ds h0 h hr h1 h2
    rw [parseFile_movie U searchTVDB searchTMDB path destDir m h0 h, hr]
    exact finishMovie_fault _ _ d ds h1 h2

/-! ## What `parseFile` returns -/

theorem targetMovie_path (destDir : GoString) (mf : MediaFile) (h : mf.Typ = "movie".toList) :
    (targetMovie destDir mf).TargetPath =
      filepathJoin [filepathJoin [destDir, "Movies".toList], movieName mf] := by
  simp only [targetMovie, NewName_movie mf h]

theorem movieName_target (destDir : GoString) (mf : MediaFile) :
    movieName (targetMovie destDir mf) = movieName mf := rfl

theorem join_movie (destDir name : GoString) (hn : normalElem name = true) :
    filepathJoin [filepathJoin [destDir, "Movies".toList], name] =
      joinElem (joinElem (filepathClean destDir) "Movies".toList) name := by
  have hM : normalElem "Movies".toList = true := by decide
  rw [filepathJoin_two destDir _ hM,
    filepathJoin_clean _ name (joinElem_clean _ _ (filepathClean_idem destDir) hM) hn]

/-- What `parseFile` returns in its movie branch. -/
theorem parseFile_movie_inv (U : UnicodeTables)
    (searchTVDB : GoString → Lookup TVDBResult) (searchTMDB : GoString → Lookup TMDBResult)
    (path destDir : GoString) (mf : MediaFile)
    (h : parseFile U searchTVDB searchTMDB path destDir = .ok mf)
    (hm : mf.Typ = "movie".toList) :
    ∃ m t y, findStringSubmatch tvRegex 4 (baseName path) = none ∧
      findStringSubmatch movieRegex 3 (baseName path) = some m ∧
      mf = targetMovie destDir
        { movieFile U path (filepathExt (filepathBase path)) m with Title := t, Year := y } ∧
      ((t = cleanTitle U (m.getD 1 []) ∧ y = m.getD 2 []) ∨
        ∃ d ds, searchTMDB (cleanTitle U (m.getD 1 [])) = .ok (d :: ds) ∧ t = d.Title ∧
          (y = m.getD 2 [] ∨ sliceTo d.ReleaseDate 4 = .ok y)) := by
  cases h1 : findStringSubmatch tvRegex 4 (baseName path) with
  | some m =>
    rw [parseFile_tv U searchTVDB searchTMDB path destDir m h1] at h
    obtain ⟨t, y, hmf, _⟩ := finishTV_inv _ _ _ _ h
    rw [hmf] at hm
    have hm2 : "tv".toList = "movie".toList := hm
    exact absurd hm2 (by decide)
  | none =>
    cases h2 : findStringSubmatch movieRegex 3 (baseName path) with
    | some m =>
      rw [parseFile_movie U searchTVDB searchTMDB path destDir m h1 h2] at h
      obtain ⟨t, y, hmf, hty⟩ := finishMovie_inv _ _ _ _ h
      exact ⟨m, t, y, rfl, rfl, hmf, hty⟩
    | none =>
      rw [parseFile_neither U searchTVDB searchTMDB path destDir h1 h2] at h
      simp at h

/-- What `parseFile` returns in its series branch. -/
theorem parseFile_tv_inv (U : UnicodeTables)
    (searchTVDB : GoString → Lookup TVDBResult) (searchTMDB : GoString → Lookup TMDBResult)
    (path destDir : GoString) (mf : MediaFile)
    (h : parseFile U searchTVDB searchTMDB path destDir = .ok mf)
    (hm : mf.Typ = "tv".toList) :
    ∃ m t y, findStringSubmatch tvRegex 4 (baseName path) = some m ∧
      mf = targetTV destDir
        { tvFile U path (filepathExt (filepathBase path)) m with Title := t, Year := y } ∧
      (t = cleanTitle U (m.getD 1 []) ∨
        ∃ d ds, searchTVDB (cleanTitle U (m.getD 1 [])) = .ok (d :: ds) ∧
          t = d.SeriesName) := by
  cases h1 : findStringSubmatch tvRegex 4 (baseName path) with
  | some m =>
    rw [parseFile_tv U searchTVDB searchTMDB path destDir m h1] at h
    obtain ⟨t, y, hmf, hty⟩ := finishTV_inv _ _ _ _ h
    exact ⟨m, t, y, rfl, hmf, hty⟩
  | none =>
    cases h2 : findStringSubmatch movieRegex 3 (baseName path) with
    | some m =>
      rw [parseFile_movie U searchTVDB searchTMDB path destDir m h1 h2] at h
      obtain ⟨t, y, hmf, _⟩ := finishMovie_inv _ _ _ _ h
      rw [hmf] at hm
      have hm2 : "movie".toList = "tv".toList := hm
      exact absurd hm2 (by decide)
    | none =>
      rw [parseFile_neither U searchTVDB searchTMDB path destDir h1 h2] at h
      simp at h

theorem parseFile_typ (U : UnicodeTables)
    (searchTVDB : GoString → Lookup TVDBResult) (searchTMDB : GoString → Lookup TMDBResult)
    (path destDir : GoString) (mf : MediaFile)
    (h : parseFile U searchTVDB searchTMDB path destDir = .ok mf) :
    mf.Typ = "tv".toList ∨ mf.Typ = "movie".toList := by
  cases h1 : findStringSubmatch tvRegex 4 (baseName path) with
  | some m =>
    rw [parseFile_tv U searchTVDB searchTMDB path destDir m h1] at h
    obtain ⟨t, y, hmf, _⟩ := finishTV_inv _ _ _ _ h
    left; rw [hmf]; rfl
  | none =>
    cases h2 : findStringSubmatch movieRegex 3 (baseName path) with
    | some m =>
      rw [parseFile_movie U searchTVDB searchTMDB path destDir m h1 h2] at h
      obtain ⟨t, y, hmf, _⟩ := finishMovie_inv _ _ _ _ h
      right; rw [hmf]; rfl
    | none =>
      rw [parseFile_neither U searchTVDB searchTMDB path destDir h1 h2] at h
      simp at h

/-! ## Target paths -/

theorem joinElem_append (d e : GoString) (h1 : d ≠ ['.']) (h2 : d ≠ ['/']) :
    joinElem d e = d ++ '/' :: e := by
  simp [joinElem, h1, h2]

/-- A path under a root other than `.` and `/` starts with the root and a
separator. -/
theorem under_starts (root p : GoString) (h : Under root p) (h0 : root ≠ [])
    (h1 : root ≠ ['.']) (h2 : root ≠ ['/']) : (root ++ ['/']) <+: p := by
  obtain ⟨es, hne, _, rfl⟩ := h
  have key : ∀ (es : List GoString) (q : GoString), (root ++ ['/']) <+: q →
      (root ++ ['/']) <+: es.foldl joinElem q := by
    intro es
    induction es with
    | nil => intro q hq; exact hq
    | cons e es ih =>
      intro q hq
      apply ih
      obtain ⟨t, rfl⟩ := hq
      cases root with
      | nil => exact absurd rfl h0
      | cons c cs =>
        rw [joinElem_append _ e (by simp) (by simp)]
        exact ⟨t ++ '/' :: e, by simp⟩
  cases es with
  | nil => exact absurd rfl hne
  | cons e es =>
    rw [List.foldl_cons]
    apply key
    rw [joinElem_append _ e h1 h2]
    exact ⟨e, by simp⟩

theorem join_tv (destDir t sn name : GoString) (ht : normalElem t = true)
    (hsn : normalElem sn = true) (hname : normalElem name = true) :
    filepathJoin [filepathJoin [filepathJoin [destDir, "TV Shows".toList, t], sn], name] =
      joinElem (joinElem (joinElem (joinElem (filepathClean destDir) "TV Shows".toList) t) sn)
        name := by
  have hT : normalElem "TV Shows".toList = true := by decide
  have hD := filepathClean_idem destDir
  have hA := joinElem_clean _ _ hD hT
  obtain ⟨h0, hs, h1, h2⟩ := (normalElem_iff t).1 ht
  rw [filepathJoin_three destDir _ t hT hs, if_neg (by simp [h0, h1]), if_neg h2]
  have hB := joinElem_clean _ _ hA ht
  rw [filepathJoin_clean _ sn hB hsn,
    filepathJoin_clean _ name (joinElem_clean _ _ hB hsn) hname]

theorem season_normal (s : GoString) (h : '/' ∉ s) :
    normalElem ("Season ".toList ++ s) = true := by
  apply normalElem_of_space
  · simp
  · simp only [List.mem_append, not_or]
    exact ⟨by decide, h⟩

theorem targetTV_path (destDir : GoString) (mf : MediaFile) (h : mf.Typ = "tv".toList)
    (hs : 1 ≤ mf.Season.length ∧ mf.Season.length ≤ 2)
    (he : 1 ≤ mf.Episode.length ∧ mf.Episode.length ≤ 2) :
    (targetTV destDir mf).TargetPath =
      filepathJoin [filepathJoin [filepathJoin [destDir, "TV Shows".toList, mf.Title],
        "Season ".toList ++ mf.Season], episodeName mf] := by
  simp only [targetTV, NewName_tv mf h hs he, sprintf_season]

theorem episodeName_tvFile (U : UnicodeTables) (path ext : GoString) (m : List GoString) :
    episodeName (tvFile U path ext m) =
      cleanTitle U (m.getD 1 []) ++ " S".toList ++ zeroPad2 (m.getD 2 []) ++ "E".toList ++
        zeroPad2 (m.getD 3 []) ++ qualityTag (m.getD 4 []) ++ ext := rfl

set_option maxRecDepth 100000 in
theorem show_facts :
    findStringSubmatch tvRegex 4 (baseName "show.s1e1.mkv".toList) =
      some ["show.s1e1".toList, "show".toList, "1".toList, "1".toList, []] ∧
    (["show.s1e1".toList, "show".toList, "1".toList, "1".toList, []] :
        List GoString).getD 1 [] = "show".toList ∧
    ((["show.s1e1".toList, "show".toList, "1".toList, "1".toList, []] :
        List GoString).getD 2 [] = "1".toList ∧
      (["show.s1e1".toList, "show".toList, "1".toList, "1".toList, []] :
        List GoString).getD 3 [] = "1".toList ∧
      (["show.s1e1".toList, "show".toList, "1".toList, "1".toList, []] :
        List GoString).getD 4 [] = []) ∧
    filepathExt (filepathBase "show.s1e1.mkv".toList) = ".mkv".toList ∧
    "Show".toList ++ " S".toList ++ zeroPad2 "1".toList ++ "E".toList ++
        zeroPad2 "1".toList ++ qualityTag [] ++ ".mkv".toList =
      "Show S01E01.mkv".toList := by
  decide

/-! ## Paths resolved against the destination -/

/-- One more naming element on the state is one more `joinElem` on the
cleaned path. -/
theorem render_snoc_join (r : Bool) (k : Nat) (cs : List GoString) (e : GoString)
    (hcs : ∀ c ∈ cs, normalElem c = true) (he : normalElem e = true) :
    dotIfEmpty (rootPart r ++ renderElems (dotdots k ++ (cs ++ [e]))) =
      joinElem (dotIfEmpty (rootPart r ++ renderElems (dotdots k ++ cs))) e := by
  obtain ⟨he0, hes, _, _⟩ := (normalElem_iff e).1 he
  rw [← List.append_assoc, renderElems_snoc]
  obtain ⟨hs1, hs2⟩ := renderElems_shape _ (elems_shape k cs hcs)
  generalize renderElems (dotdots k ++ cs) = R at hs1 hs2
  unfold dotIfEmpty joinElem rootPart
  cases r with
  | true =>
    by_cases hR : R = []
    · simp [hR]
    · simp [hR]
  | false =>
    by_cases hR : R = []
    · simp [hR, he0]
    · have hR2 : R ≠ ['/'] := by
        intro h; rw [h] at hs2; simp at hs2
      simp [hR, hs1, hR2]

theorem render_fold_join (r : Bool) (k : Nat) (cs stack : List GoString)
    (hcs : ∀ c ∈ cs, normalElem c = true) (hst : ∀ c ∈ stack, normalElem c = true) :
    dotIfEmpty (rootPart r ++ renderElems (dotdots k ++ (cs ++ stack))) =
      stack.foldl joinElem (dotIfEmpty (rootPart r ++ renderElems (dotdots k ++ cs))) := by
  induction stack using List.reverseRecOn with
  | nil => simp
  | append_singleton stack e ih =>
    have h1 : ∀ c ∈ stack, normalElem c = true := fun c hc => hst c (by simp [hc])
    have h2 : ∀ c ∈ cs ++ stack, normalElem c = true := by
      intro c hc
      rcases List.mem_append.1 hc with h | h
      · exact hcs c h
      · exact h1 c h
    have h3 : cs ++ (stack ++ [e]) = (cs ++ stack) ++ [e] := (List.append_assoc _ _ _).symm
    rw [h3, render_snoc_join r k (cs ++ stack) e h2 (hst e (by simp)),
      ih h1, List.foldl_append]
    rfl

/-- A state that extends another by naming elements gives a path under the
path of the other. -/
theorem under_of_states (r : Bool) (k : Nat) (cs stack : List GoString)
    (s0 s1 : GoString × Nat) (h0 : CleanState r k cs s0)
    (h1 : CleanState r k (cs ++ stack) s1) (hne : stack ≠ []) :
    Under (dotIfEmpty s0.1) (dotIfEmpty s1.1) := by
  have hst : ∀ c ∈ stack, normalElem c = true := fun c hc => h1.1 c (by simp [hc])
  refine ⟨stack, hne, hst, ?_⟩
  rw [h0.2.2.1, h1.2.2.1]
  exact render_fold_join r k cs stack h0.1 hst

theorem staysInside_append (d : Nat) (a b : List GoString) :
    staysInside d (a ++ b) = (staysInside d a && staysInside (depthAfter d a) b) := by
  induction a generalizing d with
  | nil => simp [staysInside, depthAfter]
  | cons e es ih =>
    simp only [List.cons_append, staysInside, depthAfter]
    split
    · exact ih d
    · split
      · cases d with
        | zero => simp
        | succ d => simpa using ih d
      · exact ih (d + 1)

theorem staysInside_mono (l : List GoString) :
    ∀ d d2 : Nat, d ≤ d2 → staysInside d l = true → staysInside d2 l = true := by
  induction l with
  | nil => intro d d2 _ _; rfl
  | cons e es ih =>
    intro d d2 hd h
    simp only [staysInside] at h ⊢
    split
    · next h0 => rw [if_pos h0] at h; exact ih d d2 hd h
    · next h0 =>
      rw [if_neg h0] at h
      split
      · next h2 =>
        rw [if_pos h2] at h
        cases d with
        | zero => simp at h
        | succ d =>
          cases d2 with
          | zero => omega
          | succ d2 => exact ih d d2 (by omega) h
      · next h2 =>
        rw [if_neg h2] at h
        exact ih (d + 1) (d2 + 1) (by omega) h

theorem staysInside_of_no_dotdot (l : List GoString) (h : ∀ e ∈ l, e ≠ ['.', '.']) :
    ∀ d, staysInside d l = true := by
  induction l with
  | nil => intro d; rfl
  | cons e es ih =>
    intro d
    have he : e ≠ ['.', '.'] := h e (by simp)
    have ih2 := ih (fun x hx => h x (List.mem_cons_of_mem _ hx))
    simp only [staysInside, he, if_false]
    split
    · exact ih2 d
    · exact ih2 (d + 1)

theorem staysInside_single (d : Nat) (e : GoString) : staysInside (d + 1) [e] = true := by
  simp only [staysInside]
  split
  · rfl
  · split <;> rfl

/-- Few short elements cannot climb. -/
theorem staysInside_of_sum (l : List GoString) :
    ∀ d, (l.map (fun e => e.length + 1)).sum < 3 * (d + 1) → staysInside d l = true := by
  induction l with
  | nil => intro d _; rfl
  | cons e es ih =>
    intro d h
    simp only [List.map_cons, List.sum_cons] at h
    simp only [staysInside]
    split
    · exact ih d (by omega)
    · split
      · next h2 =>
        subst h2
        simp only [List.length_cons, List.length_nil] at h
        cases d with
        | zero => omega
        | succ d => exact ih d (by omega)
      · exact ih (d + 1) (by omega)

/-- Elements that stay inside leave the state of the directory in place and
only change the naming elements below it. -/
theorem fold_stays (r : Bool) (k : Nat) (cs : List GoString) (es : List GoString)
    (hes : ∀ e ∈ es, '/' ∉ e) :
    ∀ (stack : List GoString) (st : GoString × Nat), CleanState r k (cs ++ stack) st →
      staysInside stack.length es = true →
      ∃ stack2, CleanState r k (cs ++ stack2) (es.foldl (stepElem r) st) := by
  induction es with
  | nil => intro stack st h _; exact ⟨stack, h⟩
  | cons e es ih =>
    intro stack st h hs
    have hes2 : ∀ x ∈ es, '/' ∉ x := fun x hx => hes x (List.mem_cons_of_mem _ hx)
    simp only [staysInside] at hs
    rw [List.foldl_cons]
    by_cases h0 : e = [] ∨ e = ['.']
    · rw [if_pos h0] at hs
      rw [step_skip r st e h0]
      exact ih hes2 stack st h hs
    · rw [if_neg h0] at hs
      by_cases h2 : e = ['.', '.']
      · rw [if_pos h2] at hs
        subst h2
        rcases List.eq_nil_or_concat stack with hst | ⟨stack0, c, hst⟩
        · subst hst; simp at hs
        · rw [List.concat_eq_append] at hst
          subst hst
          simp only [List.length_append, List.length_singleton] at hs
          rw [← List.append_assoc] at h
          exact ih hes2 stack0 _ (step_dotdot_pop r k (cs ++ stack0) c st h) hs
      · rw [if_neg h2] at hs
        have hn : normalElem e = true := by
          rw [normalElem_iff]
          simp only [not_or] at h0
          exact ⟨h0.1, hes e (by simp), h0.2, h2⟩
        have h3 := step_normal r k (cs ++ stack) st e h hn
        rw [List.append_assoc] at h3
        exact ih hes2 (stack ++ [e]) _ h3 (by simpa using hs)

/-- The loop of `Clean` ends on a cleaned path in the state in which it ended
on the path itself. -/
theorem cleanRun_clean (x : GoString) :
    decide ((filepathClean x).head? = some '/') = decide (x.head? = some '/') ∧
      cleanRun (filepathClean x) = cleanRun x := by
  obtain ⟨k, cs, h⟩ := cleanRun_state x
  have hfull := h
  obtain ⟨hcs, hk, hout, hdd⟩ := h
  have hshape := elems_shape k cs hcs
  rw [filepathClean_eq x, hout]
  generalize hr : decide (x.head? = some '/') = r at hk hout hdd hfull ⊢
  unfold dotIfEmpty
  by_cases hE : rootPart r ++ renderElems (dotdots k ++ cs) = []
  · rw [if_pos hE]
    cases r with
    | true => simp [rootPart] at hE
    | false =>
      have hL : dotdots k ++ cs = [] := by
        rw [← renderElems_eq_nil _ (fun a ha => (hshape a ha).1)]
        simpa [rootPart] using hE
      have hcs0 : cs = [] := (List.append_eq_nil.1 hL).2
      have hk0 : k = 0 := by
        have := (List.append_eq_nil.1 hL).1
        cases k with
        | zero => rfl
        | succ k => simp [dotdots, List.replicate_succ] at this
      subst hcs0 hk0
      refine ⟨by decide, ?_⟩
      have h1 : cleanRun ['.'] = initState false := by decide
      rw [h1]
      exact cleanState_unique false 0 [] _ _ (cleanState_init false) hfull
  · rw [if_neg hE]
    have hnil : (dotdots k ++ cs = [] → renderElems (dotdots k ++ cs) = []) := by
      intro h; rw [h]; rfl
    have hhead : decide ((rootPart r ++ renderElems (dotdots k ++ cs)).head? = some '/') = r := by
      cases r with
      | true => rfl
      | false =>
        have hh : ¬ ((rootPart false ++ renderElems (dotdots k ++ cs)).head? = some '/') :=
          (renderElems_shape _ hshape).2
        simp only [hh, decide_False]
    have key : CleanState r k cs (cleanRun (rootPart r ++ renderElems (dotdots k ++ cs))) := by
      unfold cleanRun
      rw [hhead]
      cases r with
      | true =>
        by_cases hL : dotdots k ++ cs = []
        · rw [hnil hL]
          have hk0 : k = 0 := hk rfl
          have hcs0 : cs = [] := (List.append_eq_nil.1 hL).2
          subst hk0 hcs0
          simpa [rootPart, splitSlash, stepElem_nil] using cleanState_init true
        · have : rootPart true ++ renderElems (dotdots k ++ cs)
              = [] ++ '/' :: renderElems (dotdots k ++ cs) := rfl
          rw [this, splitSlash_append,
            splitSlash_render _ hL (fun a ha => ⟨(hshape a ha).1, (hshape a ha).2.1⟩)]
          simpa [splitSlash, stepElem_nil] using fold_elems true k cs hcs hk
      | false =>
        have hL : dotdots k ++ cs ≠ [] := by
          intro hL
          apply hE
          rw [hnil hL]; rfl
        have : rootPart false ++ renderElems (dotdots k ++ cs)
            = renderElems (dotdots k ++ cs) := rfl
        rw [this,
          splitSlash_render _ hL (fun a ha => ⟨(hshape a ha).1, (hshape a ha).2.1⟩)]
        exact fold_elems false k cs hcs hk
    exact ⟨hhead, cleanState_unique r k cs _ _ key hfull⟩

theorem head_append_slash (x y : GoString) (hx : x ≠ []) :
    (x ++ '/' :: y).head? = x.head? := by
  cases x with
  | nil => exact absurd rfl hx
  | cons c cs => rfl

theorem cleanRun_append (x y : GoString) (hx : x ≠ []) :
    cleanRun (x ++ '/' :: y) =
      (splitSlash y).foldl (stepElem (x.head? = some '/')) (cleanRun x) := by
  unfold cleanRun
  rw [head_append_slash x y hx, splitSlash_append, List.foldl_append]

theorem resolved_clean (dest : GoString) : Resolved dest [] (filepathClean dest) :=
  ⟨filepathClean_idem dest, (cleanRun_clean dest).1, (cleanRun_clean dest).2⟩

/-- Function `filepath.Join` of a resolved path and one more argument, which
may hold separators. -/
theorem resolved_join (dest p y : GoString) (es : List GoString) (h : Resolved dest es p) :
    Resolved dest (es ++ splitSlash y) (filepathJoin [p, y]) := by
  obtain ⟨h1, h2, h3⟩ := h
  have hp : p ≠ [] := by rw [← h1]; exact filepathClean_ne_nil p
  have hj : filepathJoin [p, y] = filepathClean (p ++ '/' :: y) := by
    simp [filepathJoin, hp, List.intercalate]
  rw [hj]
  refine ⟨filepathClean_idem _, ?_, ?_⟩
  · rw [(cleanRun_clean _).1, head_append_slash p y hp, h2]
  · rw [(cleanRun_clean _).2, cleanRun_append p y hp, h2, h3, List.foldl_append]

theorem cleanRun_normal (a : GoString) (ha : normalElem a = true) :
    a.head? ≠ some '/' ∧ cleanRun a = stepElem false (initState false) a := by
  obtain ⟨he0, hes, _, _⟩ := (normalElem_iff a).1 ha
  have hh : ¬ (a.head? = some '/') := by
    cases a with
    | nil => simp
    | cons c cs =>
      simp only [List.head?_cons, Option.some.injEq]
      intro hc; exact hes (by simp [hc])
  refine ⟨hh, ?_⟩
  simp [cleanRun, splitSlash_noSlash a hes, hh]

/-- Function `filepath.Join` of the destination and a naming element. -/
theorem resolved_dir (dest a : GoString) (ha : normalElem a = true) :
    Resolved dest [a] (filepathJoin [dest, a]) := by
  obtain ⟨ha0, has, _, _⟩ := (normalElem_iff a).1 ha
  obtain ⟨hah, har⟩ := cleanRun_normal a ha
  by_cases hd : dest = []
  · subst hd
    have hj : filepathJoin [[], a] = filepathClean a := by
      simp [filepathJoin, ha0, List.intercalate]
    rw [hj]
    refine ⟨filepathClean_idem _, ?_, ?_⟩
    · rw [(cleanRun_clean _).1]; simp [hah]
    · rw [(cleanRun_clean _).2, har]; rfl
  · have hj : filepathJoin [dest, a] = filepathClean (dest ++ '/' :: a) := by
      simp [filepathJoin, hd, List.intercalate]
    rw [hj]
    refine ⟨filepathClean_idem _, ?_, ?_⟩
    · rw [(cleanRun_clean _).1, head_append_slash dest a hd]
    · rw [(cleanRun_clean _).2, cleanRun_snoc dest a hd has]; rfl

/-- Function `filepath.Join` of the destination, a naming element and a
title, which may hold separators. -/
theorem resolved_dir_title (dest a t : GoString) (ha : normalElem a = true) :
    Resolved dest (a :: splitSlash t) (filepathJoin [dest, a, t]) := by
  obtain ⟨ha0, has, _, _⟩ := (normalElem_iff a).1 ha
  obtain ⟨hah, har⟩ := cleanRun_normal a ha
  by_cases hd : dest = []
  · subst hd
    have hj : filepathJoin [[], a, t] = filepathClean (a ++ '/' :: t) := by
      simp [filepathJoin, ha0, List.intercalate]
    rw [hj]
    refine ⟨filepathClean_idem _, ?_, ?_⟩
    · rw [(cleanRun_clean _).1, head_append_slash a t ha0]; simp [hah]
    · rw [(cleanRun_clean _).2, cleanRun_append a t ha0, har]
      simp [hah]
      rfl
  · have hj : filepathJoin [dest, a, t] = filepathClean (dest ++ '/' :: (a ++ '/' :: t)) := by
      simp [filepathJoin, hd, List.intercalate]
    rw [hj]
    refine ⟨filepathClean_idem _, ?_, ?_⟩
    · rw [(cleanRun_clean _).1, head_append_slash dest _ hd]
    · rw [(cleanRun_clean _).2, cleanRun_append dest _ hd, splitSlash_elem a t has]

/-- A resolved path whose elements stay inside is under the cleaned
destination. -/
theorem under_resolved (dest p last : GoString) (es : List GoString)
    (h : Resolved dest (es ++ [last]) p) (hes : ∀ e ∈ es, '/' ∉ e)
    (hl : normalElem last = true)
    (hin : staysInside 0 es = true ∨ filepathClean dest = ['/']) :
    Under (filepathClean dest) p := by
  obtain ⟨h1, _, h3⟩ := h
  obtain ⟨k, cs, hst⟩ := cleanRun_state dest
  have hp : p = dotIfEmpty (cleanRun p).1 := by
    rw [← filepathClean_eq, h1]
  rw [hp, filepathClean_eq dest, h3, List.foldl_append]
  simp only [List.foldl_cons, List.foldl_nil]
  by_cases hs : staysInside 0 es = true
  · obtain ⟨stack2, h4⟩ := fold_stays _ k cs es hes [] _ (by simpa using hst) hs
    have h5 := step_normal _ k _ _ last h4 hl
    rw [List.append_assoc] at h5
    exact under_of_states _ k cs (stack2 ++ [last]) _ _ hst h5 (by simp)
  · have hroot : filepathClean dest = ['/'] := by
      rcases hin with h | h
      · exact absurd h hs
      · exact h
    rw [filepathClean_eq dest] at hroot
    obtain ⟨hcs, hk, hout, hdd⟩ := hst
    have hshape := elems_shape k cs hcs
    have hout2 : rootPart (decide (dest.head? = some '/')) ++ renderElems (dotdots k ++ cs)
        = ['/'] := by
      rw [← hout]
      unfold dotIfEmpty at hroot
      split at hroot
      · simp at hroot
      · exact hroot
    generalize hr : decide (dest.head? = some '/') = r at hk hout hdd hout2 ⊢
    cases r with
    | false =>
      have := (renderElems_shape _ hshape).2
      simp only [rootPart, Bool.false_eq_true, if_false, List.nil_append] at hout2
      rw [hout2] at this
      simp at this
    | true =>
      have hk0 : k = 0 := hk rfl
      subst hk0
      have hR : renderElems (dotdots 0 ++ cs) = [] := by
        simpa [rootPart] using hout2
      have hL : dotdots 0 ++ cs = [] :=
        (renderElems_eq_nil _ (fun a ha => (hshape a ha).1)).1 hR
      have hcs0 : cs = [] := (List.append_eq_nil.1 hL).2
      subst hcs0
      have hst0 : CleanState true 0 [] (cleanRun dest) := ⟨hcs, hk, hout, hdd⟩
      obtain ⟨k2, cs2, h4⟩ := fold_cleanState true es hes 0 [] _ hst0
      have hk2 : k2 = 0 := h4.2.1 rfl
      subst hk2
      have h5 := step_normal true 0 cs2 _ last h4 hl
      exact under_of_states true 0 [] (cs2 ++ [last]) _ _ hst0 (by simpa using h5) (by simp)

theorem splitSlash_last (s : GoString) : ∃ A last, splitSlash s = A ++ [last] := by
  rcases List.eq_nil_or_concat (splitSlash s) with h | ⟨A, last, h⟩
  · exact absurd h (splitSlash_ne_nil s)
  · exact ⟨A, last, by rw [h, List.concat_eq_append]⟩

theorem snoc_inj (A B : List GoString) (a b : GoString) (h : A ++ [a] = B ++ [b]) :
    A = B ∧ a = b := by
  have := List.append_inj' h rfl
  exact ⟨this.1, by simpa using this.2⟩

/-- The elements of two strings written one after the other: the last
element of the first and the first element of the second become one. -/
theorem splitSlash_app (a z z0 : GoString) (zt : List GoString)
    (hz : splitSlash z = z0 :: zt) :
    ∀ (A : List GoString) (last : GoString), splitSlash a = A ++ [last] →
      splitSlash (a ++ z) = A ++ (last ++ z0) :: zt := by
  induction a with
  | nil =>
    intro A last h
    have h2 : ([] : List GoString) ++ [[]] = A ++ [last] := h
    obtain ⟨hA, hl⟩ := snoc_inj _ _ _ _ h2
    subst hA hl
    simpa using hz
  | cons c cs ih =>
    intro A last h
    obtain ⟨A2, last2, h2⟩ := splitSlash_last cs
    have ih2 : splitSlash (cs.append z) = A2 ++ (last2 ++ z0) :: zt := ih A2 last2 h2
    by_cases hc : c = '/'
    · subst hc
      simp only [splitSlash, if_true, h2] at h
      have h3 : ([] :: A2) ++ [last2] = A ++ [last] := h
      obtain ⟨hA, hl⟩ := snoc_inj _ _ _ _ h3
      subst hA hl
      simp only [List.cons_append, splitSlash, if_true]
      rw [ih2]
    · simp only [splitSlash, hc, if_false, h2] at h
      simp only [List.cons_append, splitSlash, hc, if_false]
      rw [ih2]
      cases A2 with
      | nil =>
        have h3 : ([] : List GoString) ++ [c :: last2] = A ++ [last] := h
        obtain ⟨hA, hl⟩ := snoc_inj _ _ _ _ h3
        subst hA hl
        rfl
      | cons e A3 =>
        have h3 : ((c :: e) :: A3) ++ [last2] = A ++ [last] := h
        obtain ⟨hA, hl⟩ := snoc_inj _ _ _ _ h3
        subst hA hl
        rfl

/-- The elements of a string and the separators between them make up its
length. -/
theorem splitSlash_sum (s : GoString) :
    ((splitSlash s).map (fun e => e.length + 1)).sum = s.length + 1 := by
  induction s with
  | nil => simp [splitSlash]
  | cons c cs ih =>
    by_cases hc : c = '/'
    · simp [splitSlash, hc, ih]; omega
    · cases h : splitSlash cs with
      | nil => exact absurd h (splitSlash_ne_nil cs)
      | cons e es =>
        rw [h] at ih
        simp only [splitSlash, hc, if_false, h]
        simp only [List.map_cons, List.sum_cons, List.length_cons] at ih ⊢
        omega

theorem utf8Width_pos (c : Char) : 1 ≤ utf8Width c := by
  unfold utf8Width; split_ifs <;> omega

/-- A slice of `n` bytes has at most `n` characters. -/
theorem sliceTo_length (s : GoString) : ∀ (n : Nat) (y : GoString),
    sliceTo s n = .ok y → y.length ≤ n := by
  induction s with
  | nil =>
    intro n y h
    cases n with
    | zero => simp [sliceTo] at h; subst h; simp
    | succ n => simp [sliceTo] at h
  | cons c cs ih =>
    intro n y h
    cases n with
    | zero => simp [sliceTo] at h; subst h; simp
    | succ n =>
      simp only [sliceTo] at h
      split at h
      · next hw =>
        cases hs : sliceTo cs (n + 1 - utf8Width c) with
        | ok s =>
          rw [hs] at h
          simp only [Slice.ok.injEq] at h
          subst h
          have := ih _ _ hs
          have hw1 := utf8Width_pos c
          simp only [List.length_cons]
          omega
        | outOfRange => rw [hs] at h; simp at h
        | splitsRune => rw [hs] at h; simp at h
      · simp at h

theorem staysInside_cons_normal (d : Nat) (e : GoString) (es : List GoString)
    (he : normalElem e = true) : staysInside d (e :: es) = staysInside (d + 1) es := by
  obtain ⟨h0, _, h1, h2⟩ := (normalElem_iff e).1 he
  simp [staysInside, h0, h1, h2]

theorem normalElem_of_paren (e : GoString) (hp : ')' ∈ e) (hs : '/' ∉ e) :
    normalElem e = true := by
  rw [normalElem_iff]
  refine ⟨?_, hs, ?_, ?_⟩ <;> intro h <;> rw [h] at hp <;> simp at hp

/-- The series layout: the title may hold separators. -/
theorem under_tv (destDir t sn rest : GoString) (hsn : normalElem sn = true)
    (hrest : '/' ∉ rest) (hsp : ' ' ∈ rest)
    (hin : staysInside 1 (splitSlash t) = true ∨ filepathClean destDir = ['/']) :
    Under (filepathClean destDir)
      (filepathJoin [filepathJoin [filepathJoin [destDir, "TV Shows".toList, t], sn],
        t ++ rest]) := by
  have hT : normalElem "TV Shows".toList = true := by decide
  obtain ⟨A, last, hA⟩ := splitSlash_last t
  have hmem := splitSlash_mem_noSlash t
  rw [hA] at hmem
  have hAs : ∀ e ∈ A, '/' ∉ e := fun e he => hmem e (by simp [he])
  have hls : '/' ∉ last := hmem last (by simp)
  have hname : splitSlash (t ++ rest) = A ++ [last ++ rest] :=
    splitSlash_app t rest rest [] (splitSlash_noSlash rest hrest) A last hA
  have R3 := resolved_join destDir _ (t ++ rest) _
    (resolved_join destDir _ sn _ (resolved_dir_title destDir _ t hT))
  rw [splitSlash_noSlash sn ((normalElem_iff sn).1 hsn).2.1, hname, hA] at R3
  have hl : "TV Shows".toList :: (A ++ [last]) ++ [sn] ++ (A ++ [last ++ rest]) =
      ("TV Shows".toList :: (A ++ [last]) ++ [sn] ++ A) ++ [last ++ rest] := by simp
  rw [hl] at R3
  refine under_resolved destDir _ (last ++ rest) _ R3 ?_ ?_ ?_
  · intro e he
    simp only [List.cons_append, List.append_assoc, List.mem_cons, List.mem_append,
      List.mem_singleton, List.not_mem_nil, or_false, false_or] at he
    rcases he with h | h | h | h | h
    · rw [h]; decide
    · exact hAs e h
    · rw [h]; exact hls
    · rw [h]; exact ((normalElem_iff sn).1 hsn).2.1
    · exact hAs e h
  · apply normalElem_of_space
    · simp [hsp]
    · simp only [List.mem_append, not_or]; exact ⟨hls, hrest⟩
  · rcases hin with hin | hin
    · left
      rw [hA] at hin
      have h1 : staysInside 1 A = true := by
        rw [staysInside_append] at hin
        simp only [Bool.and_eq_true] at hin
        exact hin.1
      have hl2 : "TV Shows".toList :: (A ++ [last]) ++ [sn] ++ A =
          "TV Shows".toList :: ((A ++ [last]) ++ (sn :: A)) := by simp
      rw [hl2, staysInside_cons_normal 0 _ _ hT, staysInside_append, hin,
        staysInside_cons_normal _ _ _ hsn]
      exact staysInside_mono A 1 _ (by omega) h1
    · exact Or.inr hin

/-- The movie layout: the title and the year may hold separators. -/
theorem under_movie (destDir t y rest : GoString) (hy : y.length ≤ 4)
    (hrest : '/' ∉ rest) (hp : ')' ∈ rest)
    (hin : staysInside 1 (splitSlash t).dropLast = true ∨ filepathClean destDir = ['/']) :
    Under (filepathClean destDir)
      (filepathJoin [filepathJoin [destDir, "Movies".toList],
        t ++ (" (".toList ++ (y ++ rest))]) := by
  have hM : normalElem "Movies".toList = true := by decide
  obtain ⟨A, last, hA⟩ := splitSlash_last t
  obtain ⟨B, ylast, hB⟩ := splitSlash_last y
  have hmem := splitSlash_mem_noSlash t
  rw [hA] at hmem
  have hAs : ∀ e ∈ A, '/' ∉ e := fun e he => hmem e (by simp [he])
  have hls : '/' ∉ last := hmem last (by simp)
  have hmemy := splitSlash_mem_noSlash y
  rw [hB] at hmemy
  have hBs : ∀ e ∈ B, '/' ∉ e := fun e he => hmemy e (by simp [he])
  have hyl : '/' ∉ ylast := hmemy ylast (by simp)
  have hsum := splitSlash_sum y
  rw [hB] at hsum
  have hyr : splitSlash (y ++ rest) = B ++ [ylast ++ rest] :=
    splitSlash_app y rest rest [] (splitSlash_noSlash rest hrest) B ylast hB
  have hopen : splitSlash " (".toList = [] ++ [" (".toList] := by decide
  have R2 := resolved_join destDir _ (t ++ (" (".toList ++ (y ++ rest))) _
    (resolved_dir destDir _ hM)
  have h1 : staysInside 1 (splitSlash t).dropLast = true → staysInside 1 A = true := by
    intro h
    rw [hA, List.dropLast_concat] at h
    exact h
  cases B with
  | nil =>
    have hname : splitSlash (t ++ (" (".toList ++ (y ++ rest))) =
        A ++ [last ++ (" (".toList ++ (ylast ++ rest))] :=
      splitSlash_app t _ _ [] (splitSlash_app _ _ _ [] hyr [] _ hopen) A last hA
    rw [hname, ← List.append_assoc] at R2
    refine under_resolved destDir _ _ _ R2 ?_ ?_ ?_
    · intro e he
      simp only [List.singleton_append, List.mem_cons] at he
      rcases he with h | h
      · rw [h]; decide
      · exact hAs e h
    · apply normalElem_of_space
      · simp
      · simp only [List.mem_append, not_or]
        exact ⟨hls, by decide, hyl, hrest⟩
    · rcases hin with hin | hin
      · left
        rw [List.singleton_append, staysInside_cons_normal 0 _ _ hM]
        exact h1 hin
      · exact Or.inr hin
  | cons b B2 =>
    have hname : splitSlash (t ++ (" (".toList ++ (y ++ rest))) =
        A ++ (last ++ (" (".toList ++ b)) :: (B2 ++ [ylast ++ rest]) :=
      splitSlash_app t _ _ _ (splitSlash_app _ _ _ _ hyr [] _ hopen) A last hA
    have hl : ["Movies".toList] ++
        (A ++ (last ++ (" (".toList ++ b)) :: (B2 ++ [ylast ++ rest])) =
        ("Movies".toList :: (A ++ (last ++ (" (".toList ++ b)) :: B2)) ++ [ylast ++ rest] := by
      simp
    rw [hname, hl] at R2
    have hbs : '/' ∉ b := hBs b (by simp)
    have hX : normalElem (last ++ (" (".toList ++ b)) = true := by
      apply normalElem_of_space
      · simp
      · simp only [List.mem_append, not_or]
        exact ⟨hls, by decide, hbs⟩
    refine under_resolved destDir _ _ _ R2 ?_ ?_ ?_
    · intro e he
      simp only [List.mem_cons, List.mem_append] at he
      rcases he with h | h | h | h
      · rw [h]; decide
      · exact hAs e h
      · rw [h]; exact ((normalElem_iff _).1 hX).2.1
      · exact hBs e (by simp [h])
    · apply normalElem_of_paren
      · simp [hp]
      · simp only [List.mem_append, not_or]; exact ⟨hyl, hrest⟩
    · rcases hin with hin | hin
      · left
        rw [staysInside_cons_normal 0 _ _ hM, staysInside_append, h1 hin,
          staysInside_cons_normal _ _ _ hX]
        apply staysInside_of_sum
        simp only [List.cons_append, List.map_cons, List.sum_cons, List.map_append,
          List.sum_append, List.map_nil, List.sum_nil] at hsum
        omega
      · exact Or.inr hin

theorem titleInside_of_noSlash (typ t : GoString) (h : '/' ∉ t) :
    titleInside typ t = true := by
  unfold titleInside
  rw [splitSlash_noSlash t h]
  split
  · rfl
  · exact staysInside_single 0 t

theorem titleInside_of_no_dotdot (typ t : GoString)
    (h : ∀ e ∈ splitSlash t, e ≠ ['.', '.']) : titleInside typ t = true := by
  unfold titleInside
  split
  · exact staysInside_of_no_dotdot _ (fun e he => h e (List.mem_of_mem_dropLast he)) 1
  · exact staysInside_of_no_dotdot _ h 1

/-! ## C1: first match wins, series before movie -/

/-- The error of `parseFile` is returned exactly when neither pattern matches
the base name without extension, whatever the providers answer, and its text
is `unable to parse filename: <name>`. -/
theorem parseFile_error_iff (U : UnicodeTables)
    (searchTVDB : GoString → Lookup TVDBResult) (searchTMDB : GoString → Lookup TMDBResult)
    (path destDir : GoString) :
    ((∃ msg, parseFile U searchTVDB searchTMDB path destDir = .error msg) ↔
      findStringSubmatch tvRegex 4 (baseName path) = none ∧
      findStringSubmatch movieRegex 3 (baseName path) = none) ∧
    (findStringSubmatch tvRegex 4 (baseName path) = none →
      findStringSubmatch movieRegex 3 (baseName path) = none →
      parseFile U searchTVDB searchTMDB path destDir =
        .error ("unable to parse filename: ".toList ++ baseName path)) := by
  cases h1 : findStringSubmatch tvRegex 4 (baseName path) with
  | some m =>
    rw [parseFile_tv U searchTVDB searchTMDB path destDir m h1]
    refine ⟨?_, fun h => by simp at h⟩
    simp only [false_and, iff_false, not_exists, reduceCtorEq]
    exact fun msg => finishTV_ne_error _ _ _ _
  | none =>
    cases h2 : findStringSubmatch movieRegex 3 (baseName path) with
    | some m =>
      rw [parseFile_movie U searchTVDB searchTMDB path destDir m h1 h2]
      refine ⟨?_, fun _ h => by simp at h⟩
      simp only [and_false, iff_false, not_exists, reduceCtorEq]
      exact fun msg => finishMovie_ne_error _ _ _ _
    | none =>
      rw [parseFile_neither U searchTVDB searchTMDB path destDir h1 h2]
      refine ⟨?_, fun _ _ => rfl⟩
      simp

/-- Every descriptor that `parseFile` returns has the type of the first
pattern that matches: "tv" when `tvRegex` matches, "movie" when it does not
and `movieRegex` does. -/
theorem parseFile_typ_of_match (U : UnicodeTables)
    (searchTVDB : GoString → Lookup TVDBResult) (searchTMDB : GoString → Lookup TMDBResult)
    (path destDir : GoString) (mf : MediaFile)
    (h : parseFile U searchTVDB searchTMDB path destDir = .ok mf) :
    (findStringSubmatch tvRegex 4 (baseName path) ≠ none → mf.Typ = "tv".toList) ∧
    (findStringSubmatch tvRegex 4 (baseName path) = none → mf.Typ = "movie".toList) := by
  cases h1 : findStringSubmatch tvRegex 4 (baseName path) with
  | some m =>
    rw [parseFile_tv U searchTVDB searchTMDB path destDir m h1] at h
    obtain ⟨t, y, hmf, _⟩ := finishTV_inv _ _ _ _ h
    refine ⟨fun _ => ?_, fun h => by simp at h⟩
    rw [hmf]; rfl
  | none =>
    refine ⟨fun h => by simp at h, fun _ => ?_⟩
    cases h2 : findStringSubmatch movieRegex 3 (baseName path) with
    | some m =>
      rw [parseFile_movie U searchTVDB searchTMDB path destDir m h1 h2] at h
      obtain ⟨t, y, hmf, _⟩ := finishMovie_inv _ _ _ _ h
      rw [hmf]; rfl
    | none =>
      rw [parseFile_neither U searchTVDB searchTMDB path destDir h1 h2] at h
      simp at h

/-- On provider dates that do not stop the year update (`dateOK`), a
descriptor of type "tv" is returned when `tvRegex` matches, and a descriptor
of type "movie" when `tvRegex` does not match and `movieRegex` does. -/
theorem parseFile_first_match (U : UnicodeTables)
    (searchTVDB : GoString → Lookup TVDBResult) (searchTMDB : GoString → Lookup TMDBResult)
    (path destDir : GoString)
    (htv : ∀ t d ds, searchTVDB t = .ok (d :: ds) → dateOK d.FirstAired = true)
    (htm : ∀ t d ds, searchTMDB t = .ok (d :: ds) → dateOK d.ReleaseDate = true) :
    (findStringSubmatch tvRegex 4 (baseName path) ≠ none →
      ∃ mf, parseFile U searchTVDB searchTMDB path destDir = .ok mf ∧ mf.Typ = "tv".toList) ∧
    (findStringSubmatch tvRegex 4 (baseName path) = none →
      findStringSubmatch movieRegex 3 (baseName path) ≠ none →
      ∃ mf, parseFile U searchTVDB searchTMDB path destDir = .ok mf ∧
        mf.Typ = "movie".toList) := by
  cases h1 : findStringSubmatch tvRegex 4 (baseName path) with
  | some m =>
    rw [parseFile_tv U searchTVDB searchTMDB path destDir m h1]
    exact ⟨fun _ => finishTV_ok _ _ _ (htv _), fun h => by simp at h⟩
  | none =>
    cases h2 : findStringSubmatch movieRegex 3 (baseName path) with
    | some m =>
      rw [parseFile_movie U searchTVDB searchTMDB path destDir m h1 h2]
      exact ⟨fun h => by simp at h, fun _ _ => finishMovie_ok _ _ _ (htm _)⟩
    | none =>
      exact ⟨fun h => by simp at h, fun _ h => by simp at h⟩

set_option maxRecDepth 100000 in
/-- C1 (the code departs from the claim).  The base name
`Show.2010.S01E02.720p` matches `tvRegex`, and `Heat.1995.720p` matches
`movieRegex` only; with a first result whose date has two bytes the year
update `[:4]` is out of range and `parseFile` ends in a run-time panic: no
descriptor of type "tv", and no descriptor of type "movie", is returned. -/
theorem parseFile_match_then_fault :
    findStringSubmatch tvRegex 4 (baseName "Show.2010.S01E02.720p.mkv".toList) ≠ none ∧
    parseFile asciiTables
        (fun _ => .ok [⟨1, "Show".toList, "20".toList, [], []⟩]) (fun _ => .error [])
        "Show.2010.S01E02.720p.mkv".toList "/dest".toList = .fault ∧
    findStringSubmatch tvRegex 4 (baseName "Heat.1995.720p.mkv".toList) = none ∧
    findStringSubmatch movieRegex 3 (baseName "Heat.1995.720p.mkv".toList) ≠ none ∧
    parseFile asciiTables (fun _ => .error [])
        (fun _ => .ok [⟨949, "Heat".toList, "19".toList⟩])
        "Heat.1995.720p.mkv".toList "/dest".toList = .fault := by
  refine ⟨by decide, by decide, by decide, by decide, by decide⟩

/-! ## C2, C3: where the code departs from the claims -/

set_option maxRecDepth 100000 in
/-- C2 (the code departs from the claim).  The base name `Inception.2010`
is a title, a delimiter and a year with nothing after the year; `movieRegex`
asks for at least one delimiter after the year, so `parseFile` answers with
the classification error, whatever the providers and the destination. -/
theorem parseFile_year_last_fails (U : UnicodeTables)
    (searchTVDB : GoString → Lookup TVDBResult) (searchTMDB : GoString → Lookup TMDBResult)
    (destDir : GoString) :
    parseFile U searchTVDB searchTMDB "Inception.2010.mkv".toList destDir =
      .error "unable to parse filename: Inception.2010".toList :=
  parseFile_neither U searchTVDB searchTMDB "Inception.2010.mkv".toList destDir
    (by decide) (by decide)

set_option maxRecDepth 100000 in
/-- C3 (the code departs from the claim).  A first result whose date has
three bytes passes the test `!= ""` and the slice `[:4]` is out of range:
`parseFile` ends in a run-time panic, in the movie branch and in the series
branch. -/
theorem parseFile_short_date_faults :
    parseFile asciiTables (fun _ => .error [])
        (fun _ => .ok [⟨27205, "Inception".toList, "201".toList⟩])
        "Inception.2010.1080p.mkv".toList "/dest".toList = .fault ∧
    parseFile asciiTables
        (fun _ => .ok [⟨1, "Show".toList, "200".toList, [], []⟩]) (fun _ => .error [])
        "show.s1e1.mkv".toList "/dest".toList = .fault := by
  constructor <;> decide

/-! ## C4: enrichment is best effort -/

/-- C4.  When the lookup made for the locally parsed title returns an error
or an empty result sequence, `parseFile` returns a descriptor, whose title
is `cleanTitle` of the first capture and whose year is empty for a series
and the second capture for a movie. -/
theorem parseFile_lookup_failure (U : UnicodeTables)
    (searchTVDB : GoString → Lookup TVDBResult) (searchTMDB : GoString → Lookup TMDBResult)
    (path destDir : GoString) :
    (∀ m, findStringSubmatch tvRegex 4 (baseName path) = some m →
      noMatch (searchTVDB (cleanTitle U (m.getD 1 []))) = true →
      ∃ mf, parseFile U searchTVDB searchTMDB path destDir = .ok mf ∧
        mf.Title = cleanTitle U (m.getD 1 []) ∧ mf.Year = []) ∧
    (∀ m, findStringSubmatch tvRegex 4 (baseName path) = none →
      findStringSubmatch movieRegex 3 (baseName path) = some m →
      noMatch (searchTMDB (cleanTitle U (m.getD 1 []))) = true →
      ∃ mf, parseFile U searchTVDB searchTMDB path destDir = .ok mf ∧
        mf.Title = cleanTitle U (m.getD 1 []) ∧ mf.Year = m.getD 2 []) := by
  constructor
  · intro m h hn
    rw [parseFile_tv U searchTVDB searchTMDB path destDir m h, finishTV_noMatch _ _ _ hn]
    exact ⟨_, rfl, rfl, rfl⟩
  · intro m h1 h hn
    rw [parseFile_movie U searchTVDB searchTMDB path destDir m h1 h,
      finishMovie_noMatch _ _ _ hn]
    exact ⟨_, rfl, rfl, rfl⟩

set_option maxRecDepth 100000 in
theorem parseFile_lookup_failure_witness :
    (∃ mf, parseFile asciiTables (fun _ => .error "timeout".toList) (fun _ => .ok [])
        "Breaking.Bad.S01E02.720p.mkv".toList "/dest".toList = .ok mf ∧
      mf.Title = "Breaking Bad".toList ∧ mf.Year = []) ∧
    (∃ mf, parseFile asciiTables (fun _ => .error "timeout".toList) (fun _ => .ok [])
        "Inception.2010.1080p.mkv".toList "/dest".toList = .ok mf ∧
      mf.Title = "Inception".toList ∧ mf.Year = "2010".toList) :=
  ⟨(parseFile_lookup_failure asciiTables (fun _ => .error "timeout".toList) (fun _ => .ok [])
      "Breaking.Bad.S01E02.720p.mkv".toList "/dest".toList).1
      ["Breaking.Bad.S01E02.720p".toList, "Breaking.Bad".toList, "01".toList, "02".toList,
        "720p".toList] (by decide) (by decide),
   (parseFile_lookup_failure asciiTables (fun _ => .error "timeout".toList) (fun _ => .ok [])
      "Inception.2010.1080p.mkv".toList "/dest".toList).2
      ["Inception.2010.1080p".toList, "Inception".toList, "2010".toList, "1080p".toList]
      (by decide) (by decide) (by decide)⟩

/-! ## C5: the movie layout -/

theorem movieName_movieFile (U : UnicodeTables) (path ext : GoString) (m : List GoString) :
    movieName (movieFile U path ext m) =
      cleanTitle U (m.getD 1 []) ++ " (".toList ++ m.getD 2 [] ++ ")".toList ++
        qualityTag (m.getD 3 []) ++ ext := rfl

set_option maxRecDepth 100000 in
theorem inception_facts :
    findStringSubmatch tvRegex 4 (baseName "Inception.2010.1080p.mkv".toList) = none ∧
    findStringSubmatch movieRegex 3 (baseName "Inception.2010.1080p.mkv".toList) =
      some ["Inception.2010.1080p".toList, "Inception".toList, "2010".toList,
        "1080p".toList] ∧
    (["Inception.2010.1080p".toList, "Inception".toList, "2010".toList,
        "1080p".toList] : List GoString).getD 1 [] = "Inception".toList ∧
    ((["Inception.2010.1080p".toList, "Inception".toList, "2010".toList,
        "1080p".toList] : List GoString).getD 2 [] = "2010".toList ∧
      (["Inception.2010.1080p".toList, "Inception".toList, "2010".toList,
        "1080p".toList] : List GoString).getD 3 [] = "1080p".toList) ∧
    filepathExt (filepathBase "Inception.2010.1080p.mkv".toList) = ".mkv".toList ∧
    "Inception".toList ++ " (".toList ++ "2010".toList ++ ")".toList ++
        qualityTag "1080p".toList ++ ".mkv".toList =
      "Inception (2010) [1080p].mkv".toList := by
  decide

/-- C5.  For every movie descriptor that `parseFile` returns, the extension
is that of the base name (empty or starting with its dot) and the target
path is `Join(Join(destDir, "Movies"), name)` with `name` the text
`<title> (<year>) [<quality>]<ext>`, the bracket segment left out for an empty
quality; when title and year hold no separator this is the cleaned destination
followed by the elements `Movies` and `name`.  `Inception.2010.1080p.mkv`
with no metadata match gives `<dest>/Movies/Inception (2010) [1080p].mkv`. -/
theorem movie_targetPath (U : UnicodeTables)
    (searchTVDB : GoString → Lookup TVDBResult) (searchTMDB : GoString → Lookup TMDBResult)
    (destDir : GoString) :
    (∀ path mf, parseFile U searchTVDB searchTMDB path destDir = .ok mf →
      mf.Typ = "movie".toList →
      mf.Ext = filepathExt (filepathBase path) ∧
      (mf.Ext = [] ∨ mf.Ext.head? = some '.') ∧
      mf.TargetPath = filepathJoin [filepathJoin [destDir, "Movies".toList], movieName mf] ∧
      ('/' ∉ mf.Title → '/' ∉ mf.Year →
        mf.TargetPath =
          joinElem (joinElem (filepathClean destDir) "Movies".toList) (movieName mf))) ∧
    (noMatch (searchTMDB "Inception".toList) = true →
      ∃ mf, parseFile U searchTVDB searchTMDB "Inception.2010.1080p.mkv".toList destDir
          = .ok mf ∧
        mf.TargetPath = joinElem (joinElem (filepathClean destDir) "Movies".toList)
          "Inception (2010) [1080p].mkv".toList) := by
  constructor
  · intro path mf h hm
    obtain ⟨m, t, y, h1, h2, hmf, _⟩ :=
      parseFile_movie_inv U searchTVDB searchTMDB path destDir mf h hm
    have hns := match_noSlash path m (Or.inr h2)
    have hq : '/' ∉ mf.Quality := by
      rw [hmf]; exact inside_noSlash _ _ (captures_inside _ _ _ _ h2 3) hns
    have he : '/' ∉ mf.Ext := by rw [hmf]; exact filepathExt_noSlash _
    have hpath : mf.TargetPath =
        filepathJoin [filepathJoin [destDir, "Movies".toList], movieName mf] := by
      rw [hmf, targetMovie_path _ _ rfl]; rfl
    refine ⟨by rw [hmf]; rfl, by rw [hmf]; exact extScan_dot _ _, hpath, ?_⟩
    intro ht hy
    rw [hpath, join_movie _ _ (movieName_normal mf ht hy hq he)]
  · intro hn
    obtain ⟨h1, h2, hg1, hg2, hext, hname⟩ := inception_facts
    have hc : cleanTitle U "Inception".toList = "Inception".toList := rfl
    rw [parseFile_movie U searchTVDB searchTMDB _ destDir _ h1 h2,
      finishMovie_noMatch _ _ _ (by rw [hg1, hc]; exact hn)]
    refine ⟨_, rfl, ?_⟩
    rw [targetMovie_path _ _ rfl, movieName_movieFile, hg1, hg2.1, hg2.2, hc, hext, hname,
      join_movie _ _ (by decide)]

set_option maxRecDepth 100000 in
theorem movie_targetPath_witness :
    ∃ mf, parseFile asciiTables (fun _ => .error "offline".toList) (fun _ => .ok [])
        "Inception.2010.1080p.mkv".toList "/dest".toList = .ok mf ∧
      mf.TargetPath = "/dest/Movies/Inception (2010) [1080p].mkv".toList :=
  (movie_targetPath asciiTables (fun _ => .error "offline".toList) (fun _ => .ok [])
    "/dest".toList).2 (by decide)

/-! ## C6: the series layout -/

/-- C6.  For every series descriptor that `parseFile` returns, season and
episode are the second and third capture, each a numeral of one or two digits,
and the target path is
`Join(Join(Join(destDir, "TV Shows", title), "Season " + season), name)` with
`name` the text `<title> S<ss>E<ee> [<quality>]<ext>`, season and episode padded
with a zero to two digits and the bracket segment left out for an empty
quality; the season directory carries the season as captured.  For a title
that is a naming element this is the cleaned destination followed by the
elements `TV Shows`, the title, `Season <season>` and `name`.
`show.s1e1.mkv` with no metadata match gives
`<dest>/TV Shows/Show/Season 1/Show S01E01.mkv`. -/
theorem tv_targetPath (U : UnicodeTables)
    (searchTVDB : GoString → Lookup TVDBResult) (searchTMDB : GoString → Lookup TMDBResult)
    (destDir : GoString) :
    (∀ path mf, parseFile U searchTVDB searchTMDB path destDir = .ok mf →
      mf.Typ = "tv".toList →
      (∃ m, findStringSubmatch tvRegex 4 (baseName path) = some m ∧
        mf.Season = m.getD 2 [] ∧ mf.Episode = m.getD 3 []) ∧
      (1 ≤ mf.Season.length ∧ mf.Season.length ≤ 2 ∧ ∀ c ∈ mf.Season, reDigit c = true) ∧
      (1 ≤ mf.Episode.length ∧ mf.Episode.length ≤ 2 ∧
        ∀ c ∈ mf.Episode, reDigit c = true) ∧
      mf.TargetPath =
        filepathJoin [filepathJoin [filepathJoin [destDir, "TV Shows".toList, mf.Title],
          "Season ".toList ++ mf.Season], episodeName mf] ∧
      (normalElem mf.Title = true →
        mf.TargetPath =
          joinElem (joinElem (joinElem (joinElem (filepathClean destDir) "TV Shows".toList)
            mf.Title) ("Season ".toList ++ mf.Season)) (episodeName mf))) ∧
    (noMatch (searchTVDB "Show".toList) = true →
      ∃ mf, parseFile U searchTVDB searchTMDB "show.s1e1.mkv".toList destDir = .ok mf ∧
        mf.TargetPath =
          joinElem (joinElem (joinElem (joinElem (filepathClean destDir) "TV Shows".toList)
            "Show".toList) "Season 1".toList) "Show S01E01.mkv".toList) := by
  have hgen : ∀ path mf, parseFile U searchTVDB searchTMDB path destDir = .ok mf →
      mf.Typ = "tv".toList →
      (∃ m, findStringSubmatch tvRegex 4 (baseName path) = some m ∧
        mf.Season = m.getD 2 [] ∧ mf.Episode = m.getD 3 []) ∧
      (1 ≤ mf.Season.length ∧ mf.Season.length ≤ 2 ∧ ∀ c ∈ mf.Season, reDigit c = true) ∧
      (1 ≤ mf.Episode.length ∧ mf.Episode.length ≤ 2 ∧
        ∀ c ∈ mf.Episode, reDigit c = true) ∧
      mf.TargetPath =
        filepathJoin [filepathJoin [filepathJoin [destDir, "TV Shows".toList, mf.Title],
          "Season ".toList ++ mf.Season], episodeName mf] ∧
      (normalElem mf.Title = true →
        mf.TargetPath =
          joinElem (joinElem (joinElem (joinElem (filepathClean destDir) "TV Shows".toList)
            mf.Title) ("Season ".toList ++ mf.Season)) (episodeName mf)) := by
    intro path mf h hm
    obtain ⟨m, t, y, h1, hmf, _⟩ :=
      parseFile_tv_inv U searchTVDB searchTMDB path destDir mf h hm
    obtain ⟨_, _, hS, hE⟩ := tvRegex_captures _ _ h1
    have hns := match_noSlash path m (Or.inl h1)
    have hseason : mf.Season = m.getD 2 [] := by rw [hmf]; rfl
    have hepisode : mf.Episode = m.getD 3 [] := by rw [hmf]; rfl
    have hq : '/' ∉ mf.Quality := by
      rw [hmf]; exact inside_noSlash _ _ (captures_inside _ _ _ _ h1 4) hns
    have he : '/' ∉ mf.Ext := by rw [hmf]; exact filepathExt_noSlash _
    have hpath : mf.TargetPath =
        filepathJoin [filepathJoin [filepathJoin [destDir, "TV Shows".toList, mf.Title],
          "Season ".toList ++ mf.Season], episodeName mf] := by
      rw [hmf, targetTV_path _ _ rfl ⟨hS.1, hS.2.1⟩ ⟨hE.1, hE.2.1⟩]; rfl
    refine ⟨⟨m, h1, hseason, hepisode⟩, by rw [hseason]; exact hS,
      by rw [hepisode]; exact hE, hpath, ?_⟩
    intro ht
    have hsl : '/' ∉ mf.Season := by rw [hseason]; exact digits_noSlash _ hS.2.2
    have hel : '/' ∉ mf.Episode := by rw [hepisode]; exact digits_noSlash _ hE.2.2
    rw [hpath, join_tv _ _ _ _ ht (season_normal _ hsl)
      (episodeName_normal mf ((normalElem_iff _).1 ht).2.1 hsl hel hq he)]
  refine ⟨hgen, ?_⟩
  · intro hn
    obtain ⟨h1, hg1, ⟨hg2, hg3, hg4⟩, hext, hname⟩ := show_facts
    have hc : cleanTitle U "show".toList = "Show".toList := rfl
    have hpf := parseFile_tv U searchTVDB searchTMDB "show.s1e1.mkv".toList destDir _ h1
    rw [finishTV_noMatch _ _ _ (by rw [hg1, hc]; exact hn)] at hpf
    refine ⟨_, hpf, ?_⟩
    obtain ⟨_, _, _, _, hB⟩ := hgen _ _ hpf rfl
    have hT : (targetTV destDir (tvFile U "show.s1e1.mkv".toList
        (filepathExt (filepathBase "show.s1e1.mkv".toList))
        ["show.s1e1".toList, "show".toList, "1".toList, "1".toList, []])).Title
        = "Show".toList := by
      show cleanTitle U (List.getD _ 1 []) = _
      rw [hg1, hc]
    have hS : (targetTV destDir (tvFile U "show.s1e1.mkv".toList
        (filepathExt (filepathBase "show.s1e1.mkv".toList))
        ["show.s1e1".toList, "show".toList, "1".toList, "1".toList, []])).Season
        = "1".toList := hg2
    have hN : episodeName (targetTV destDir (tvFile U "show.s1e1.mkv".toList
        (filepathExt (filepathBase "show.s1e1.mkv".toList))
        ["show.s1e1".toList, "show".toList, "1".toList, "1".toList, []]))
        = "Show S01E01.mkv".toList := by
      rw [show episodeName (targetTV destDir (tvFile U "show.s1e1.mkv".toList
        (filepathExt (filepathBase "show.s1e1.mkv".toList))
        ["show.s1e1".toList, "show".toList, "1".toList, "1".toList, []])) =
        episodeName (tvFile U "show.s1e1.mkv".toList
        (filepathExt (filepathBase "show.s1e1.mkv".toList))
        ["show.s1e1".toList, "show".toList, "1".toList, "1".toList, []]) from rfl,
        episodeName_tvFile, hg1, hg2, hg3, hg4, hc, hext, hname]
    have hfin := hB (by rw [hT]; decide)
    rw [hT, hS, hN] at hfin
    exact hfin

set_option maxRecDepth 100000 in
theorem tv_targetPath_witness :
    ∃ mf, parseFile asciiTables (fun _ => .ok []) (fun _ => .error "offline".toList)
        "show.s1e1.mkv".toList "/dest".toList = .ok mf ∧
      mf.TargetPath = "/dest/TV Shows/Show/Season 1/Show S01E01.mkv".toList :=
  (tv_targetPath asciiTables (fun _ => .ok []) (fun _ => .error "offline".toList)
    "/dest".toList).2 (by decide)

/-! ## C7: dry run -/

/-- C7.  With `dryRun = true` and an operation among move, copy and symlink,
`processFile` returns a nil error, makes no call that changes the file
system, and writes the line `Would <operation>: <source> -> <target>`
(after the debug line when the debug flag is set). -/
theorem processFile_dryRun (os : OS) (debug : Bool) (mf : MediaFile) (operation : GoString)
    (hop : operation = "move".toList ∨ operation = "copy".toList ∨
      operation = "symlink".toList) :
    (processFile os debug mf operation true).2 = none ∧
    (∀ e ∈ (processFile os debug mf operation true).1, e.mutates = false) ∧
    (processFile os debug mf operation true).1 =
      debugLog debug "Processing file with operation: %s".toList [operation] ++
        [Effect.stdout ("Would ".toList ++ (operation ++ (": ".toList ++ (mf.Path ++
          (" -> ".toList ++ (mf.TargetPath ++ "\n".toList))))))] := by
  rcases hop with h | h | h <;> subst h <;>
    cases debug <;> simp [processFile, debugLog, sprintf, Effect.mutates]

set_option maxRecDepth 100000 in
theorem processFile_dryRun_witness :
    processFile ⟨fun _ => some "denied".toList, fun _ _ => some "denied".toList,
        fun _ _ => some "denied".toList, fun _ => some "denied".toList,
        fun _ => some "denied".toList, fun _ _ => some "denied".toList⟩ false
      ⟨"a.mkv".toList, "movie".toList, "A".toList, "2010".toList, [], [], [], ".mkv".toList,
        "/dest/Movies/A (2010).mkv".toList⟩ "move".toList true =
      ([Effect.stdout "Would move: a.mkv -> /dest/Movies/A (2010).mkv\n".toList], none) :=
  Prod.ext (processFile_dryRun _ false _ "move".toList (Or.inl rfl)).2.2
    (processFile_dryRun _ false _ "move".toList (Or.inl rfl)).1

/-! ## C8: when the title is empty -/

set_option maxRecDepth 100000 in
/-- C8 (as stated, refuted).  The base name `..S01E02` matches `tvRegex` with
the title segment `.`, which `cleanTitle` turns into the empty string: the
descriptor returned has an empty title. -/
theorem title_empty_counterexample :
    parseFile asciiTables (fun _ => .ok []) (fun _ => .ok [])
        "..S01E02.mkv".toList "/dest".toList =
      .ok ⟨"..S01E02.mkv".toList, "tv".toList, [], [], "01".toList, "02".toList, [],
        ".mkv".toList, "/dest/TV Shows/Season 01/ S01E02.mkv".toList⟩ := by
  decide

/-- C8 (amended).  When a file classifies and the lookup gives no match, the
captured title segment is non-empty and `parseFile` returns a descriptor whose
title is `cleanTitle` of that segment; the title is empty exactly when the
segment is made of dots and white space only, and non-empty otherwise.  The
case tables are taken to keep white space apart (`TablesKeepSpace`). -/
theorem title_empty_iff (U : UnicodeTables) (hU : TablesKeepSpace U)
    (searchTVDB : GoString → Lookup TVDBResult) (searchTMDB : GoString → Lookup TMDBResult)
    (path destDir : GoString) :
    (∀ m, findStringSubmatch tvRegex 4 (baseName path) = some m →
      noMatch (searchTVDB (cleanTitle U (m.getD 1 []))) = true →
      m.getD 1 [] ≠ [] ∧
      ∃ mf, parseFile U searchTVDB searchTMDB path destDir = .ok mf ∧
        mf.Title = cleanTitle U (m.getD 1 []) ∧
        (mf.Title = [] ↔ ∀ c ∈ m.getD 1 [], c = '.' ∨ unicodeIsSpace c = true)) ∧
    (∀ m, findStringSubmatch tvRegex 4 (baseName path) = none →
      findStringSubmatch movieRegex 3 (baseName path) = some m →
      noMatch (searchTMDB (cleanTitle U (m.getD 1 []))) = true →
      m.getD 1 [] ≠ [] ∧
      ∃ mf, parseFile U searchTVDB searchTMDB path destDir = .ok mf ∧
        mf.Title = cleanTitle U (m.getD 1 []) ∧
        (mf.Title = [] ↔ ∀ c ∈ m.getD 1 [], c = '.' ∨ unicodeIsSpace c = true)) := by
  constructor
  · intro m h hn
    rw [parseFile_tv U searchTVDB searchTMDB path destDir m h, finishTV_noMatch _ _ _ hn]
    exact ⟨(tvRegex_captures _ _ h).1, _, rfl, rfl, cleanTitle_eq_nil U hU _⟩
  · intro m h1 h hn
    rw [parseFile_movie U searchTVDB searchTMDB path destDir m h1 h,
      finishMovie_noMatch _ _ _ hn]
    exact ⟨(movieRegex_captures _ _ h).1, _, rfl, rfl, cleanTitle_eq_nil U hU _⟩

set_option maxRecDepth 100000 in
theorem title_empty_iff_witness :
    "Breaking.Bad".toList ≠ [] ∧
    ∃ mf, parseFile asciiTables (fun _ => .ok []) (fun _ => .ok [])
        "Breaking.Bad.S01E02.720p.mkv".toList "/dest".toList = .ok mf ∧
      mf.Title = "Breaking Bad".toList ∧
      (mf.Title = [] ↔ ∀ c ∈ "Breaking.Bad".toList, c = '.' ∨ unicodeIsSpace c = true) :=
  (title_empty_iff asciiTables (fun _ _ => ⟨rfl, rfl⟩) (fun _ => .ok []) (fun _ => .ok [])
    "Breaking.Bad.S01E02.720p.mkv".toList "/dest".toList).1
    ["Breaking.Bad.S01E02.720p".toList, "Breaking.Bad".toList, "01".toList, "02".toList,
      "720p".toList] (by decide) (by decide)

/-! ## C9: title normalisation -/

set_option maxRecDepth 100000 in
/-- C9 (as stated, refuted).  On `spider-man` the code capitalises the letter
after the hyphen, which is not the start of a whitespace-delimited token: the
result is `Spider-Man`, where the normalisation worded by the claim gives
`Spider-man`. -/
theorem cleanTitle_hyphen_counterexample :
    cleanTitle asciiTables "spider-man".toList = "Spider-Man".toList ∧
    cleanTitleSpec asciiTables "spider-man".toList = "Spider-man".toList ∧
    cleanTitle asciiTables "spider-man".toList ≠
      cleanTitleSpec asciiTables "spider-man".toList := by
  decide

/-- C9 (amended).  For every input, `cleanTitle` is the trimmed form of a
string `t` as long as the input, where `l` is the input with dots replaced by
spaces and every character lower-cased, and character `i` of `t` is the
title-case form of character `i` of `l` when `i = 0` or character `i - 1` of
`l` is a separator (`isSeparator`), and character `i` of `l` otherwise.  On
inputs made of plain characters this is the capitalisation of
whitespace-delimited tokens worded by the claim, and `the.matrix` becomes
`The Matrix`. -/
theorem cleanTitle_words (U : UnicodeTables) (s : GoString) :
    (∃ l t : GoString,
      l = s.map (fun c => unicodeToLower U (if c = '.' then ' ' else c)) ∧
      t.length = s.length ∧
      (∀ i, i < s.length →
        t.getD i ' ' =
          if i = 0 ∨ isSeparator U (l.getD (i - 1) ' ') = true then
            unicodeToTitle U (l.getD i ' ')
          else l.getD i ' ') ∧
      cleanTitle U s = stringsTrimSpace t) ∧
    ((∀ c ∈ s, plainChar c = true) → cleanTitle U s = cleanTitleSpec U s) ∧
    cleanTitle U "the.matrix".toList = "The Matrix".toList := by
  refine ⟨?_, ?_, ?_⟩
  · refine ⟨_, stringsTitle U (stringsToLower U (replaceAllChar '.' ' ' s)), rfl, ?_, ?_, rfl⟩
    · simp [stringsTitle, titleFrom_length, stringsToLower, replaceAllChar]
    · intro i hi
      have hl : (s.map (fun c => unicodeToLower U (if c = '.' then ' ' else c)))
          = stringsToLower U (replaceAllChar '.' ' ' s) := by
        simp [stringsToLower, replaceAllChar, List.map_map, Function.comp_def]
      rw [hl, stringsTitle, titleFrom_getD U _ ' ' i
        (by simpa [stringsToLower, replaceAllChar] using hi)]
      have hsp : isSeparator U ' ' = true := rfl
      cases i with
      | zero => simp [hsp]
      | succ i => simp
  · intro hs
    unfold cleanTitle cleanTitleSpec
    simp only [stringsTitle]
    rw [titleFrom_eq_capitalizeTokens U _ (replaceAllChar_plain s hs) ' ']
    rfl
  · rfl

set_option maxRecDepth 100000 in
theorem cleanTitle_words_witness :
    cleanTitle asciiTables "the.matrix".toList =
      cleanTitleSpec asciiTables "the.matrix".toList :=
  (cleanTitle_words asciiTables "the.matrix".toList).2.1 (by decide)

/-! ## C10: the target path and the destination -/

set_option maxRecDepth 100000 in
/-- C10 (as stated, refuted).  A first result with the title `../../../etc/x`
is joined into the target path as it is, and `Join` resolves its `..`
elements: the target path is `/etc/x (2010) [1080p].mkv`, not under the
destination `/dest`. -/
theorem targetPath_escape_counterexample :
    parseFile asciiTables (fun _ => .error "offline".toList)
        (fun _ => .ok [⟨27205, "../../../etc/x".toList, "2010-07-16".toList⟩])
        "Inception.2010.1080p.mkv".toList "/dest".toList =
      .ok ⟨"Inception.2010.1080p.mkv".toList, "movie".toList, "../../../etc/x".toList,
        "2010".toList, [], [], "1080p".toList, ".mkv".toList,
        "/etc/x (2010) [1080p].mkv".toList⟩ ∧
    filepathClean "/dest".toList = "/dest".toList ∧
    ¬ Under (filepathClean "/dest".toList) "/etc/x (2010) [1080p].mkv".toList := by
  refine ⟨by decide, by decide, fun h => ?_⟩
  rw [show filepathClean "/dest".toList = "/dest".toList by decide] at h
  have hp := under_starts _ _ h (by decide) (by decide) (by decide)
  have : ("/dest".toList ++ ['/']).isPrefixOf "/etc/x (2010) [1080p].mkv".toList = true :=
    List.isPrefixOf_iff_prefix.2 hp
  revert this
  decide

theorem asciiTables_noSlash : TablesNoSlash asciiTables := by
  intro c hc
  have : c ≠ '/' := by
    intro h; subst h; revert hc; decide
  exact ⟨this, this⟩

/-- C10 (amended).  Every descriptor that `parseFile` returns has a target
path under the cleaned destination (the cleaned destination followed by one
or more naming elements) whenever its title does not climb above the
destination (`titleInside`), or the destination is the root directory;
there is no condition on the provider date.  In particular this holds for
every title without a `..` element, separators or not, and, when the case
tables never give the separator, whenever the lookup gives no match. -/
theorem targetPath_under (U : UnicodeTables)
    (searchTVDB : GoString → Lookup TVDBResult) (searchTMDB : GoString → Lookup TMDBResult)
    (path destDir : GoString) (mf : MediaFile)
    (h : parseFile U searchTVDB searchTMDB path destDir = .ok mf) :
    ((titleInside mf.Typ mf.Title = true ∨ filepathClean destDir = ['/']) →
      Under (filepathClean destDir) mf.TargetPath) ∧
    ((∀ e ∈ splitSlash mf.Title, e ≠ ['.', '.']) →
      Under (filepathClean destDir) mf.TargetPath) ∧
    (TablesNoSlash U →
      (∀ m, findStringSubmatch tvRegex 4 (baseName path) = some m →
        noMatch (searchTVDB (cleanTitle U (m.getD 1 []))) = true) →
      (∀ m, findStringSubmatch tvRegex 4 (baseName path) = none →
        findStringSubmatch movieRegex 3 (baseName path) = some m →
        noMatch (searchTMDB (cleanTitle U (m.getD 1 []))) = true) →
      Under (filepathClean destDir) mf.TargetPath) := by
  have key : (titleInside mf.Typ mf.Title = true ∨ filepathClean destDir = ['/']) →
      Under (filepathClean destDir) mf.TargetPath := by
    intro hin
    rcases parseFile_typ U searchTVDB searchTMDB path destDir mf h with htyp | htyp
    · obtain ⟨m, t, y, h1, hmf, _⟩ :=
        parseFile_tv_inv U searchTVDB searchTMDB path destDir mf h htyp
      obtain ⟨_, _, hS, hE⟩ := tvRegex_captures _ _ h1
      have hns := match_noSlash path m (Or.inl h1)
      have hcap : ∀ i, '/' ∉ m.getD i [] := fun i =>
        inside_noSlash _ _ (captures_inside _ _ _ _ h1 i) hns
      have hT : mf.Title = t := by rw [hmf]; rfl
      have hne : ¬ ("tv".toList = "movie".toList) := by decide
      rw [hT, htyp, titleInside, if_neg hne] at hin
      rw [hmf, targetTV_path _ _ rfl ⟨hS.1, hS.2.1⟩ ⟨hE.1, hE.2.1⟩]
      have hname : episodeName
          { tvFile U path (filepathExt (filepathBase path)) m with Title := t, Year := y } =
          t ++ (" S".toList ++ (zeroPad2 (m.getD 2 []) ++ ("E".toList ++
            (zeroPad2 (m.getD 3 []) ++ (qualityTag (m.getD 4 []) ++
              filepathExt (filepathBase path)))))) := by
        simp only [episodeName, tvFile, List.append_assoc]
      rw [hname]
      refine under_tv destDir t _ _ (season_normal _ (hcap 2)) ?_ (by simp) hin
      simp only [List.mem_append, not_or]
      exact ⟨by decide, zeroPad2_noSlash _ (hcap 2), by decide, zeroPad2_noSlash _ (hcap 3),
        qualityTag_noSlash _ (hcap 4), filepathExt_noSlash _⟩
    · obtain ⟨m, t, y, h1, h2, hmf, hty⟩ :=
        parseFile_movie_inv U searchTVDB searchTMDB path destDir mf h htyp
      have hns := match_noSlash path m (Or.inr h2)
      have hcap : ∀ i, '/' ∉ m.getD i [] := fun i =>
        inside_noSlash _ _ (captures_inside _ _ _ _ h2 i) hns
      have hy : y.length ≤ 4 := by
        obtain ⟨_, _, a, b, d1, d2, hyr, _⟩ := movieRegex_captures _ _ h2
        have hloc : (m.getD 2 []).length ≤ 4 := by rw [hyr]; simp
        rcases hty with ⟨_, rfl⟩ | ⟨d, ds, _, _, hy⟩
        · exact hloc
        · rcases hy with rfl | hy
          · exact hloc
          · exact sliceTo_length _ _ _ hy
      have hT : mf.Title = t := by rw [hmf]; rfl
      rw [hT, htyp, titleInside, if_pos rfl] at hin
      rw [hmf, targetMovie_path _ _ rfl]
      have hname : movieName
          { movieFile U path (filepathExt (filepathBase path)) m with Title := t, Year := y } =
          t ++ (" (".toList ++ (y ++ (")".toList ++
            (qualityTag (m.getD 3 []) ++ filepathExt (filepathBase path))))) := by
        simp only [movieName, movieFile, List.append_assoc]
      rw [hname]
      refine under_movie destDir t y _ hy ?_ (by simp) hin
      simp only [List.mem_append, not_or]
      exact ⟨by decide, qualityTag_noSlash _ (hcap 3), filepathExt_noSlash _⟩
  refine ⟨key, fun hd => key (Or.inl (titleInside_of_no_dotdot _ _ hd)), ?_⟩
  intro hU htv htm
  refine key (Or.inl (titleInside_of_noSlash _ _ ?_))
  rcases parseFile_typ U searchTVDB searchTMDB path destDir mf h with htyp | htyp
  · obtain ⟨m, t, y, h1, hmf, hty⟩ :=
      parseFile_tv_inv U searchTVDB searchTMDB path destDir mf h htyp
    have hns := match_noSlash path m (Or.inl h1)
    have hT : mf.Title = t := by rw [hmf]; rfl
    rw [hT]
    rcases hty with rfl | ⟨d, ds, hd, _⟩
    · exact cleanTitle_noSlash U hU _
        (inside_noSlash _ _ (captures_inside _ _ _ _ h1 1) hns)
    · have := htv m h1
      rw [hd] at this
      simp [noMatch] at this
  · obtain ⟨m, t, y, h1, h2, hmf, hty⟩ :=
      parseFile_movie_inv U searchTVDB searchTMDB path destDir mf h htyp
    have hns := match_noSlash path m (Or.inr h2)
    have hT : mf.Title = t := by rw [hmf]; rfl
    rw [hT]
    rcases hty with ⟨rfl, _⟩ | ⟨d, ds, hd, _⟩
    · exact cleanTitle_noSlash U hU _
        (inside_noSlash _ _ (captures_inside _ _ _ _ h2 1) hns)
    · have := htm m h1 h2
      rw [hd] at this
      simp [noMatch] at this

set_option maxRecDepth 100000 in
theorem targetPath_under_witness :
    (titleInside "movie".toList "Face/Off".toList = true ∧
      Under (filepathClean "/dest".toList)
        "/dest/Movies/Face/Off (1997) [1080p].mkv".toList) ∧
    (titleInside "movie".toList "Inception".toList = true ∧
      Under (filepathClean "/dest".toList) "/dest/Movies/) [1080p].mkv".toList) ∧
    Under (filepathClean "/dest".toList)
      "/dest/Movies/Inception (2010) [1080p].mkv".toList :=
  ⟨⟨by decide,
    (targetPath_under asciiTables (fun _ => .error "offline".toList)
      (fun _ => .ok [⟨754, "Face/Off".toList, "1997-06-27".toList⟩])
      "Face.Off.1997.1080p.mkv".toList "/dest".toList
      ⟨"Face.Off.1997.1080p.mkv".toList, "movie".toList, "Face/Off".toList, "1997".toList,
        [], [], "1080p".toList, ".mkv".toList,
        "/dest/Movies/Face/Off (1997) [1080p].mkv".toList⟩ (by decide)).1
      (Or.inl (by decide))⟩,
    ⟨by decide,
    (targetPath_under asciiTables (fun _ => .error "offline".toList)
      (fun _ => .ok [⟨27205, "Inception".toList, "/../x".toList⟩])
      "Inception.2010.1080p.mkv".toList "/dest".toList
      ⟨"Inception.2010.1080p.mkv".toList, "movie".toList, "Inception".toList, "/../".toList,
        [], [], "1080p".toList, ".mkv".toList,
        "/dest/Movies/) [1080p].mkv".toList⟩ (by decide)).1
      (Or.inl (by decide))⟩,
    (targetPath_under asciiTables (fun _ => .error "offline".toList)
      (fun _ => .error "offline".toList)
      "Inception.2010.1080p.mkv".toList "/dest".toList
      ⟨"Inception.2010.1080p.mkv".toList, "movie".toList, "Inception".toList, "2010".toList,
        [], [], "1080p".toList, ".mkv".toList,
        "/dest/Movies/Inception (2010) [1080p].mkv".toList⟩ (by decide)).2.2
      asciiTables_noSlash (fun _ _ => rfl) (fun _ _ _ => rfl)⟩

end SortHero
